import Mathlib

/-!
# ppdf: object graph, Collect, Write and the serializer of `main.go`

A shallow embedding of `src/main.go`.

* Go pointers (`*ObjectCatalog`, ...) are addresses into a `Heap`; an `Object`
  interface value is such an address, so two slots holding the same pointer
  hold the same address (aliasing is kept).  An address outside the heap plays
  the part of a nil interface: calling a method on it stops the program, which
  the model renders as `none`.
* `Collect` recurses through the interface; the model carries a fuel argument
  and returns `none` when it runs out (a cyclic graph never returns in Go).
* A Go `map[string]Object` is an association list; the order in which `range`
  enumerates it is not fixed by the language, so every `range` over `Fonts`
  goes through an enumeration parameter (`Enum`).
* Output is a list of bytes.  `fmt` verbs `%d`, `%010d`, `%05d`, `%s` are
  modelled by `fmtD`, `fmtDPad`, and plain byte concatenation.
* Go `int` is `Int`; lengths and byte positions are `Nat` (they are lengths of
  in-memory slices and buffers and stay far below `2^63`).
-/

namespace PPDF

/-! ## Bytes and `fmt` -/

abbrev Bytes := List UInt8

/-- The bytes of an ASCII string literal of the source. -/
def str (s : String) : Bytes := s.data.map fun c => UInt8.ofNat c.toNat

/-- Decimal digits of a natural number, most significant first (`strconv`). -/
def fmtNat (n : Nat) : Bytes := (Nat.toDigits 10 n).map fun c => UInt8.ofNat c.toNat

/-- The verb `%d` on an `int`. -/
def fmtD (i : Int) : Bytes :=
  if i < 0 then str "-" ++ fmtNat i.natAbs else fmtNat i.natAbs

/-- The verbs `%0wd` on an `int`: zeros are inserted after the sign, up to total width `w`. -/
def fmtDPad (w : Nat) (i : Int) : Bytes :=
  let ds := fmtNat i.natAbs
  if i < 0 then str "-" ++ (List.replicate ((w - 1) - ds.length) (UInt8.ofNat 48) ++ ds)
  else List.replicate (w - ds.length) (UInt8.ofNat 48) ++ ds

/-! ## Data model (`main.go` lines 109-225, 268-307) -/

abbrev Addr := Nat

structure objectBase where
  IDNum : Int
  Gen : Int
deriving DecidableEq, Repr

def objectBase.ID (o : objectBase) : Int := o.IDNum

def objectBase.Generation (o : objectBase) : Int := o.Gen

structure ObjectRef where
  ID : Int
  Gen : Int
deriving DecidableEq, Repr

structure Box where
  X : Int
  Y : Int
  W : Int
  H : Int
deriving DecidableEq, Repr

structure ObjectCatalog where
  base : objectBase
  Outline : Addr
  Pages : Addr
deriving DecidableEq, Repr

structure ObjectOutlines where
  base : objectBase
deriving DecidableEq, Repr

structure ObjectPages where
  base : objectBase
  Kids : List Addr
deriving DecidableEq, Repr

structure ObjectPage where
  base : objectBase
  Parent : ObjectRef
  MediaBox : Box
  Contents : Addr
  ProcSet : Addr
  Fonts : List (Bytes × Addr)
deriving DecidableEq, Repr

structure ObjectContent where
  base : objectBase
  Content : Bytes
deriving DecidableEq, Repr

structure ObjectProcSet where
  base : objectBase
deriving DecidableEq, Repr

structure ObjectFontType1 where
  base : objectBase
deriving DecidableEq, Repr

/-- The dynamic type of an `Object` interface value: one of the seven pointer types. -/
inductive Object where
  | catalog (c : ObjectCatalog)
  | outlines (o : ObjectOutlines)
  | pages (p : ObjectPages)
  | page (p : ObjectPage)
  | content (c : ObjectContent)
  | procSet (o : ObjectProcSet)
  | fontType1 (f : ObjectFontType1)
deriving DecidableEq, Repr

abbrev Heap := List Object

def Object.base : Object → objectBase
  | .catalog c => c.base
  | .outlines o => o.base
  | .pages p => p.base
  | .page p => p.base
  | .content c => c.base
  | .procSet o => o.base
  | .fontType1 f => f.base

def Object.ID (o : Object) : Int := o.base.ID

def Object.Generation (o : Object) : Int := o.base.Generation

/-- Enumeration order of a `range` over the `Fonts` map of the page at an address. The order
is a function of the page and its map: a run that ranges over the map of one page once
(its `Collect` is called once, and its `Write` once, each with an enumeration of its own) is
any assignment of orders to pages. Go picks an order anew at every `range` statement, so a
run in which `Collect` ranges over one page's map twice, in two different orders, is not
among those described; statements about all runs are made on graphs in which the traversal
reaches no page twice. -/
abbrev Enum := Addr → List (Bytes × Addr) → List (Bytes × Addr)

/-- An enumeration visits every entry of the map exactly once. -/
def Enum.Valid (e : Enum) : Prop := ∀ a l, (e a l).Perm l

/-- The enumeration that keeps the stored order. -/
def Enum.stored : Enum := fun _ l => l

/-- The enumeration that reverses the stored order. -/
def Enum.reversed : Enum := fun _ l => l.reverse

/-! ## Collect (`main.go` lines 140-148, 166-171, 186-195, 227-240, 273-278, 292-297, 309-314) -/

/-- The statement pair `if o.IDNum == 0 { o.IDNum = len(*objs) }`, `n` being `len(*objs)`. -/
def objectBase.assign (b : objectBase) (n : Nat) : objectBase :=
  if b.IDNum = 0 then { b with IDNum := (n : Int) } else b

/-- A `for _, x := range xs { x.Collect(parent, objs) }` loop over addresses. -/
def collectEach (call : Heap → Addr → ObjectRef → List Addr → Option (Heap × List Addr))
    (parent : ObjectRef) : List Addr → Heap → List Addr → Option (Heap × List Addr)
  | [], h, objs => some (h, objs)
  | x :: xs, h, objs =>
    match call h x parent objs with
    | none => none
    | some (h1, objs1) => collectEach call parent xs h1 objs1

/-- Dynamic dispatch of `Collect` on the object stored at address `a`. -/
def Collect (e : Enum) : Nat → Heap → Addr → ObjectRef → List Addr → Option (Heap × List Addr)
  | 0, _, _, _, _ => none
  | fuel + 1, h, a, parent, objs =>
    match h[a]? with
    | none => none
    | some (.catalog c) =>
      let objs := objs ++ [a]
      let c := { c with base := c.base.assign objs.length }
      let h := h.set a (.catalog c)
      let p : ObjectRef := { ID := c.base.ID, Gen := c.base.Generation }
      match Collect e fuel h c.Outline p objs with
      | none => none
      | some (h, objs) => Collect e fuel h c.Pages p objs
    | some (.outlines o) =>
      let objs := objs ++ [a]
      let o := { o with base := o.base.assign objs.length }
      some (h.set a (.outlines o), objs)
    | some (.pages p) =>
      let objs := objs ++ [a]
      let p := { p with base := p.base.assign objs.length }
      let h := h.set a (.pages p)
      let parent : ObjectRef := { ID := p.base.ID, Gen := p.base.Generation }
      collectEach (Collect e fuel) parent p.Kids h objs
    | some (.page p) =>
      let p := { p with Parent := parent }
      let objs := objs ++ [a]
      let p := { p with base := p.base.assign objs.length }
      let h := h.set a (.page p)
      let parent : ObjectRef := { ID := p.base.ID, Gen := p.base.Generation }
      match Collect e fuel h p.Contents parent objs with
      | none => none
      | some (h, objs) =>
        match Collect e fuel h p.ProcSet parent objs with
        | none => none
        | some (h, objs) =>
          collectEach (Collect e fuel) parent ((e a p.Fonts).map Prod.snd) h objs
    | some (.content c) =>
      let objs := objs ++ [a]
      let c := { c with base := c.base.assign objs.length }
      some (h.set a (.content c), objs)
    | some (.procSet o) =>
      let objs := objs ++ [a]
      let o := { o with base := o.base.assign objs.length }
      some (h.set a (.procSet o), objs)
    | some (.fontType1 f) =>
      let objs := objs ++ [a]
      let f := { f with base := f.base.assign objs.length }
      some (h.set a (.fontType1 f), objs)

/-! ## Write (`main.go` lines 150-160, 173-179, 197-212, 242-266, 279-286, 299-303, 315-324) -/

/-- The writer `w` inside one call of a `Write` method, with the calls registered by `defer`
(most recent first). -/
structure Frame where
  out : Bytes
  deferred : List Bytes
deriving DecidableEq, Repr

def Frame.new : Frame := { out := [], deferred := [] }

/-- The calls `fmt.Fprintf(w, ...)`, `fmt.Fprintln(w, ...)`, `w.Write(...)` with their rendered bytes. -/
def Frame.Fprint (f : Frame) (b : Bytes) : Frame := { f with out := f.out ++ b }

/-- The statement `defer fmt.Fprintln(w, ...)`: the rendered line waits for the return. -/
def Frame.defer (f : Frame) (b : Bytes) : Frame := { f with deferred := b :: f.deferred }

/-- Function return: the deferred calls run, last registered first. -/
def Frame.ret (f : Frame) : Bytes := f.deferred.foldl (fun acc b => acc ++ b) f.out

/-- The format `"%d %d"` applied to an identity number and a generation. -/
def fmtRef (id gen : Int) : Bytes := fmtD id ++ str " " ++ fmtD gen

/-- The leading line `"%d %d obj\n"`. -/
def objHeader (b : objectBase) : Bytes := fmtRef b.ID b.Generation ++ str " obj\n"

def ObjectCatalog.Write (h : Heap) (c : ObjectCatalog) : Option Bytes := do
  let w := Frame.new.Fprint (objHeader c.base)
  let w := w.defer (str "endobj\n")
  let w := w.Fprint (str "<< /Type /Catalog\n")
  let w := w.defer (str ">>\n")
  let outline ← h[c.Outline]?
  let w := w.Fprint (str "/Outlines " ++ fmtRef outline.ID outline.Generation ++ str " R\n")
  let pages ← h[c.Pages]?
  let w := w.Fprint (str "/Pages " ++ fmtRef pages.ID pages.Generation ++ str " R\n")
  pure w.ret

def ObjectOutlines.Write (c : ObjectOutlines) : Bytes :=
  let w := Frame.new.Fprint (objHeader c.base)
  let w := w.defer (str "endobj\n")
  let w := w.Fprint (str "<< /Type /Outlines\n")
  let w := w.defer (str ">>\n")
  let w := w.Fprint (str "/Count 0\n")
  w.ret

def ObjectPages.count (p : ObjectPages) : Nat := p.Kids.length

/-- The loop `for _, kid := range p.Kids { fmt.Fprintf(w, "%d %d R ", ...) }`. -/
def writeKids (h : Heap) : List Addr → Frame → Option Frame
  | [], w => some w
  | kid :: rest, w => do
    let k ← h[kid]?
    writeKids h rest (w.Fprint (fmtRef k.ID k.Generation ++ str " R "))

def ObjectPages.Write (h : Heap) (p : ObjectPages) : Option Bytes := do
  let w := Frame.new.Fprint (objHeader p.base)
  let w := w.defer (str "endobj\n")
  let w := w.Fprint (str "<< /Type /Pages\n")
  let w := w.defer (str ">>\n")
  let w := w.Fprint (str "/Kids [")
  let w ← writeKids h p.Kids w
  let w := w.Fprint (str "]\n")
  let w := w.Fprint (str "/Count " ++ fmtD (p.count : Int) ++ str "\n")
  pure w.ret

/-- The loop `for name, font := range p.Fonts { fmt.Fprintf(w, "/%s %d %d R\n", ...) }`
over the entries in the order of the enumeration. -/
def writeFonts (h : Heap) : List (Bytes × Addr) → Frame → Option Frame
  | [], w => some w
  | (name, font) :: rest, w => do
    let f ← h[font]?
    writeFonts h rest (w.Fprint (str "/" ++ name ++ str " " ++ fmtRef f.ID f.Generation ++ str " R\n"))

def ObjectPage.writeResource (e : Enum) (h : Heap) (a : Addr) (p : ObjectPage) : Option Bytes := do
  let w := Frame.new.Fprint (str "/Resources <<\n")
  let w := w.defer (str ">>\n")
  let procSet ← h[p.ProcSet]?
  let w := w.Fprint (str "/ProcSet " ++ fmtRef procSet.ID procSet.Generation ++ str " R\n")
  let w := w.Fprint (str "/Font <<\n")
  let w ← writeFonts h (e a p.Fonts) w
  let w := w.Fprint (str ">>\n")
  pure w.ret

def ObjectPage.Write (e : Enum) (h : Heap) (a : Addr) (p : ObjectPage) : Option Bytes := do
  let w := Frame.new.Fprint (objHeader p.base)
  let w := w.defer (str "endobj\n")
  let w := w.Fprint (str "<< /Type /Page")
  let w := w.defer (str ">>\n")
  let w := w.Fprint (str "/Parent " ++ fmtRef p.Parent.ID p.Parent.Gen ++ str " R\n")
  let w := w.Fprint (str "/MediaBox [" ++ fmtD p.MediaBox.X ++ str " " ++ fmtD p.MediaBox.Y
    ++ str " " ++ fmtD p.MediaBox.W ++ str " " ++ fmtD p.MediaBox.H ++ str "]\n")
  let contents ← h[p.Contents]?
  let w := w.Fprint (str "/Contents " ++ fmtRef contents.ID contents.Generation ++ str " R\n")
  let r ← p.writeResource e h a
  let w := w.Fprint r
  pure w.ret

def ObjectContent.Write (c : ObjectContent) : Bytes :=
  let w := Frame.new.Fprint (objHeader c.base)
  let w := w.defer (str "endobj\n")
  let w := w.Fprint (str "<< /Length " ++ fmtD (c.Content.length : Int) ++ str " >>\n")
  let w := w.Fprint (str "stream\n")
  let w := w.Fprint c.Content
  let w := w.Fprint (str "endstream\n")
  w.ret

def ObjectProcSet.Write (c : ObjectProcSet) : Bytes :=
  let w := Frame.new.Fprint (objHeader c.base)
  let w := w.Fprint (str "[/PDF /Text]\n")
  let w := w.Fprint (str "endobj\n")
  w.ret

def ObjectFontType1.Write (f : ObjectFontType1) : Bytes :=
  let w := Frame.new.Fprint (objHeader f.base)
  let w := w.defer (str "endobj\n")
  let w := w.Fprint (str "<< /Type /Font\n")
  let w := w.defer (str ">>\n")
  let w := w.Fprint (str "/Subtype /Type1\n")
  let w := w.Fprint (str "/BaseFont /Helvetica\n")
  let w := w.Fprint (str "/Encoding /WinAnsiEncoding\n")
  w.ret

/-- Dynamic dispatch of `Write` on the object stored at address `a`, into an empty buffer. -/
def Write (e : Enum) (h : Heap) (a : Addr) : Option Bytes :=
  match h[a]? with
  | none => none
  | some (.catalog c) => c.Write h
  | some (.outlines o) => some o.Write
  | some (.pages p) => p.Write h
  | some (.page p) => p.Write e h a
  | some (.content c) => some c.Write
  | some (.procSet o) => some o.Write
  | some (.fontType1 f) => some f.Write

/-! ## The serializer of `main` (`main.go` lines 83-106) -/

/-- The variables `xrefbuf`, `pos` and the bytes written to the file `w`. -/
structure Ser where
  xrefbuf : Bytes
  pos : Nat
  w : Bytes
deriving DecidableEq, Repr

/-- One index line `"%010d %05d n\n"`. -/
def xrefEntry (pos : Nat) (gen : Int) : Bytes :=
  fmtDPad 10 (pos : Int) ++ str " " ++ fmtDPad 5 gen ++ str " n\n"

/-- The loop `for _, obj := range objs` of lines 92-99. -/
def serializeLoop (e : Enum) (h : Heap) : List Addr → Ser → Option Ser
  | [], s => some s
  | obj :: rest, s => do
    let o ← h[obj]?
    let xrefbuf := s.xrefbuf ++ xrefEntry s.pos o.Generation
    let buf ← Write e h obj
    serializeLoop e h rest { xrefbuf := xrefbuf, pos := s.pos + buf.length, w := s.w ++ buf }

/-- The state before the loop: lines 83-90. -/
def serializeInit (objs : List Addr) : Ser :=
  let xrefbuf := str "xref\n"
  let xrefbuf := xrefbuf ++ (fmtD 0 ++ str " " ++ fmtD ((objs.length + 1 : Nat) : Int) ++ str "\n")
  let xrefbuf := xrefbuf ++ (fmtDPad 10 0 ++ str " " ++ fmtDPad 5 65535 ++ str " f\n")
  let header := str "%PDF-1.3\n"
  { xrefbuf := xrefbuf, pos := 0 + header.length, w := header }

/-- The trailer of lines 103-106.  In the format of line 106 the verb `%%` renders one
percent sign. -/
def trailer (h : Heap) (objs : List Addr) (catalog : Addr) (startxref : Nat) : Option Bytes := do
  let c ← h[catalog]?
  pure (str "trailer\n"
    ++ (str "<< /Size " ++ fmtD ((objs.length + 1 : Nat) : Int) ++ str "\n")
    ++ (str "/Root " ++ fmtRef c.ID c.Generation ++ str " R\n")
    ++ (str ">>\nstartxref\n" ++ fmtD (startxref : Int) ++ str "\n%EOF\n"))

/-- Everything `main` writes to the output file, given the collected registry: lines 83-106. -/
def serialize (e : Enum) (h : Heap) (objs : List Addr) (catalog : Addr) : Option Bytes := do
  let s ← serializeLoop e h objs (serializeInit objs)
  let startxref := s.pos
  let w := s.w ++ s.xrefbuf
  let t ← trailer h objs catalog startxref
  pure (w ++ t)

/-! ## The driver graph of `main` (`main.go` lines 55-76) -/

/-- The heap after lines 57-75: `helvetica` at address 0, then the catalog literal. -/
def driverHeap (content : Bytes) : Heap :=
  [ .fontType1 { base := ⟨0, 0⟩ },
    .catalog { base := ⟨0, 0⟩, Outline := 2, Pages := 3 },
    .outlines { base := ⟨0, 0⟩ },
    .pages { base := ⟨0, 0⟩, Kids := [4] },
    .page { base := ⟨0, 0⟩, Parent := ⟨0, 0⟩, MediaBox := ⟨0, 0, 612, 792⟩, Contents := 6,
            ProcSet := 5, Fonts := [(str "F1", 0)] },
    .procSet { base := ⟨0, 0⟩ },
    .content { base := ⟨0, 0⟩, Content := content } ]

/-- The address of `catalog` in `driverHeap`. -/
def driverCatalog : Addr := 1

/-- Lines 76-106 on a graph already built: collect from the catalog into an empty `objs`,
then serialize. -/
def pipeline (fuel : Nat) (eC eW : Enum) (h : Heap) (catalog : Addr) : Option Bytes := do
  let (h, objs) ← Collect eC fuel h catalog ⟨0, 0⟩ []
  serialize eW h objs catalog

/-- Lines 55-106: build the graph, collect, serialize. -/
def main (fuel : Nat) (eC eW : Enum) (content : Bytes) : Option Bytes :=
  pipeline fuel eC eW (driverHeap content) driverCatalog

/-! ## Derived views of an object, used to state properties -/

/-- What one call of `Collect` does to the receiver itself before it descends: `Parent` is
stored (pages only) and the identity is assigned when it is still 0; `n` is `len(*objs)`
after the append. -/
def Object.visit (o : Object) (parent : ObjectRef) (n : Nat) : Object :=
  match o with
  | .catalog c => .catalog { c with base := c.base.assign n }
  | .outlines o => .outlines { o with base := o.base.assign n }
  | .pages p => .pages { p with base := p.base.assign n }
  | .page p => .page { p with Parent := parent, base := p.base.assign n }
  | .content c => .content { c with base := c.base.assign n }
  | .procSet o => .procSet { o with base := o.base.assign n }
  | .fontType1 f => .fontType1 { f with base := f.base.assign n }

/-- The objects on which `Collect` of the object at address `a` calls `Collect`, in call order. -/
def Object.kids (e : Enum) (a : Addr) : Object → List Addr
  | .catalog c => [c.Outline, c.Pages]
  | .pages p => p.Kids
  | .page p => p.Contents :: p.ProcSet :: (e a p.Fonts).map Prod.snd
  | _ => []

/-- The objects an object points to, fonts in stored order. -/
def Object.children : Object → List Addr
  | .catalog c => [c.Outline, c.Pages]
  | .pages p => p.Kids
  | .page p => p.Contents :: p.ProcSet :: p.Fonts.map Prod.snd
  | _ => []

/-- An object with its identity number and its `Parent` reference blanked: everything
`Collect` does not write. -/
def Object.shape : Object → Object
  | .catalog c => .catalog { c with base := { c.base with IDNum := 0 } }
  | .outlines o => .outlines { o with base := { o.base with IDNum := 0 } }
  | .pages p => .pages { p with base := { p.base with IDNum := 0 } }
  | .page p => .page { p with base := { p.base with IDNum := 0 }, Parent := ⟨0, 0⟩ }
  | .content c => .content { c with base := { c.base with IDNum := 0 } }
  | .procSet o => .procSet { o with base := { o.base with IDNum := 0 } }
  | .fontType1 f => .fontType1 { f with base := { f.base with IDNum := 0 } }

/-- The reference `ObjectRef{ID: o.ID(), Gen: o.Generation()}` to an object. -/
def Object.ref (o : Object) : ObjectRef := { ID := o.ID, Gen := o.Generation }

/-- The pure pre-order listing of the addresses `Collect` visits from `a`: the object, then the
listings of its kids in call order.  `none` when an address is outside the heap or the fuel
runs out. -/
def preorderEach (call : Addr → Option (List Addr)) : List Addr → Option (List Addr)
  | [] => some []
  | x :: xs =>
    match call x with
    | none => none
    | some l =>
      match preorderEach call xs with
      | none => none
      | some ls => some (l ++ ls)

def preorder (e : Enum) : Nat → Heap → Addr → Option (List Addr)
  | 0, _, _ => none
  | fuel + 1, h, a =>
    match h[a]? with
    | none => none
    | some o => (preorderEach (preorder e fuel h) (o.kids e a)).map fun l => a :: l

/-- Reachability along child pointers. -/
inductive Reach (h : Heap) (root : Addr) : Addr → Prop where
  | root : Reach h root root
  | step {a k : Addr} {o : Object} : Reach h root a → h[a]? = some o → k ∈ o.children →
      Reach h root k

/-- A later state of a run of `Collect` seen from an earlier one: the registry has grown by a
list `l` of visited addresses; every object kept everything but its identity number and
`Parent`; objects not visited are untouched; a non-zero identity is kept and a zero one became
the registry position of the first visit. -/
def Evolves (s t : Heap × List Addr) : Prop :=
  ∃ l : List Addr, t.2 = s.2 ++ l ∧ t.1.length = s.1.length ∧
    ∀ (x : Addr) (o : Object), s.1[x]? = some o →
      ∃ o' : Object, t.1[x]? = some o' ∧ o'.shape = o.shape ∧
        (x ∉ l → o' = o) ∧ (o.ID ≠ 0 → o'.ID = o.ID) ∧
        (o.ID = 0 → o'.ID = if x ∈ l then ((s.2.length + l.indexOf x + 1 : Nat) : Int) else 0)

/-- Two pages that point to one `ObjectProcSet`: catalog 0, outlines 1, page tree 2 with
kids 3 and 4, contents 5 and 6, the shared procedure set 7, fonts 8 and 9. -/
def sharedProcSetHeap : Heap :=
  [ .catalog { base := ⟨0, 0⟩, Outline := 1, Pages := 2 },
    .outlines { base := ⟨0, 0⟩ },
    .pages { base := ⟨0, 0⟩, Kids := [3, 4] },
    .page { base := ⟨0, 0⟩, Parent := ⟨0, 0⟩, MediaBox := ⟨0, 0, 612, 792⟩, Contents := 5,
            ProcSet := 7, Fonts := [(str "F1", 8)] },
    .page { base := ⟨0, 0⟩, Parent := ⟨0, 0⟩, MediaBox := ⟨0, 0, 612, 792⟩, Contents := 6,
            ProcSet := 7, Fonts := [(str "F1", 9)] },
    .content { base := ⟨0, 0⟩, Content := [] },
    .content { base := ⟨0, 0⟩, Content := [] },
    .procSet { base := ⟨0, 0⟩ },
    .fontType1 { base := ⟨0, 0⟩ },
    .fontType1 { base := ⟨0, 0⟩ } ]

/-- The references `ObjectRef{ID, Gen}` to the objects at a list of addresses, read from the
heap; `none` when an address is outside the heap. -/
def refsOf (h : Heap) : List Addr → Option (List ObjectRef)
  | [] => some []
  | a :: rest =>
    match h[a]? with
    | none => none
    | some o => (refsOf h rest).map fun rs => o.ref :: rs

/-- The named references to the fonts of a list of map entries. -/
def fontRefsOf (h : Heap) : List (Bytes × Addr) → Option (List (Bytes × ObjectRef))
  | [] => some []
  | (name, a) :: rest =>
    match h[a]? with
    | none => none
    | some o => (fontRefsOf h rest).map fun rs => (name, o.ref) :: rs

/-- One entry `"%d %d R "` of a `/Kids` array. -/
def kidEntry (r : ObjectRef) : Bytes := fmtRef r.ID r.Gen ++ str " R "

/-- One line `"/%s %d %d R\n"` of a `/Font` dictionary. -/
def fontEntry (nr : Bytes × ObjectRef) : Bytes :=
  str "/" ++ nr.1 ++ str " " ++ fmtRef nr.2.ID nr.2.Gen ++ str " R\n"

/-- The blocks `Write` produces for the entries of a registry, in order. -/
def blocks (e : Enum) (h : Heap) : List Addr → Option (List Bytes)
  | [] => some []
  | a :: rest =>
    match Write e h a with
    | none => none
    | some b => (blocks e h rest).map fun bs => b :: bs

/-- Running byte positions: `start`, then `start` plus the lengths of the blocks before. -/
def offsetsFrom (start : Nat) : List Bytes → List Nat
  | [] => []
  | b :: bs => start :: offsetsFrom (start + b.length) bs

/-- The generation of the object at an address (0 outside the heap). -/
def genAt (h : Heap) (a : Addr) : Int :=
  match h[a]? with
  | some o => o.Generation
  | none => 0

/-- The in-use index lines for a registry and a list of offsets. -/
def inUseEntries (h : Heap) (objs : List Addr) (offs : List Nat) : List Bytes :=
  List.zipWith (fun a off => xrefEntry off (genAt h a)) objs offs

/-- Every registry entry holds an object whose children are registry entries too. -/
def Closed (h : Heap) (reg : List Addr) : Prop :=
  ∀ a ∈ reg, ∃ o, h[a]? = some o ∧ ∀ k ∈ o.children, k ∈ reg

/-- The index section before its in-use lines: `xref`, the range line, the free entry. -/
def xrefHead (n : Nat) : Bytes :=
  str "xref\n" ++ (fmtD 0 ++ str " " ++ fmtD ((n + 1 : Nat) : Int) ++ str "\n")
    ++ (fmtDPad 10 0 ++ str " " ++ fmtDPad 5 65535 ++ str " f\n")

/-- The heap of the driver after `catalog.Collect(ObjectRef{}, &objs)`. -/
def driverCollected (content : Bytes) : Heap :=
  [ .fontType1 { base := ⟨7, 0⟩ },
    .catalog { base := ⟨1, 0⟩, Outline := 2, Pages := 3 },
    .outlines { base := ⟨2, 0⟩ },
    .pages { base := ⟨3, 0⟩, Kids := [4] },
    .page { base := ⟨4, 0⟩, Parent := ⟨3, 0⟩, MediaBox := ⟨0, 0, 612, 792⟩, Contents := 6,
            ProcSet := 5, Fonts := [(str "F1", 0)] },
    .procSet { base := ⟨6, 0⟩ },
    .content { base := ⟨5, 0⟩, Content := content } ]

/-- The registry of the driver after `catalog.Collect(ObjectRef{}, &objs)`. -/
def driverRegistry : List Addr := [1, 2, 3, 4, 6, 5, 0]

/-- A document whose single page has two fonts: catalog 0, outlines 1, page tree 2, page 3,
content 4, procedure set 5, fonts 6 (`F1`) and 7 (`F2`). -/
def twoFontsHeap : Heap :=
  [ .catalog { base := ⟨0, 0⟩, Outline := 1, Pages := 2 },
    .outlines { base := ⟨0, 0⟩ },
    .pages { base := ⟨0, 0⟩, Kids := [3] },
    .page { base := ⟨0, 0⟩, Parent := ⟨0, 0⟩, MediaBox := ⟨0, 0, 612, 792⟩, Contents := 4,
            ProcSet := 5, Fonts := [(str "F1", 6), (str "F2", 7)] },
    .content { base := ⟨0, 0⟩, Content := [] },
    .procSet { base := ⟨0, 0⟩ },
    .fontType1 { base := ⟨0, 0⟩ },
    .fontType1 { base := ⟨0, 0⟩ } ]

/-- A page listed in the `Kids` of two page trees: catalog 0, outlines 1, page tree 2 with
kids 3 and 4, page tree 3 with kid 4, page 4, content 5, procedure set 6. -/
def twoParentsHeap : Heap :=
  [ .catalog { base := ⟨0, 0⟩, Outline := 1, Pages := 2 },
    .outlines { base := ⟨0, 0⟩ },
    .pages { base := ⟨0, 0⟩, Kids := [3, 4] },
    .pages { base := ⟨0, 0⟩, Kids := [4] },
    .page { base := ⟨0, 0⟩, Parent := ⟨0, 0⟩, MediaBox := ⟨0, 0, 612, 792⟩, Contents := 5,
            ProcSet := 6, Fonts := [] },
    .content { base := ⟨0, 0⟩, Content := [] },
    .procSet { base := ⟨0, 0⟩ } ]

/-- The listing of one page in the words of the traversal policy: the Page, its
ContentStream, its ProcSet, then its Fonts (in the order of the enumeration). -/
def pageListing (e : Enum) (h : Heap) (k : Addr) : List Addr :=
  match h[k]? with
  | some (.page pg) => k :: pg.Contents :: pg.ProcSet :: (e k pg.Fonts).map Prod.snd
  | _ => [k]

/-- The listing of a document in the words of the traversal policy: Catalog, then Outline,
then PageTree, then the listing of each Page in the order of `Kids`. -/
def documentListing (e : Enum) (h : Heap) (root : Addr) : List Addr :=
  match h[root]? with
  | some (.catalog c) =>
    match h[c.Pages]? with
    | some (.pages ps) =>
      root :: c.Outline :: c.Pages :: ((ps.Kids.map (pageListing e h)).flatten)
    | _ => []
  | _ => []

/-- A graph of the document shape: a Catalog whose `Outline` is an Outlines object and whose
`Pages` is a page tree; every kid of the page tree is a Page whose `Contents` is a content
stream, whose `ProcSet` is a procedure set and whose fonts are Type 1 fonts. -/
def IsDocument (h : Heap) (root : Addr) : Prop :=
  ∃ (c : ObjectCatalog) (ps : ObjectPages), h[root]? = some (.catalog c) ∧
    (∃ oo, h[c.Outline]? = some (.outlines oo)) ∧ h[c.Pages]? = some (.pages ps) ∧
    ∀ k ∈ ps.Kids, ∃ pg : ObjectPage, h[k]? = some (.page pg) ∧
      (∃ ct, h[pg.Contents]? = some (.content ct)) ∧
      (∃ s, h[pg.ProcSet]? = some (.procSet s)) ∧
      ∀ f ∈ pg.Fonts, ∃ ft, h[f.2]? = some (.fontType1 ft)

/-- Two pages that share one font (the `helvetica` of the driver used twice): catalog 0,
outlines 1, page tree 2 with kids 3 and 4, contents 5 and 7, procedure sets 6 and 8,
font 9. -/
def sharedFontHeap : Heap :=
  [ .catalog { base := ⟨0, 0⟩, Outline := 1, Pages := 2 },
    .outlines { base := ⟨0, 0⟩ },
    .pages { base := ⟨0, 0⟩, Kids := [3, 4] },
    .page { base := ⟨0, 0⟩, Parent := ⟨0, 0⟩, MediaBox := ⟨0, 0, 612, 792⟩, Contents := 5,
            ProcSet := 6, Fonts := [(str "F1", 9)] },
    .page { base := ⟨0, 0⟩, Parent := ⟨0, 0⟩, MediaBox := ⟨0, 0, 612, 792⟩, Contents := 7,
            ProcSet := 8, Fonts := [(str "F1", 9)] },
    .content { base := ⟨0, 0⟩, Content := [] },
    .procSet { base := ⟨0, 0⟩ },
    .content { base := ⟨0, 0⟩, Content := [] },
    .procSet { base := ⟨0, 0⟩ },
    .fontType1 { base := ⟨0, 0⟩ } ]

/-- A byte that is one of the ASCII decimal digits `0`..`9`. -/
def IsDigit (b : UInt8) : Prop := 48 ≤ b.toNat ∧ b.toNat ≤ 57

/-- The Page of the driver after `Collect`. -/
def driverPage : ObjectPage :=
  { base := ⟨4, 0⟩, Parent := ⟨3, 0⟩, MediaBox := ⟨0, 0, 612, 792⟩, Contents := 6,
    ProcSet := 5, Fonts := [(str "F1", 0)] }

/-- A page whose map stores one font object under two names: page 0, content 1, procedure
set 2, font 3 under `F1` and `F2`, font 4 under `F3`. -/
def aliasedFontsHeap : Heap :=
  [ .page { base := ⟨0, 0⟩, Parent := ⟨0, 0⟩, MediaBox := ⟨0, 0, 612, 792⟩, Contents := 1,
            ProcSet := 2, Fonts := [(str "F1", 3), (str "F2", 3), (str "F3", 4)] },
    .content { base := ⟨0, 0⟩, Content := [] },
    .procSet { base := ⟨0, 0⟩ },
    .fontType1 { base := ⟨0, 0⟩ },
    .fontType1 { base := ⟨0, 0⟩ } ]

/-! ## Collect as a sequence of visits -/

theorem collectEach_two (call : Heap → Addr → ObjectRef → List Addr → Option (Heap × List Addr))
    (p : ObjectRef) (x y : Addr) (h : Heap) (objs : List Addr) :
    collectEach call p [x, y] h objs =
      match call h x p objs with
      | none => none
      | some (h1, objs1) => call h1 y p objs1 := by
  simp only [collectEach]
  split
  · rfl
  · split <;> simp_all

theorem Collect_succ (e : Enum) (fuel : Nat) (h : Heap) (a : Addr) (parent : ObjectRef)
    (objs : List Addr) :
    Collect e (fuel + 1) h a parent objs =
      match h[a]? with
      | none => none
      | some o =>
        collectEach (Collect e fuel) (o.visit parent (objs.length + 1)).ref (o.kids e a)
          (h.set a (o.visit parent (objs.length + 1))) (objs ++ [a]) := by
  rw [Collect]
  cases hget : h[a]? with
  | none => rfl
  | some o =>
    cases o with
    | catalog c =>
      simp only [Object.visit, Object.kids, Object.ref, Object.ID, Object.Generation,
        Object.base, collectEach_two, List.length_append, List.length_singleton]
    | page p =>
      simp only [Object.visit, Object.kids, Object.ref, Object.ID, Object.Generation,
        Object.base, collectEach, List.length_append, List.length_singleton]
    | _ =>
      simp only [Object.visit, Object.kids, Object.ref, Object.ID, Object.Generation,
        Object.base, collectEach, List.length_append, List.length_singleton]

theorem collectEach_rel {R : Heap × List Addr → Heap × List Addr → Prop}
    (hrefl : ∀ s, R s s) (htrans : ∀ s t u, R s t → R t u → R s u)
    {call : Heap → Addr → ObjectRef → List Addr → Option (Heap × List Addr)}
    (hcall : ∀ h x p objs r, call h x p objs = some r → R (h, objs) r) (p : ObjectRef) :
    ∀ (xs : List Addr) (h : Heap) (objs : List Addr) (r : Heap × List Addr),
      collectEach call p xs h objs = some r → R (h, objs) r := by
  intro xs
  induction xs with
  | nil =>
    intro h objs r hr
    simp only [collectEach, Option.some.injEq] at hr
    subst hr
    exact hrefl _
  | cons x xs ih =>
    intro h objs r hr
    simp only [collectEach] at hr
    split at hr
    · contradiction
    · next h1 o1 heq => exact htrans _ _ _ (hcall _ _ _ _ _ heq) (ih h1 o1 r hr)

/-- Induction principle: a run of `Collect` is a sequence of single visits, so every
reflexive and transitive relation that holds across one visit holds across the run. -/
theorem Collect_rel {R : Heap × List Addr → Heap × List Addr → Prop}
    (hrefl : ∀ s, R s s) (htrans : ∀ s t u, R s t → R t u → R s u)
    (hstep : ∀ (h : Heap) (a : Addr) (o : Object) (p : ObjectRef) (objs : List Addr),
      h[a]? = some o → R (h, objs) (h.set a (o.visit p (objs.length + 1)), objs ++ [a]))
    (e : Enum) :
    ∀ (fuel : Nat) (h : Heap) (a : Addr) (p : ObjectRef) (objs : List Addr)
      (r : Heap × List Addr), Collect e fuel h a p objs = some r → R (h, objs) r := by
  intro fuel
  induction fuel with
  | zero => intro h a p objs r hr; simp [Collect] at hr
  | succ fuel ih =>
    intro h a p objs r hr
    rw [Collect_succ] at hr
    split at hr
    · contradiction
    · next o hget =>
      exact htrans _ _ _ (hstep h a o p objs hget)
        (collectEach_rel hrefl htrans ih _ _ _ _ _ hr)

/-! ## What a visit keeps -/

theorem Object.visit_shape (o : Object) (p : ObjectRef) (n : Nat) :
    (o.visit p n).shape = o.shape := by
  cases o <;> simp only [Object.visit, Object.shape, objectBase.assign] <;> split <;> rfl

theorem Object.visit_ID (o : Object) (p : ObjectRef) (n : Nat) :
    (o.visit p n).ID = if o.ID = 0 then (n : Int) else o.ID := by
  cases o <;> simp only [Object.visit, Object.ID, Object.base, objectBase.ID, objectBase.assign]
    <;> split <;> rfl

theorem Object.shape_kids (e : Enum) (a : Addr) (o : Object) : o.shape.kids e a = o.kids e a := by
  cases o <;> rfl

theorem Object.shape_children (o : Object) : o.shape.children = o.children := by
  cases o <;> rfl

theorem Object.shape_Generation (o : Object) : o.shape.Generation = o.Generation := by
  cases o <;> rfl

theorem Object.kids_of_shape (e : Enum) (a : Addr) {o o' : Object} (hs : o'.shape = o.shape) :
    o'.kids e a = o.kids e a := by
  rw [← Object.shape_kids e a o', hs, Object.shape_kids]

theorem Object.children_of_shape {o o' : Object} (hs : o'.shape = o.shape) :
    o'.children = o.children := by
  rw [← Object.shape_children o', hs, Object.shape_children]

theorem Object.Generation_of_shape {o o' : Object} (hs : o'.shape = o.shape) :
    o'.Generation = o.Generation := by
  rw [← Object.shape_Generation o', hs, Object.shape_Generation]

theorem Evolves_refl (s : Heap × List Addr) : Evolves s s := by
  refine ⟨[], by simp, rfl, ?_⟩
  intro x o hx
  exact ⟨o, hx, rfl, fun _ => rfl, fun _ => rfl, fun h0 => by simpa using h0⟩

theorem Evolves_trans (s t u : Heap × List Addr) (hst : Evolves s t) (htu : Evolves t u) :
    Evolves s u := by
  obtain ⟨l1, hl1, hlen1, h1⟩ := hst
  obtain ⟨l2, hl2, hlen2, h2⟩ := htu
  refine ⟨l1 ++ l2, by rw [hl2, hl1, List.append_assoc], by rw [hlen2, hlen1], ?_⟩
  intro x o hx
  obtain ⟨o1, hx1, hs1, hf1, hk1, hz1⟩ := h1 x o hx
  obtain ⟨o2, hx2, hs2, hf2, hk2, hz2⟩ := h2 x o1 hx1
  refine ⟨o2, hx2, hs2.trans hs1, ?_, ?_, ?_⟩
  · intro hmem
    rw [List.mem_append, not_or] at hmem
    rw [hf2 hmem.2, hf1 hmem.1]
  · intro hne
    have h1ne : o1.ID ≠ 0 := by rw [hk1 hne]; exact hne
    rw [hk2 h1ne, hk1 hne]
  · intro hzero
    have hz1' := hz1 hzero
    by_cases hm1 : x ∈ l1
    · rw [if_pos hm1] at hz1'
      have h1ne : o1.ID ≠ 0 := by rw [hz1']; omega
      rw [hk2 h1ne, hz1', if_pos (List.mem_append_left _ hm1), List.indexOf_append_of_mem hm1]
    · rw [if_neg hm1] at hz1'
      have hz2' := hz2 hz1'
      rw [hz2', hl1, List.length_append]
      by_cases hm2 : x ∈ l2
      · rw [if_pos hm2, if_pos (List.mem_append_right _ hm2),
          List.indexOf_append_of_not_mem hm1]
        congr 1
        omega
      · rw [if_neg hm2, if_neg (by simp [hm1, hm2])]

theorem Evolves_step (h : Heap) (a : Addr) (o : Object) (p : ObjectRef) (objs : List Addr)
    (hget : h[a]? = some o) :
    Evolves (h, objs) (h.set a (o.visit p (objs.length + 1)), objs ++ [a]) := by
  refine ⟨[a], rfl, by simp, ?_⟩
  intro x ox hx
  dsimp only at hx ⊢
  by_cases hxa : x = a
  · subst hxa
    have hox : ox = o := by rw [hget] at hx; exact (Option.some.inj hx).symm
    subst hox
    have hlt : x < h.length := by
      rcases Nat.lt_or_ge x h.length with hlt | hge
      · exact hlt
      · rw [List.getElem?_eq_none hge] at hx
        contradiction
    refine ⟨ox.visit p (objs.length + 1), ?_, Object.visit_shape _ _ _, ?_, ?_, ?_⟩
    · simp [List.getElem?_set, hlt]
    · intro hn; simp at hn
    · intro hne; rw [Object.visit_ID, if_neg hne]
    · intro hz; rw [Object.visit_ID, if_pos hz]; simp
  · refine ⟨ox, ?_, rfl, fun _ => rfl, fun _ => rfl, ?_⟩
    · simp only [List.getElem?_set]
      rw [if_neg (fun hh => hxa hh.symm)]
      exact hx
    · intro hz; rw [if_neg (by simpa using hxa)]; exact hz

/-- Every run of `Collect` that returns is an evolution of its start state. -/
theorem Collect_evolves (e : Enum) (fuel : Nat) (h : Heap) (a : Addr) (p : ObjectRef)
    (objs : List Addr) (r : Heap × List Addr) (hr : Collect e fuel h a p objs = some r) :
    Evolves (h, objs) r :=
  Collect_rel Evolves_refl Evolves_trans Evolves_step e fuel h a p objs r hr

/-! ## The registry is the pre-order listing -/

theorem Evolves_map_shape {s t : Heap × List Addr} (hst : Evolves s t) :
    t.1.map Object.shape = s.1.map Object.shape := by
  obtain ⟨l, -, hlen, hx⟩ := hst
  apply List.ext_getElem?
  intro x
  simp only [List.getElem?_map]
  cases hs : s.1[x]? with
  | none =>
    have hge : s.1.length ≤ x := by
      rcases Nat.lt_or_ge x s.1.length with hlt | hge
      · rw [List.getElem?_eq_getElem hlt] at hs; contradiction
      · exact hge
    rw [List.getElem?_eq_none (by omega)]
  | some o =>
    obtain ⟨o', ho', hshape, -⟩ := hx x o hs
    rw [ho']
    simp [hshape]

theorem preorderEach_congr {f g : Addr → Option (List Addr)} (xs : List Addr)
    (hfg : ∀ x ∈ xs, f x = g x) : preorderEach f xs = preorderEach g xs := by
  induction xs with
  | nil => rfl
  | cons x xs ih =>
    simp only [preorderEach]
    rw [hfg x (List.mem_cons_self _ _), ih (fun y hy => hfg y (List.mem_cons_of_mem _ hy))]

/-- The listing depends on the heap only through the shapes of its objects. -/
theorem preorder_shape (e : Enum) (fuel : Nat) (h : Heap) (a : Addr) :
    preorder e fuel (h.map Object.shape) a = preorder e fuel h a := by
  induction fuel generalizing a with
  | zero => rfl
  | succ fuel ih =>
    simp only [preorder, List.getElem?_map]
    cases h[a]? with
    | none => rfl
    | some o =>
      simp only [Option.map_some']
      rw [Object.shape_kids, preorderEach_congr _ (fun x _ => ih x)]

theorem preorder_of_map_shape (e : Enum) (fuel : Nat) {h h' : Heap}
    (hs : h'.map Object.shape = h.map Object.shape) (a : Addr) :
    preorder e fuel h' a = preorder e fuel h a := by
  rw [← preorder_shape e fuel h', hs, preorder_shape]

theorem collectEach_preorderEach (e : Enum) (fuel : Nat) (h : Heap) (p : ObjectRef)
    (ih : ∀ (h : Heap) (a : Addr) (p : ObjectRef) (objs : List Addr),
      (Collect e fuel h a p objs).map Prod.snd = (preorder e fuel h a).map fun l => objs ++ l) :
    ∀ (xs : List Addr) (h1 : Heap) (objs1 : List Addr),
      h1.map Object.shape = h.map Object.shape →
      (collectEach (Collect e fuel) p xs h1 objs1).map Prod.snd =
        (preorderEach (preorder e fuel h) xs).map fun l => objs1 ++ l := by
  intro xs
  induction xs with
  | nil => intro h1 objs1 _; simp [collectEach, preorderEach]
  | cons x xs ihx =>
    intro h1 objs1 hs
    have hx := ih h1 x p objs1
    rw [preorder_of_map_shape e fuel hs] at hx
    simp only [collectEach, preorderEach]
    cases hc : Collect e fuel h1 x p objs1 with
    | none =>
      rw [hc] at hx
      cases hp : preorder e fuel h x with
      | none => rfl
      | some l => rw [hp] at hx; simp at hx
    | some r =>
      obtain ⟨h2, objs2⟩ := r
      rw [hc] at hx
      cases hp : preorder e fuel h x with
      | none => rw [hp] at hx; simp at hx
      | some l =>
        rw [hp] at hx
        simp only [Option.map_some', Option.some.injEq] at hx
        have hs2 : h2.map Object.shape = h.map Object.shape :=
          (Evolves_map_shape (Collect_evolves e fuel h1 x p objs1 (h2, objs2) hc)).trans hs
        have hrest := ihx h2 objs2 hs2
        simp only []
        rw [hrest]
        cases preorderEach (preorder e fuel h) xs with
        | none => rfl
        | some ls => simp [hx]

/-- `Collect` returns exactly when the pre-order listing exists, and then the registry has
grown by that listing. -/
theorem Collect_registry (e : Enum) (fuel : Nat) (h : Heap) (a : Addr) (p : ObjectRef)
    (objs : List Addr) :
    (Collect e fuel h a p objs).map Prod.snd = (preorder e fuel h a).map fun l => objs ++ l := by
  induction fuel generalizing h a p objs with
  | zero => rfl
  | succ fuel ih =>
    rw [Collect_succ]
    simp only [preorder]
    cases hget : h[a]? with
    | none => rfl
    | some o =>
      simp only []
      have hs : (h.set a (o.visit p (objs.length + 1))).map Object.shape = h.map Object.shape :=
        Evolves_map_shape (Evolves_step h a o p objs hget)
      rw [collectEach_preorderEach e fuel h _ ih _ _ _ hs]
      cases preorderEach (preorder e fuel h) (o.kids e a) with
      | none => rfl
      | some l => simp

/-! ## The listing and reachability -/

theorem Object.mem_kids_iff {e : Enum} (he : e.Valid) (a : Addr) (o : Object) (k : Addr) :
    k ∈ o.kids e a ↔ k ∈ o.children := by
  cases o with
  | page p =>
    simp only [Object.kids, Object.children, List.mem_cons]
    rw [((he a p.Fonts).map Prod.snd).mem_iff]
  | _ => rfl

theorem preorderEach_some {f : Addr → Option (List Addr)} :
    ∀ (xs : List Addr) (ls : List Addr), preorderEach f xs = some ls →
      (∀ x ∈ xs, ∃ l, f x = some l ∧ ∀ y ∈ l, y ∈ ls) ∧
      (∀ y ∈ ls, ∃ x ∈ xs, ∃ l, f x = some l ∧ y ∈ l) := by
  intro xs
  induction xs with
  | nil =>
    intro ls hls
    simp only [preorderEach, Option.some.injEq] at hls
    subst hls
    simp
  | cons x xs ih =>
    intro ls hls
    simp only [preorderEach] at hls
    cases hfx : f x with
    | none => rw [hfx] at hls; simp at hls
    | some l =>
      rw [hfx] at hls
      cases hrest : preorderEach f xs with
      | none => rw [hrest] at hls; simp at hls
      | some ls' =>
        rw [hrest] at hls
        simp only [Option.some.injEq] at hls
        subst hls
        obtain ⟨ih1, ih2⟩ := ih ls' hrest
        constructor
        · intro z hz
          rcases List.mem_cons.mp hz with hzx | hzxs
          · subst hzx
            exact ⟨l, hfx, fun y hy => List.mem_append_left _ hy⟩
          · obtain ⟨l', hl', hsub⟩ := ih1 z hzxs
            exact ⟨l', hl', fun y hy => List.mem_append_right _ (hsub y hy)⟩
        · intro y hy
          rcases List.mem_append.mp hy with hyl | hyls
          · exact ⟨x, List.mem_cons_self _ _, l, hfx, hyl⟩
          · obtain ⟨z, hz, l', hl', hyl'⟩ := ih2 y hyls
            exact ⟨z, List.mem_cons_of_mem _ hz, l', hl', hyl'⟩

theorem preorder_some (e : Enum) (fuel : Nat) (h : Heap) (a : Addr) (l : List Addr)
    (hl : preorder e (fuel + 1) h a = some l) :
    ∃ o rest, h[a]? = some o ∧ preorderEach (preorder e fuel h) (o.kids e a) = some rest ∧
      l = a :: rest := by
  simp only [preorder] at hl
  cases hget : h[a]? with
  | none => rw [hget] at hl; simp at hl
  | some o =>
    rw [hget] at hl
    simp only [] at hl
    cases hrest : preorderEach (preorder e fuel h) (o.kids e a) with
    | none => rw [hrest] at hl; simp at hl
    | some rest =>
      rw [hrest] at hl
      simp only [Option.map_some', Option.some.injEq] at hl
      exact ⟨o, rest, rfl, hrest, hl.symm⟩

theorem preorder_head (e : Enum) (fuel : Nat) (h : Heap) (a : Addr) (l : List Addr)
    (hl : preorder e fuel h a = some l) : ∃ rest, l = a :: rest := by
  cases fuel with
  | zero => simp [preorder] at hl
  | succ fuel =>
    obtain ⟨o, rest, -, -, hl'⟩ := preorder_some e fuel h a l hl
    exact ⟨rest, hl'⟩

/-- Every listed address holds an object, and the kids of that object are listed too. -/
theorem preorder_closed (e : Enum) (fuel : Nat) (h : Heap) (a : Addr) (l : List Addr)
    (hl : preorder e fuel h a = some l) :
    ∀ x ∈ l, ∃ o, h[x]? = some o ∧ ∀ k ∈ o.kids e x, k ∈ l := by
  induction fuel generalizing a l with
  | zero => simp [preorder] at hl
  | succ fuel ih =>
    obtain ⟨o, rest, hget, hrest, hl'⟩ := preorder_some e fuel h a l hl
    subst hl'
    obtain ⟨h1, h2⟩ := preorderEach_some _ _ hrest
    intro x hx
    rcases List.mem_cons.mp hx with hxa | hxr
    · subst hxa
      refine ⟨o, hget, fun k hk => ?_⟩
      obtain ⟨lk, hlk, hsub⟩ := h1 k hk
      obtain ⟨rk, hrk⟩ := preorder_head e fuel h k lk hlk
      exact List.mem_cons_of_mem _ (hsub k (by rw [hrk]; exact List.mem_cons_self _ _))
    · obtain ⟨k, hk, lk, hlk, hxlk⟩ := h2 x hxr
      obtain ⟨ox, hox, hkids⟩ := ih k lk hlk x hxlk
      refine ⟨ox, hox, fun k' hk' => ?_⟩
      obtain ⟨lk2, hlk2, hsub2⟩ := h1 k hk
      rw [hlk] at hlk2
      cases hlk2
      exact List.mem_cons_of_mem _ (hsub2 k' (hkids k' hk'))

theorem preorderEach_isSome {f : Addr → Option (List Addr)} (xs : List Addr)
    (hf : ∀ x ∈ xs, ∃ l, f x = some l) : ∃ ls, preorderEach f xs = some ls := by
  induction xs with
  | nil => exact ⟨[], rfl⟩
  | cons x xs ih =>
    obtain ⟨l, hl⟩ := hf x (List.mem_cons_self _ _)
    obtain ⟨ls, hls⟩ := ih (fun y hy => hf y (List.mem_cons_of_mem _ hy))
    exact ⟨l ++ ls, by simp [preorderEach, hl, hls]⟩

/-- A graph without nil pointers in which a rank decreases along every child pointer (so it
has no cycle) is listed, and hence collected, with any fuel above the rank of the root. -/
theorem preorder_isSome_of_rank {e : Enum} (he : e.Valid) (h : Heap) (rank : Addr → Nat)
    (hrank : ∀ a o, h[a]? = some o → ∀ k ∈ o.children, k < h.length ∧ rank k < rank a) :
    ∀ (fuel : Nat) (a : Addr), a < h.length → rank a < fuel →
      ∃ l, preorder e fuel h a = some l := by
  intro fuel
  induction fuel with
  | zero => intro a _ hr; omega
  | succ fuel ih =>
    intro a ha hr
    have hget : h[a]? = some h[a] := List.getElem?_eq_getElem ha
    obtain ⟨ls, hls⟩ := preorderEach_isSome (f := preorder e fuel h) (h[a].kids e a)
      (fun k hk => by
        obtain ⟨hk1, hk2⟩ := hrank a h[a] hget k ((Object.mem_kids_iff he a h[a] k).mp hk)
        exact ih k hk1 (by omega))
    exact ⟨a :: ls, by simp [preorder, hget, hls]⟩

theorem Reach_trans {h : Heap} {a k x : Addr} (hak : Reach h a k) (hkx : Reach h k x) :
    Reach h a x := by
  induction hkx with
  | root => exact hak
  | step _ hget hmem ih => exact Reach.step ih hget hmem

theorem preorder_reach {e : Enum} (he : e.Valid) (fuel : Nat) (h : Heap) (a : Addr)
    (l : List Addr) (hl : preorder e fuel h a = some l) : ∀ x ∈ l, Reach h a x := by
  induction fuel generalizing a l with
  | zero => simp [preorder] at hl
  | succ fuel ih =>
    obtain ⟨o, rest, hget, hrest, hl'⟩ := preorder_some e fuel h a l hl
    subst hl'
    obtain ⟨-, h2⟩ := preorderEach_some _ _ hrest
    intro x hx
    rcases List.mem_cons.mp hx with hxa | hxr
    · subst hxa; exact Reach.root
    · obtain ⟨k, hk, lk, hlk, hxlk⟩ := h2 x hxr
      exact Reach_trans (Reach.step Reach.root hget ((Object.mem_kids_iff he a o k).mp hk))
        (ih k lk hlk x hxlk)

theorem reach_preorder {e : Enum} (he : e.Valid) (fuel : Nat) (h : Heap) (a : Addr)
    (l : List Addr) (hl : preorder e fuel h a = some l) (x : Addr) (hx : Reach h a x) :
    x ∈ l := by
  induction hx with
  | root =>
    obtain ⟨rest, hrest⟩ := preorder_head e fuel h a l hl
    rw [hrest]; exact List.mem_cons_self _ _
  | @step y k o _ hget hmem ih =>
    obtain ⟨o', hget', hkids⟩ := preorder_closed e fuel h a l hl y ih
    rw [hget] at hget'
    cases hget'
    exact hkids k ((Object.mem_kids_iff he y o k).mpr hmem)

/-- From an empty registry and identities all 0, the identity of every listed object is one
more than the position of its first occurrence in the registry. -/
theorem Collect_ID_first_visit (e : Enum) (fuel : Nat) (h h' : Heap) (root : Addr)
    (p : ObjectRef) (l : List Addr) (hzero : ∀ o ∈ h, o.ID = 0)
    (hc : Collect e fuel h root p [] = some (h', l)) (x : Addr) (hx : x ∈ l) :
    (h'[x]?).map Object.ID = some ((l.indexOf x + 1 : Nat) : Int) := by
  have hreg := Collect_registry e fuel h root p []
  rw [hc] at hreg
  cases hp : preorder e fuel h root with
  | none => rw [hp] at hreg; simp at hreg
  | some l0 =>
    rw [hp] at hreg
    simp only [Option.map_some', List.nil_append, Option.some.injEq] at hreg
    subst hreg
    obtain ⟨o, hget, -⟩ := preorder_closed e fuel h root l hp x hx
    obtain ⟨l1, hl1, -, hev⟩ := Collect_evolves e fuel h root p [] (h', l) hc
    simp only [List.nil_append] at hl1
    subst hl1
    obtain ⟨o', hget', -, -, -, hz⟩ := hev x o hget
    have hoz : o.ID = 0 := hzero o (List.getElem?_mem hget)
    dsimp only at hget'
    rw [hget', Option.map_some', hz hoz, if_pos hx]
    simp

/-- C1 (amended): when all identities are 0 and the traversal from the root reaches no object
twice, `Collect` on an empty registry returns; the registry lists exactly the reachable
objects, each once, and the object at registry index `i` has identity `i + 1`. -/
theorem C1_collect_identities_contiguous (e : Enum) (he : e.Valid) (fuel : Nat) (h : Heap)
    (root : Addr) (l : List Addr) (hzero : ∀ o ∈ h, o.ID = 0)
    (hl : preorder e fuel h root = some l) (hnodup : l.Nodup) :
    ∃ h' : Heap, Collect e fuel h root ⟨0, 0⟩ [] = some (h', l) ∧
      (∀ a, a ∈ l ↔ Reach h root a) ∧
      ∀ (i : Nat) (hi : i < l.length), (h'[l[i]]?).map Object.ID = some ((i + 1 : Nat) : Int) := by
  have hreg := Collect_registry e fuel h root ⟨0, 0⟩ []
  rw [hl] at hreg
  cases hc : Collect e fuel h root ⟨0, 0⟩ [] with
  | none => rw [hc] at hreg; simp at hreg
  | some r =>
    obtain ⟨h', l'⟩ := r
    rw [hc] at hreg
    simp only [Option.map_some', List.nil_append, Option.some.injEq] at hreg
    subst hreg
    refine ⟨h', rfl, ?_, ?_⟩
    · intro a
      exact ⟨preorder_reach he fuel h root l' hl a, reach_preorder he fuel h root l' hl a⟩
    · intro i hi
      rw [Collect_ID_first_visit e fuel h h' root ⟨0, 0⟩ l' hzero hc _ (List.getElem_mem _),
        List.indexOf_getElem hnodup]

theorem Enum.stored_valid : Enum.stored.Valid := fun _ l => List.Perm.refl l

theorem C1_collect_identities_contiguous_witness :
    ((∀ o ∈ driverHeap [], o.ID = 0) ∧
      preorder Enum.stored 4 (driverHeap []) driverCatalog = some [1, 2, 3, 4, 6, 5, 0] ∧
      [1, 2, 3, 4, 6, 5, 0].Nodup) ∧
    ∃ h' : Heap, Collect Enum.stored 4 (driverHeap []) driverCatalog ⟨0, 0⟩ []
        = some (h', [1, 2, 3, 4, 6, 5, 0]) ∧
      (∀ a, a ∈ [1, 2, 3, 4, 6, 5, 0] ↔ Reach (driverHeap []) driverCatalog a) ∧
      ∀ (i : Nat) (hi : i < [1, 2, 3, 4, 6, 5, 0].length),
        (h'[[1, 2, 3, 4, 6, 5, 0][i]]?).map Object.ID = some ((i + 1 : Nat) : Int) :=
  ⟨⟨by decide, by decide, by decide⟩,
    C1_collect_identities_contiguous Enum.stored Enum.stored_valid 4 (driverHeap [])
      driverCatalog [1, 2, 3, 4, 6, 5, 0] (by decide) (by decide) (by decide)⟩

/-- C1 (as stated) fails: with a procedure set shared by two pages, all identities 0 and an
empty registry, the ten objects get the identities 1..9 and 11; identity 10 is given to no
object, and the object at registry index 9 (the shared procedure set, address 7) has
identity 6. -/
theorem C1_counterexample_shared_procset :
    (∀ o ∈ sharedProcSetHeap, o.ID = 0) ∧ sharedProcSetHeap.length = 10 ∧
    (Collect Enum.stored 4 sharedProcSetHeap 0 ⟨0, 0⟩ []).map
        (fun r => (r.2, r.1.map Object.ID))
      = some ([0, 1, 2, 3, 5, 7, 8, 4, 6, 7, 9], [1, 2, 3, 4, 8, 5, 9, 6, 7, 11]) := by
  decide

/-! ## C2: what one call does to the receiver -/

/-- C2 (amended): whenever the traversal from the receiver is finite, `Collect` returns and
has appended the receiver to the registry right after the existing entries, whether or not
its identity was 0; a non-zero identity is kept and a zero identity becomes
`len(registry) + 1`. -/
theorem C2_collect_always_appends (e : Enum) (fuel : Nat) (h : Heap) (a : Addr) (o : Object)
    (p : ObjectRef) (objs l : List Addr) (hget : h[a]? = some o)
    (hl : preorder e fuel h a = some l) :
    ∃ (h' : Heap) (rest : List Addr), Collect e fuel h a p objs = some (h', objs ++ a :: rest) ∧
      (h'[a]?).map Object.ID = some (if o.ID = 0 then ((objs.length + 1 : Nat) : Int) else o.ID) := by
  have hreg := Collect_registry e fuel h a p objs
  rw [hl] at hreg
  obtain ⟨rest, hrest⟩ := preorder_head e fuel h a l hl
  subst hrest
  cases hc : Collect e fuel h a p objs with
  | none => rw [hc] at hreg; simp at hreg
  | some r =>
    obtain ⟨h', objs'⟩ := r
    rw [hc] at hreg
    simp only [Option.map_some', Option.some.injEq] at hreg
    subst hreg
    refine ⟨h', rest, rfl, ?_⟩
    obtain ⟨l1, hl1, -, hev⟩ := Collect_evolves e fuel h a p objs _ hc
    have hl1' : l1 = a :: rest := List.append_cancel_left hl1.symm
    subst hl1'
    obtain ⟨o', hget', -, -, hk, hz⟩ := hev a o hget
    dsimp only at hget'
    rw [hget', Option.map_some']
    by_cases h0 : o.ID = 0
    · rw [if_pos h0, hz h0, if_pos (List.mem_cons_self _ _)]
      simp
    · rw [if_neg h0, hk h0]

theorem C2_collect_always_appends_witness :
    ((([.fontType1 ⟨⟨1, 0⟩⟩] : Heap)[0]? = some (.fontType1 ⟨⟨1, 0⟩⟩)) ∧
      preorder Enum.stored 1 [.fontType1 ⟨⟨1, 0⟩⟩] 0 = some [0]) ∧
    ∃ (h' : Heap) (rest : List Addr),
      Collect Enum.stored 1 [.fontType1 ⟨⟨1, 0⟩⟩] 0 ⟨0, 0⟩ [0] = some (h', [0] ++ 0 :: rest) ∧
      (h'[0]?).map Object.ID
        = some (if (Object.fontType1 ⟨⟨1, 0⟩⟩).ID = 0 then (([0].length + 1 : Nat) : Int)
            else (Object.fontType1 ⟨⟨1, 0⟩⟩).ID) :=
  ⟨⟨by decide, by decide⟩,
    C2_collect_always_appends Enum.stored 1 [.fontType1 ⟨⟨1, 0⟩⟩] 0 (.fontType1 ⟨⟨1, 0⟩⟩)
      ⟨0, 0⟩ [0] [0] (by decide) (by decide)⟩

/-- C2 (as stated) fails: a font whose identity is already 1 and which is already entry 0 of
the registry is appended a second time by `Collect`. -/
theorem C2_counterexample_reappended :
    (Object.fontType1 ⟨⟨1, 0⟩⟩).ID ≠ 0 ∧
    Collect Enum.stored 1 [.fontType1 ⟨⟨1, 0⟩⟩] 0 ⟨0, 0⟩ [0]
      = some ([.fontType1 ⟨⟨1, 0⟩⟩], [0, 0]) := by
  decide

/-! ## Write: the bytes of each block -/

theorem writeKids_eq (h : Heap) (ks : List Addr) (w : Frame) :
    writeKids h ks w = (refsOf h ks).map fun rs => w.Fprint (rs.map kidEntry).flatten := by
  induction ks generalizing w with
  | nil => simp [writeKids, refsOf, Frame.Fprint]
  | cons k ks ih =>
    simp only [writeKids, refsOf]
    cases hk : h[k]? with
    | none => rfl
    | some o =>
      simp only [Option.bind_eq_bind, Option.some_bind, ih]
      cases refsOf h ks with
      | none => rfl
      | some rs =>
        simp [Frame.Fprint, kidEntry, Object.ref, List.append_assoc]

theorem writeFonts_eq (h : Heap) (fs : List (Bytes × Addr)) (w : Frame) :
    writeFonts h fs w = (fontRefsOf h fs).map fun rs => w.Fprint (rs.map fontEntry).flatten := by
  induction fs generalizing w with
  | nil => simp [writeFonts, fontRefsOf, Frame.Fprint]
  | cons f fs ih =>
    obtain ⟨name, a⟩ := f
    simp only [writeFonts, fontRefsOf]
    cases hk : h[a]? with
    | none => rfl
    | some o =>
      simp only [Option.bind_eq_bind, Option.some_bind, ih]
      cases fontRefsOf h fs with
      | none => rfl
      | some rs =>
        simp [Frame.Fprint, fontEntry, Object.ref, List.append_assoc]

theorem ObjectCatalog_Write_eq (h : Heap) (c : ObjectCatalog) (o1 o2 : Object)
    (h1 : h[c.Outline]? = some o1) (h2 : h[c.Pages]? = some o2) :
    c.Write h = some (objHeader c.base ++ str "<< /Type /Catalog\n"
      ++ (str "/Outlines " ++ fmtRef o1.ID o1.Generation ++ str " R\n")
      ++ (str "/Pages " ++ fmtRef o2.ID o2.Generation ++ str " R\n")
      ++ str ">>\n" ++ str "endobj\n") := by
  simp [ObjectCatalog.Write, h1, h2, Frame.new, Frame.Fprint, Frame.defer, Frame.ret]

theorem ObjectOutlines_Write_eq (c : ObjectOutlines) :
    c.Write = objHeader c.base ++ str "<< /Type /Outlines\n" ++ str "/Count 0\n"
      ++ str ">>\n" ++ str "endobj\n" := by
  simp [ObjectOutlines.Write, Frame.new, Frame.Fprint, Frame.defer, Frame.ret]

theorem ObjectPages_Write_eq (h : Heap) (p : ObjectPages) (rs : List ObjectRef)
    (hrs : refsOf h p.Kids = some rs) :
    p.Write h = some (objHeader p.base ++ str "<< /Type /Pages\n" ++ str "/Kids ["
      ++ (rs.map kidEntry).flatten ++ str "]\n"
      ++ (str "/Count " ++ fmtD (p.Kids.length : Int) ++ str "\n")
      ++ str ">>\n" ++ str "endobj\n") := by
  simp [ObjectPages.Write, writeKids_eq, hrs, ObjectPages.count, Frame.new, Frame.Fprint,
    Frame.defer, Frame.ret]

theorem ObjectPage_writeResource_eq (e : Enum) (h : Heap) (a : Addr) (p : ObjectPage)
    (o : Object) (rs : List (Bytes × ObjectRef)) (ho : h[p.ProcSet]? = some o)
    (hrs : fontRefsOf h (e a p.Fonts) = some rs) :
    p.writeResource e h a = some (str "/Resources <<\n"
      ++ (str "/ProcSet " ++ fmtRef o.ID o.Generation ++ str " R\n")
      ++ str "/Font <<\n" ++ (rs.map fontEntry).flatten ++ str ">>\n" ++ str ">>\n") := by
  simp [ObjectPage.writeResource, writeFonts_eq, ho, hrs, Frame.new, Frame.Fprint,
    Frame.defer, Frame.ret]

theorem ObjectPage_Write_eq (e : Enum) (h : Heap) (a : Addr) (p : ObjectPage)
    (oc o : Object) (rs : List (Bytes × ObjectRef)) (hc : h[p.Contents]? = some oc)
    (ho : h[p.ProcSet]? = some o) (hrs : fontRefsOf h (e a p.Fonts) = some rs) :
    p.Write e h a = some (objHeader p.base ++ str "<< /Type /Page"
      ++ (str "/Parent " ++ fmtRef p.Parent.ID p.Parent.Gen ++ str " R\n")
      ++ (str "/MediaBox [" ++ fmtD p.MediaBox.X ++ str " " ++ fmtD p.MediaBox.Y
        ++ str " " ++ fmtD p.MediaBox.W ++ str " " ++ fmtD p.MediaBox.H ++ str "]\n")
      ++ (str "/Contents " ++ fmtRef oc.ID oc.Generation ++ str " R\n")
      ++ (str "/Resources <<\n"
        ++ (str "/ProcSet " ++ fmtRef o.ID o.Generation ++ str " R\n")
        ++ str "/Font <<\n" ++ (rs.map fontEntry).flatten ++ str ">>\n" ++ str ">>\n")
      ++ str ">>\n" ++ str "endobj\n") := by
  simp [ObjectPage.Write, ObjectPage_writeResource_eq e h a p o rs ho hrs, hc, Frame.new,
    Frame.Fprint, Frame.defer, Frame.ret]

theorem ObjectContent_Write_eq (c : ObjectContent) :
    c.Write = objHeader c.base ++ (str "<< /Length " ++ fmtD (c.Content.length : Int)
      ++ str " >>\n") ++ str "stream\n" ++ c.Content ++ str "endstream\n"
      ++ str "endobj\n" := by
  simp [ObjectContent.Write, Frame.new, Frame.Fprint, Frame.defer, Frame.ret]

theorem ObjectProcSet_Write_eq (c : ObjectProcSet) :
    c.Write = objHeader c.base ++ str "[/PDF /Text]\n" ++ str "endobj\n" := by
  simp [ObjectProcSet.Write, Frame.new, Frame.Fprint, Frame.ret]

theorem ObjectFontType1_Write_eq (f : ObjectFontType1) :
    f.Write = objHeader f.base ++ str "<< /Type /Font\n" ++ str "/Subtype /Type1\n"
      ++ str "/BaseFont /Helvetica\n" ++ str "/Encoding /WinAnsiEncoding\n"
      ++ str ">>\n" ++ str "endobj\n" := by
  simp [ObjectFontType1.Write, Frame.new, Frame.Fprint, Frame.defer, Frame.ret]

theorem refsOf_isSome (h : Heap) (ks : List Addr) (hk : ∀ k ∈ ks, ∃ o, h[k]? = some o) :
    ∃ rs, refsOf h ks = some rs := by
  induction ks with
  | nil => exact ⟨[], rfl⟩
  | cons k ks ih =>
    obtain ⟨o, ho⟩ := hk k (List.mem_cons_self _ _)
    obtain ⟨rs, hrs⟩ := ih (fun k' hk' => hk k' (List.mem_cons_of_mem _ hk'))
    exact ⟨o.ref :: rs, by simp [refsOf, ho, hrs]⟩

theorem fontRefsOf_isSome (h : Heap) (fs : List (Bytes × Addr))
    (hk : ∀ f ∈ fs, ∃ o, h[f.2]? = some o) : ∃ rs, fontRefsOf h fs = some rs := by
  induction fs with
  | nil => exact ⟨[], rfl⟩
  | cons f fs ih =>
    obtain ⟨name, a⟩ := f
    obtain ⟨o, ho⟩ := hk (name, a) (List.mem_cons_self _ _)
    obtain ⟨rs, hrs⟩ := ih (fun f' hf' => hk f' (List.mem_cons_of_mem _ hf'))
    exact ⟨(name, o.ref) :: rs, by simp only [] at ho; simp [fontRefsOf, ho, hrs]⟩

/-- Every block starts with the leading line `"<ID> <Gen> obj\n"` of its object. -/
theorem Write_header (e : Enum) (h : Heap) (a : Addr) (b : Bytes) (hb : Write e h a = some b) :
    ∃ o body, h[a]? = some o ∧ b = objHeader o.base ++ body := by
  unfold Write at hb
  cases hget : h[a]? with
  | none => rw [hget] at hb; simp at hb
  | some o =>
    rw [hget] at hb
    refine ⟨o, ?_⟩
    cases o with
    | catalog c =>
      simp only [] at hb
      rcases hO : h[c.Outline]? with _ | o1 <;> rcases hP : h[c.Pages]? with _ | o2 <;>
        simp [ObjectCatalog.Write, hO, hP, Frame.new, Frame.Fprint, Frame.defer, Frame.ret] at hb
      exact ⟨_, rfl, by rw [← hb]; rfl⟩
    | outlines o =>
      simp only [Option.some.injEq] at hb
      exact ⟨_, rfl, by rw [← hb, ObjectOutlines_Write_eq]; simp only [List.append_assoc]; rfl⟩
    | pages p =>
      simp only [] at hb
      rcases hrs : refsOf h p.Kids with _ | rs
      · simp [ObjectPages.Write, writeKids_eq, hrs] at hb
      · rw [ObjectPages_Write_eq h p rs hrs, Option.some.injEq] at hb
        exact ⟨_, rfl, by rw [← hb]; simp only [List.append_assoc]; rfl⟩
    | page p =>
      simp only [] at hb
      rcases hc : h[p.Contents]? with _ | oc
      · simp [ObjectPage.Write, hc] at hb
      · rcases ho : h[p.ProcSet]? with _ | ops
        · simp [ObjectPage.Write, ObjectPage.writeResource, hc, ho] at hb
        · rcases hrs : fontRefsOf h (e a p.Fonts) with _ | rs
          · simp [ObjectPage.Write, ObjectPage.writeResource, writeFonts_eq, hc, ho, hrs] at hb
          · rw [ObjectPage_Write_eq e h a p oc ops rs hc ho hrs, Option.some.injEq] at hb
            exact ⟨_, rfl, by rw [← hb]; simp only [List.append_assoc]; rfl⟩
    | content c =>
      simp only [Option.some.injEq] at hb
      exact ⟨_, rfl, by rw [← hb, ObjectContent_Write_eq]; simp only [List.append_assoc]; rfl⟩
    | procSet c =>
      simp only [Option.some.injEq] at hb
      exact ⟨_, rfl, by rw [← hb, ObjectProcSet_Write_eq]; simp only [List.append_assoc]; rfl⟩
    | fontType1 f =>
      simp only [Option.some.injEq] at hb
      exact ⟨_, rfl, by rw [← hb, ObjectFontType1_Write_eq]; simp only [List.append_assoc]; rfl⟩

/-- In a closed registry every entry can be written. -/
theorem Write_isSome {e : Enum} (he : e.Valid) (h : Heap) (reg : List Addr)
    (hclosed : Closed h reg) (a : Addr) (ha : a ∈ reg) : ∃ b, Write e h a = some b := by
  obtain ⟨o, hget, hkids⟩ := hclosed a ha
  have hvalid : ∀ k ∈ o.children, ∃ ok, h[k]? = some ok := fun k hk => by
    obtain ⟨ok, hok, -⟩ := hclosed k (hkids k hk)
    exact ⟨ok, hok⟩
  unfold Write
  rw [hget]
  cases o with
  | catalog c =>
    obtain ⟨o1, h1⟩ := hvalid c.Outline (by simp [Object.children])
    obtain ⟨o2, h2⟩ := hvalid c.Pages (by simp [Object.children])
    exact ⟨_, ObjectCatalog_Write_eq h c o1 o2 h1 h2⟩
  | outlines o => exact ⟨_, rfl⟩
  | pages p =>
    obtain ⟨rs, hrs⟩ := refsOf_isSome h p.Kids (fun k hk => hvalid k (by simpa [Object.children] using hk))
    exact ⟨_, ObjectPages_Write_eq h p rs hrs⟩
  | page p =>
    obtain ⟨oc, hc⟩ := hvalid p.Contents (by simp [Object.children])
    obtain ⟨ops, ho⟩ := hvalid p.ProcSet (by simp [Object.children])
    obtain ⟨rs, hrs⟩ := fontRefsOf_isSome h (e a p.Fonts) (fun f hf => by
      have hf' : f ∈ p.Fonts := (he a p.Fonts).mem_iff.mp hf
      exact hvalid f.2 (by
        simp only [Object.children, List.mem_cons, List.mem_map]
        exact Or.inr (Or.inr ⟨f, hf', rfl⟩)))
    exact ⟨_, ObjectPage_Write_eq e h a p oc ops rs hc ho hrs⟩
  | content c => exact ⟨_, rfl⟩
  | procSet c => exact ⟨_, rfl⟩
  | fontType1 f => exact ⟨_, rfl⟩

/-- The registry `Collect` builds from an empty one is closed in the final heap. -/
theorem Collect_closed {e : Enum} (he : e.Valid) (fuel : Nat) (h h' : Heap) (root : Addr)
    (p : ObjectRef) (l : List Addr) (hc : Collect e fuel h root p [] = some (h', l)) :
    Closed h' l := by
  have hreg := Collect_registry e fuel h root p []
  rw [hc] at hreg
  cases hp : preorder e fuel h root with
  | none => rw [hp] at hreg; simp at hreg
  | some l0 =>
    rw [hp] at hreg
    simp only [Option.map_some', List.nil_append, Option.some.injEq] at hreg
    subst hreg
    obtain ⟨l1, -, -, hev⟩ := Collect_evolves e fuel h root p [] (h', l) hc
    intro x hx
    obtain ⟨o, hget, hkids⟩ := preorder_closed e fuel h root l hp x hx
    obtain ⟨o', hget', hshape, -⟩ := hev x o hget
    refine ⟨o', hget', fun k hk => ?_⟩
    rw [Object.children_of_shape hshape] at hk
    exact hkids k ((Object.mem_kids_iff he x o k).mpr hk)

theorem refsOf_spec (h : Heap) (ks : List Addr) (rs : List ObjectRef)
    (hrs : refsOf h ks = some rs) :
    rs.length = ks.length ∧
      ∀ (i : Nat) (hi : i < ks.length), ∃ o : Object, h[ks[i]]? = some o ∧ rs[i]? = some o.ref := by
  induction ks generalizing rs with
  | nil =>
    simp only [refsOf, Option.some.injEq] at hrs
    subst hrs
    exact ⟨rfl, fun i hi => by simp at hi⟩
  | cons k ks ih =>
    simp only [refsOf] at hrs
    cases hk : h[k]? with
    | none => rw [hk] at hrs; simp at hrs
    | some o =>
      rw [hk] at hrs
      cases hr : refsOf h ks with
      | none => rw [hr] at hrs; simp at hrs
      | some rs' =>
        rw [hr] at hrs
        simp only [Option.map_some', Option.some.injEq] at hrs
        subst hrs
        obtain ⟨hlen, hall⟩ := ih rs' hr
        refine ⟨by simp [hlen], fun i hi => ?_⟩
        cases i with
        | zero => exact ⟨o, by simpa using hk, by simp⟩
        | succ i =>
          obtain ⟨o', ho', hri⟩ := hall i (by simpa using hi)
          exact ⟨o', by simpa using ho', by simpa using hri⟩

theorem fontRefsOf_spec (h : Heap) (fs : List (Bytes × Addr)) (rs : List (Bytes × ObjectRef))
    (hrs : fontRefsOf h fs = some rs) :
    rs.length = fs.length ∧
      ∀ (i : Nat) (hi : i < fs.length), ∃ o : Object,
        h[(fs[i]).2]? = some o ∧ rs[i]? = some ((fs[i]).1, o.ref) := by
  induction fs generalizing rs with
  | nil =>
    simp only [fontRefsOf, Option.some.injEq] at hrs
    subst hrs
    exact ⟨rfl, fun i hi => by simp at hi⟩
  | cons f fs ih =>
    obtain ⟨name, k⟩ := f
    simp only [fontRefsOf] at hrs
    cases hk : h[k]? with
    | none => rw [hk] at hrs; simp at hrs
    | some o =>
      rw [hk] at hrs
      cases hr : fontRefsOf h fs with
      | none => rw [hr] at hrs; simp at hrs
      | some rs' =>
        rw [hr] at hrs
        simp only [Option.map_some', Option.some.injEq] at hrs
        subst hrs
        obtain ⟨hlen, hall⟩ := ih rs' hr
        refine ⟨by simp [hlen], fun i hi => ?_⟩
        cases i with
        | zero => exact ⟨o, by simpa using hk, by simp⟩
        | succ i =>
          obtain ⟨o', ho', hri⟩ := hall i (by simpa using hi)
          exact ⟨o', by simpa using ho', by simpa using hri⟩

/-! ## The serializer loop -/

theorem blocks_length (e : Enum) (h : Heap) (objs : List Addr) (bs : List Bytes)
    (hbs : blocks e h objs = some bs) : bs.length = objs.length := by
  induction objs generalizing bs with
  | nil => simp only [blocks, Option.some.injEq] at hbs; subst hbs; rfl
  | cons a rest ih =>
    simp only [blocks] at hbs
    cases hw : Write e h a with
    | none => rw [hw] at hbs; simp at hbs
    | some b =>
      rw [hw] at hbs
      cases hr : blocks e h rest with
      | none => rw [hr] at hbs; simp at hbs
      | some bs' =>
        rw [hr] at hbs
        simp only [Option.map_some', Option.some.injEq] at hbs
        subst hbs
        simp [ih bs' hr]

theorem blocks_isSome (e : Enum) (h : Heap) (objs : List Addr)
    (hw : ∀ a ∈ objs, ∃ b, Write e h a = some b) : ∃ bs, blocks e h objs = some bs := by
  induction objs with
  | nil => exact ⟨[], rfl⟩
  | cons a rest ih =>
    obtain ⟨b, hb⟩ := hw a (List.mem_cons_self _ _)
    obtain ⟨bs, hbs⟩ := ih (fun x hx => hw x (List.mem_cons_of_mem _ hx))
    exact ⟨b :: bs, by simp [blocks, hb, hbs]⟩

theorem blocks_getElem (e : Enum) (h : Heap) (objs : List Addr) (bs : List Bytes)
    (hbs : blocks e h objs = some bs) (i : Nat) (hi : i < objs.length) (hi' : i < bs.length) :
    Write e h objs[i] = some bs[i] := by
  induction objs generalizing bs i with
  | nil => simp at hi
  | cons a rest ih =>
    simp only [blocks] at hbs
    cases hw : Write e h a with
    | none => rw [hw] at hbs; simp at hbs
    | some b =>
      rw [hw] at hbs
      cases hr : blocks e h rest with
      | none => rw [hr] at hbs; simp at hbs
      | some bs' =>
        rw [hr] at hbs
        simp only [Option.map_some', Option.some.injEq] at hbs
        subst hbs
        cases i with
        | zero => simpa using hw
        | succ i =>
          simp only [List.getElem_cons_succ]
          exact ih bs' hr i (by simpa using hi) (by simpa using hi')

/-- The loop of lines 92-99 in closed form. -/
theorem serializeLoop_eq (e : Enum) (h : Heap) (objs : List Addr) (s : Ser) :
    serializeLoop e h objs s = (blocks e h objs).map fun bs =>
      { xrefbuf := s.xrefbuf ++ (inUseEntries h objs (offsetsFrom s.pos bs)).flatten,
        pos := s.pos + bs.flatten.length,
        w := s.w ++ bs.flatten } := by
  induction objs generalizing s with
  | nil => simp [serializeLoop, blocks, inUseEntries, offsetsFrom]
  | cons a rest ih =>
    simp only [serializeLoop, blocks]
    cases hget : h[a]? with
    | none =>
      have hw : Write e h a = none := by unfold Write; rw [hget]
      rw [hw]; rfl
    | some o =>
      simp only [Option.bind_eq_bind, Option.some_bind]
      cases hw : Write e h a with
      | none => rfl
      | some b =>
        simp only [Option.some_bind, ih]
        cases blocks e h rest with
        | none => rfl
        | some bs =>
          simp only [Option.map_some', Option.some.injEq, inUseEntries, offsetsFrom,
            List.zipWith_cons_cons, List.flatten_cons, List.length_append, genAt, hget,
            List.append_assoc, Nat.add_assoc]

theorem offsetsFrom_length (start : Nat) (bs : List Bytes) :
    (offsetsFrom start bs).length = bs.length := by
  induction bs generalizing start with
  | nil => rfl
  | cons b bs ih => simp [offsetsFrom, ih]

theorem offsetsFrom_getElem (start : Nat) (bs : List Bytes) (i : Nat)
    (hi : i < (offsetsFrom start bs).length) :
    (offsetsFrom start bs)[i] = start + ((bs.take i).map List.length).sum := by
  induction bs generalizing start i with
  | nil => simp [offsetsFrom] at hi
  | cons b bs ih =>
    cases i with
    | zero => simp [offsetsFrom]
    | succ i =>
      simp only [offsetsFrom, List.getElem_cons_succ, List.take_succ_cons, List.map_cons,
        List.sum_cons]
      rw [ih]
      omega

theorem flatten_drop_getElem (pre post : Bytes) (bs : List Bytes) (i : Nat) (hi : i < bs.length) :
    bs[i] <+: (pre ++ bs.flatten ++ post).drop (pre.length + ((bs.take i).map List.length).sum) := by
  induction bs generalizing pre i with
  | nil => simp at hi
  | cons b bs ih =>
    cases i with
    | zero =>
      simp only [List.take_zero, List.map_nil, List.sum_nil, Nat.add_zero, List.getElem_cons_zero,
        List.flatten_cons, List.append_assoc, List.drop_left]
      exact List.prefix_append _ _
    | succ i =>
      simp only [List.take_succ_cons, List.map_cons, List.sum_cons, List.getElem_cons_succ,
        List.flatten_cons]
      have := ih (pre ++ b) i (by simpa using hi)
      simp only [List.length_append, List.append_assoc, Nat.add_assoc] at this ⊢
      exact this

theorem inUseEntries_getElem? (h : Heap) (objs : List Addr) (offs : List Nat) (i : Nat)
    (o : Object) (hi : i < objs.length) (ho : i < offs.length) (hget : h[objs[i]]? = some o) :
    (inUseEntries h objs offs)[i]? = some (xrefEntry offs[i] o.Generation) := by
  simp only [inUseEntries, List.getElem?_zipWith, List.getElem?_eq_getElem hi,
    List.getElem?_eq_getElem ho, genAt, hget]

theorem inUseEntries_length (h : Heap) (objs : List Addr) (offs : List Nat)
    (hlen : offs.length = objs.length) : (inUseEntries h objs offs).length = objs.length := by
  simp [inUseEntries, hlen]

theorem header_length : (str "%PDF-1.3\n").length = 9 := by decide

/-- Lines 83-106 in closed form: header, blocks, index section, trailer. -/
theorem serialize_eq (e : Enum) (h : Heap) (objs : List Addr) (catalog : Addr)
    (bs : List Bytes) (c : Object) (hbs : blocks e h objs = some bs)
    (hc : h[catalog]? = some c) :
    serialize e h objs catalog = some (
      (str "%PDF-1.3\n" ++ bs.flatten)
      ++ (xrefHead objs.length ++ (inUseEntries h objs (offsetsFrom 9 bs)).flatten)
      ++ (str "trailer\n"
        ++ (str "<< /Size " ++ fmtD ((objs.length + 1 : Nat) : Int) ++ str "\n")
        ++ (str "/Root " ++ fmtRef c.ID c.Generation ++ str " R\n")
        ++ (str ">>\nstartxref\n" ++ fmtD ((9 + bs.flatten.length : Nat) : Int)
          ++ str "\n%EOF\n"))) := by
  simp only [serialize, serializeLoop_eq, hbs, trailer, hc, serializeInit, header_length,
    Option.map_some', Option.bind_eq_bind, Option.some_bind, Nat.zero_add, xrefHead, pure]

/-! ## C3: recorded offsets -/

/-- C3: for a registry produced by `Collect`, the serializer returns, the index lines it
records are `xrefEntry` of the running positions, and for every registry index `i` the
recorded position is `len("%PDF-1.3\n")` plus the lengths of the blocks before, the complete
output continues at that position with the block of object `i`, and this block starts
with `"<ID> <Gen> obj\n"` of that object. -/
theorem C3_recorded_offset_is_block_start (eC eW : Enum) (heC : eC.Valid) (heW : eW.Valid)
    (fuel : Nat) (h h' : Heap) (root : Addr) (p : ObjectRef) (objs : List Addr)
    (hc : Collect eC fuel h root p [] = some (h', objs)) :
    ∃ (bs : List Bytes) (s : Ser) (out : Bytes),
      blocks eW h' objs = some bs ∧
      serializeLoop eW h' objs (serializeInit objs) = some s ∧
      serialize eW h' objs root = some out ∧
      s.xrefbuf = (serializeInit objs).xrefbuf
        ++ (inUseEntries h' objs (offsetsFrom 9 bs)).flatten ∧
      ∀ (i : Nat) (hi : i < objs.length),
        ∃ (o : Object) (hb : i < bs.length) (ho : i < (offsetsFrom 9 bs).length),
          h'[objs[i]]? = some o ∧
          (inUseEntries h' objs (offsetsFrom 9 bs))[i]?
            = some (xrefEntry (offsetsFrom 9 bs)[i] o.Generation) ∧
          (offsetsFrom 9 bs)[i]
            = (str "%PDF-1.3\n").length + ((bs.take i).map List.length).sum ∧
          bs[i] <+: out.drop (offsetsFrom 9 bs)[i] ∧
          (fmtD o.ID ++ str " " ++ fmtD o.Generation ++ str " obj\n") <+: bs[i] := by
  have hclosed := Collect_closed heC fuel h h' root p objs hc
  obtain ⟨bs, hbs⟩ := blocks_isSome eW h' objs (Write_isSome heW h' objs hclosed)
  have hroot : root ∈ objs := by
    have hreg := Collect_registry eC fuel h root p []
    rw [hc] at hreg
    cases hp : preorder eC fuel h root with
    | none => rw [hp] at hreg; simp at hreg
    | some l0 =>
      rw [hp] at hreg
      simp only [Option.map_some', List.nil_append, Option.some.injEq] at hreg
      subst hreg
      obtain ⟨rest, hrest⟩ := preorder_head eC fuel h root objs hp
      rw [hrest]; exact List.mem_cons_self _ _
  obtain ⟨c, hcat, -⟩ := hclosed root hroot
  have hlen := blocks_length eW h' objs bs hbs
  have hpos : (serializeInit objs).pos = 9 := by simp [serializeInit, header_length]
  refine ⟨bs, { xrefbuf := (serializeInit objs).xrefbuf
                  ++ (inUseEntries h' objs (offsetsFrom 9 bs)).flatten,
                pos := 9 + bs.flatten.length,
                w := (serializeInit objs).w ++ bs.flatten }, _, hbs, ?_,
    serialize_eq eW h' objs root bs c hbs hcat, rfl, ?_⟩
  · rw [serializeLoop_eq, hbs, hpos]; rfl
  · intro i hi
    have hb : i < bs.length := by omega
    have ho : i < (offsetsFrom 9 bs).length := by rw [offsetsFrom_length]; exact hb
    obtain ⟨o, body, hget, hbody⟩ :=
      Write_header eW h' objs[i] bs[i] (blocks_getElem eW h' objs bs hbs i hi hb)
    refine ⟨o, hb, ho, hget, inUseEntries_getElem? h' objs _ i o hi ho hget, ?_, ?_, ?_⟩
    · rw [offsetsFrom_getElem, header_length]
    · rw [offsetsFrom_getElem, ← header_length, List.append_assoc]
      exact flatten_drop_getElem _ _ bs i hb
    · rw [hbody]
      exact List.prefix_append _ _

theorem C3_recorded_offset_is_block_start_witness :
    (Enum.stored.Valid ∧ Enum.stored.Valid ∧
      Collect Enum.stored 4 (driverHeap []) driverCatalog ⟨0, 0⟩ []
        = some (driverCollected [], driverRegistry)) ∧
    ∃ (bs : List Bytes) (s : Ser) (out : Bytes),
      blocks Enum.stored (driverCollected []) driverRegistry = some bs ∧
      serializeLoop Enum.stored (driverCollected []) driverRegistry
        (serializeInit driverRegistry) = some s ∧
      serialize Enum.stored (driverCollected []) driverRegistry driverCatalog = some out ∧
      s.xrefbuf = (serializeInit driverRegistry).xrefbuf
        ++ (inUseEntries (driverCollected []) driverRegistry (offsetsFrom 9 bs)).flatten ∧
      ∀ (i : Nat) (hi : i < driverRegistry.length),
        ∃ (o : Object) (hb : i < bs.length) (ho : i < (offsetsFrom 9 bs).length),
          (driverCollected [])[driverRegistry[i]]? = some o ∧
          (inUseEntries (driverCollected []) driverRegistry (offsetsFrom 9 bs))[i]?
            = some (xrefEntry (offsetsFrom 9 bs)[i] o.Generation) ∧
          (offsetsFrom 9 bs)[i]
            = (str "%PDF-1.3\n").length + ((bs.take i).map List.length).sum ∧
          bs[i] <+: out.drop (offsetsFrom 9 bs)[i] ∧
          (fmtD o.ID ++ str " " ++ fmtD o.Generation ++ str " obj\n") <+: bs[i] :=
  ⟨⟨Enum.stored_valid, Enum.stored_valid, by decide⟩,
    C3_recorded_offset_is_block_start Enum.stored Enum.stored Enum.stored_valid
      Enum.stored_valid 4 (driverHeap []) (driverCollected []) driverCatalog ⟨0, 0⟩
      driverRegistry (by decide)⟩

/-! ## C5: the index section -/

/-- C5: when every registry entry can be written, the index section the serializer emits is
the line `xref`, the line `0 <N+1>`, the free entry `0000000000 65535 f`, and then exactly
`N` in-use lines, line `i` being the entry of registry object `i`; it is copied to the output
between the blocks and the trailer. -/
theorem C5_index_section_shape (e : Enum) (h : Heap) (objs : List Addr) (catalog : Addr)
    (bs : List Bytes) (c : Object) (hbs : blocks e h objs = some bs)
    (hc : h[catalog]? = some c) :
    ∃ (s : Ser) (entries : List Bytes) (trailerBytes : Bytes),
      serializeLoop e h objs (serializeInit objs) = some s ∧
      s.xrefbuf = str "xref\n" ++ (str "0 " ++ fmtD ((objs.length + 1 : Nat) : Int) ++ str "\n")
        ++ str "0000000000 65535 f\n" ++ entries.flatten ∧
      entries.length = objs.length ∧
      (∀ (i : Nat) (hi : i < objs.length),
        entries[i]? = some (xrefEntry ((offsetsFrom 9 bs).getD i 0) (genAt h objs[i]))) ∧
      serialize e h objs catalog = some (s.w ++ s.xrefbuf ++ trailerBytes) := by
  have hpos : (serializeInit objs).pos = 9 := by simp [serializeInit, header_length]
  have hlen := blocks_length e h objs bs hbs
  have hoff := offsetsFrom_length 9 bs
  refine ⟨{ xrefbuf := (serializeInit objs).xrefbuf
              ++ (inUseEntries h objs (offsetsFrom 9 bs)).flatten,
            pos := 9 + bs.flatten.length,
            w := (serializeInit objs).w ++ bs.flatten },
    inUseEntries h objs (offsetsFrom 9 bs), _, ?_, ?_, ?_, ?_,
    serialize_eq e h objs catalog bs c hbs hc⟩
  · rw [serializeLoop_eq, hbs, hpos]; rfl
  · have h1 : ∀ X : Bytes, fmtD 0 ++ (str " " ++ X) = str "0 " ++ X := by
      intro X
      have h0 : fmtD 0 ++ str " " = str "0 " := by decide
      rw [← h0, List.append_assoc]
    have h2 : ∀ X : Bytes, fmtDPad 10 0 ++ (str " " ++ (fmtDPad 5 65535 ++ (str " f\n" ++ X)))
        = str "0000000000 65535 f\n" ++ X := by
      intro X
      have h0 : fmtDPad 10 0 ++ str " " ++ fmtDPad 5 65535 ++ str " f\n"
          = str "0000000000 65535 f\n" := by decide
      rw [← h0]
      simp only [List.append_assoc]
    simp only [serializeInit, List.append_assoc, h1, h2]
  · exact inUseEntries_length h objs _ (by omega)
  · intro i hi
    have ho : i < (offsetsFrom 9 bs).length := by omega
    simp only [inUseEntries, List.getElem?_zipWith, List.getElem?_eq_getElem hi,
      List.getElem?_eq_getElem ho, List.getD_eq_getElem?_getD, Option.getD_some]

theorem C5_index_section_shape_witness :
    (blocks Enum.stored (driverCollected []) driverRegistry
        = some ((List.range 7).filterMap fun i =>
            (driverRegistry[i]?).bind (Write Enum.stored (driverCollected []))) ∧
      (driverCollected [])[driverCatalog]? = some (.catalog ⟨⟨1, 0⟩, 2, 3⟩)) ∧
    ∃ (s : Ser) (entries : List Bytes) (trailerBytes : Bytes),
      serializeLoop Enum.stored (driverCollected []) driverRegistry
        (serializeInit driverRegistry) = some s ∧
      s.xrefbuf = str "xref\n"
        ++ (str "0 " ++ fmtD ((driverRegistry.length + 1 : Nat) : Int) ++ str "\n")
        ++ str "0000000000 65535 f\n" ++ entries.flatten ∧
      entries.length = driverRegistry.length ∧
      (∀ (i : Nat) (hi : i < driverRegistry.length),
        entries[i]? = some (xrefEntry
          ((offsetsFrom 9 ((List.range 7).filterMap fun i =>
            (driverRegistry[i]?).bind (Write Enum.stored (driverCollected [])))).getD i 0)
          (genAt (driverCollected []) driverRegistry[i]))) ∧
      serialize Enum.stored (driverCollected []) driverRegistry driverCatalog
        = some (s.w ++ s.xrefbuf ++ trailerBytes) :=
  ⟨⟨by decide, by decide⟩,
    C5_index_section_shape Enum.stored (driverCollected []) driverRegistry driverCatalog _
      (.catalog ⟨⟨1, 0⟩, 2, 3⟩) (by decide) (by decide)⟩

/-! ## C7: the content stream -/

/-- C7: for every content and identity, the block of an `ObjectContent` is the leading line,
the dictionary declaring `/Length len(Content)`, the line `stream`, the content bytes
verbatim and then `endstream` and `endobj`; so exactly `len(Content)` bytes stand between
`"stream\n"` and `"endstream"`. -/
theorem C7_content_length_matches (c : ObjectContent) :
    c.Write = (fmtD c.base.IDNum ++ str " " ++ fmtD c.base.Gen ++ str " obj\n")
      ++ (str "<< /Length " ++ fmtD (c.Content.length : Int) ++ str " >>\n" ++ str "stream\n")
      ++ c.Content ++ (str "endstream\n" ++ str "endobj\n") ∧
    Write Enum.stored [.content c] 0 = some c.Write := by
  constructor
  · rw [ObjectContent_Write_eq]
    simp only [objHeader, fmtRef, objectBase.ID, objectBase.Generation, List.append_assoc]
  · rfl

/-! ## C10: the trailer -/

/-- C10: when every registry entry can be written, the output is the header and blocks,
then the index section starting with the line `xref`, then a trailer that declares
`/Size N+1`, `/Root <catalog ID> <catalog Gen> R` and, after `startxref`, the length of
everything before the index section, which is 9 plus the lengths of all blocks. -/
theorem C10_trailer_and_startxref (e : Enum) (h : Heap) (objs : List Addr) (catalog : Addr)
    (bs : List Bytes) (c : Object) (hbs : blocks e h objs = some bs)
    (hc : h[catalog]? = some c) :
    ∃ (body index : Bytes),
      serialize e h objs catalog = some (body ++ (str "xref\n" ++ index)
        ++ (str "trailer\n"
          ++ (str "<< /Size " ++ fmtD ((objs.length + 1 : Nat) : Int) ++ str "\n")
          ++ (str "/Root " ++ fmtD c.ID ++ str " " ++ fmtD c.Generation ++ str " R\n")
          ++ (str ">>\nstartxref\n" ++ fmtD (body.length : Int) ++ str "\n%EOF\n"))) ∧
      body = str "%PDF-1.3\n" ++ bs.flatten ∧
      body.length = 9 + (bs.map List.length).sum := by
  refine ⟨str "%PDF-1.3\n" ++ bs.flatten,
    (fmtD 0 ++ str " " ++ fmtD ((objs.length + 1 : Nat) : Int) ++ str "\n")
      ++ (fmtDPad 10 0 ++ str " " ++ fmtDPad 5 65535 ++ str " f\n")
      ++ (inUseEntries h objs (offsetsFrom 9 bs)).flatten, ?_, rfl, ?_⟩
  · rw [serialize_eq e h objs catalog bs c hbs hc]
    simp only [xrefHead, fmtRef, List.append_assoc, List.length_append, header_length]
  · simp [header_length, List.length_flatten]

theorem C10_trailer_and_startxref_witness :
    (blocks Enum.stored (driverCollected []) driverRegistry
        = some ((List.range 7).filterMap fun i =>
            (driverRegistry[i]?).bind (Write Enum.stored (driverCollected []))) ∧
      (driverCollected [])[driverCatalog]? = some (.catalog ⟨⟨1, 0⟩, 2, 3⟩)) ∧
    ∃ (body index : Bytes),
      serialize Enum.stored (driverCollected []) driverRegistry driverCatalog
        = some (body ++ (str "xref\n" ++ index)
          ++ (str "trailer\n"
            ++ (str "<< /Size " ++ fmtD ((driverRegistry.length + 1 : Nat) : Int) ++ str "\n")
            ++ (str "/Root " ++ fmtD (Object.catalog ⟨⟨1, 0⟩, 2, 3⟩).ID ++ str " "
              ++ fmtD (Object.catalog ⟨⟨1, 0⟩, 2, 3⟩).Generation ++ str " R\n")
            ++ (str ">>\nstartxref\n" ++ fmtD (body.length : Int) ++ str "\n%EOF\n"))) ∧
      body = str "%PDF-1.3\n" ++ ((List.range 7).filterMap fun i =>
            (driverRegistry[i]?).bind (Write Enum.stored (driverCollected []))).flatten ∧
      body.length = 9 + (((List.range 7).filterMap fun i =>
            (driverRegistry[i]?).bind (Write Enum.stored (driverCollected []))).map
              List.length).sum :=
  ⟨⟨by decide, by decide⟩,
    C10_trailer_and_startxref Enum.stored (driverCollected []) driverRegistry driverCatalog _
      (.catalog ⟨⟨1, 0⟩, 2, 3⟩) (by decide) (by decide)⟩

/-! ## Fuel -/

/-- More fuel never changes a result. -/
theorem Collect_mono (e : Enum) : ∀ (fuel : Nat) (h : Heap) (a : Addr) (p : ObjectRef)
    (objs : List Addr) (r : Heap × List Addr),
    Collect e fuel h a p objs = some r → Collect e (fuel + 1) h a p objs = some r := by
  intro fuel
  induction fuel with
  | zero => intro h a p objs r hr; simp [Collect] at hr
  | succ fuel ih =>
    intro h a p objs r hr
    rw [Collect_succ] at hr ⊢
    cases hget : h[a]? with
    | none => rw [hget] at hr; simp at hr
    | some o =>
      rw [hget] at hr
      simp only [] at hr ⊢
      generalize (o.visit p (objs.length + 1)).ref = q at hr ⊢
      generalize h.set a (o.visit p (objs.length + 1)) = h1 at hr ⊢
      generalize objs ++ [a] = objs1 at hr ⊢
      generalize o.kids e a = xs at hr ⊢
      induction xs generalizing h1 objs1 with
      | nil => exact hr
      | cons x xs ihx =>
        simp only [collectEach] at hr ⊢
        cases hx : Collect e fuel h1 x q objs1 with
        | none => rw [hx] at hr; simp at hr
        | some r1 =>
          rw [hx] at hr
          rw [ih _ _ _ _ _ hx]
          exact ihx _ _ hr

theorem Collect_mono_le (e : Enum) (fuel fuel' : Nat) (hle : fuel ≤ fuel') (h : Heap) (a : Addr)
    (p : ObjectRef) (objs : List Addr) (r : Heap × List Addr)
    (hr : Collect e fuel h a p objs = some r) : Collect e fuel' h a p objs = some r := by
  induction hle with
  | refl => exact hr
  | step _ ih => exact Collect_mono e _ h a p objs r ih

/-! ## C9: the driver -/

theorem driver_Collect (eC : Enum) (heC : eC.Valid) (fuel : Nat) (hfuel : 4 ≤ fuel)
    (content : Bytes) :
    Collect eC fuel (driverHeap content) driverCatalog ⟨0, 0⟩ []
      = some (driverCollected content, driverRegistry) := by
  apply Collect_mono_le eC 4 fuel hfuel
  have hf : eC 4 [(str "F1", 0)] = [(str "F1", 0)] := List.perm_singleton.mp (heC 4 _)
  simp [Collect, driverHeap, driverCatalog, driverCollected, driverRegistry, collectEach, hf,
    objectBase.assign, objectBase.ID, objectBase.Generation]

theorem driver_blocks (eW : Enum) (heW : eW.Valid) (content : Bytes) :
    blocks eW (driverCollected content) driverRegistry = some
      [ str "1 0 obj\n<< /Type /Catalog\n/Outlines 2 0 R\n/Pages 3 0 R\n>>\nendobj\n",
        str "2 0 obj\n<< /Type /Outlines\n/Count 0\n>>\nendobj\n",
        str "3 0 obj\n<< /Type /Pages\n/Kids [4 0 R ]\n/Count 1\n>>\nendobj\n",
        str "4 0 obj\n<< /Type /Page/Parent 3 0 R\n/MediaBox [0 0 612 792]\n/Contents 5 0 R\n/Resources <<\n/ProcSet 6 0 R\n/Font <<\n/F1 7 0 R\n>>\n>>\n>>\nendobj\n",
        str "5 0 obj\n<< /Length " ++ fmtD (content.length : Int) ++ str " >>\nstream\n"
          ++ content ++ str "endstream\nendobj\n",
        str "6 0 obj\n[/PDF /Text]\nendobj\n",
        str "7 0 obj\n<< /Type /Font\n/Subtype /Type1\n/BaseFont /Helvetica\n/Encoding /WinAnsiEncoding\n>>\nendobj\n" ] := by
  have hf : eW 4 [(str "F1", 0)] = [(str "F1", 0)] := List.perm_singleton.mp (heW 4 _)
  have w1 : Write eW (driverCollected content) 1 = some
      (str "1 0 obj\n<< /Type /Catalog\n/Outlines 2 0 R\n/Pages 3 0 R\n>>\nendobj\n") := by
    have : (ObjectCatalog.mk ⟨1, 0⟩ 2 3).Write (driverCollected content) = _ :=
      ObjectCatalog_Write_eq (driverCollected content) ⟨⟨1, 0⟩, 2, 3⟩ (.outlines ⟨⟨2, 0⟩⟩)
        (.pages ⟨⟨3, 0⟩, [4]⟩) rfl rfl
    show (ObjectCatalog.mk ⟨1, 0⟩ 2 3).Write (driverCollected content) = _
    rw [this]
    exact congrArg some (by decide)
  have w2 : Write eW (driverCollected content) 2 = some
      (str "2 0 obj\n<< /Type /Outlines\n/Count 0\n>>\nendobj\n") :=
    congrArg some (by decide)
  have w3 : Write eW (driverCollected content) 3 = some
      (str "3 0 obj\n<< /Type /Pages\n/Kids [4 0 R ]\n/Count 1\n>>\nendobj\n") := by
    have : (ObjectPages.mk ⟨3, 0⟩ [4]).Write (driverCollected content) = _ :=
      ObjectPages_Write_eq (driverCollected content) ⟨⟨3, 0⟩, [4]⟩ [⟨4, 0⟩] rfl
    show (ObjectPages.mk ⟨3, 0⟩ [4]).Write (driverCollected content) = _
    rw [this]
    exact congrArg some (by decide)
  have w4 : Write eW (driverCollected content) 4 = some
      (str "4 0 obj\n<< /Type /Page/Parent 3 0 R\n/MediaBox [0 0 612 792]\n/Contents 5 0 R\n/Resources <<\n/ProcSet 6 0 R\n/Font <<\n/F1 7 0 R\n>>\n>>\n>>\nendobj\n") := by
    have : (ObjectPage.mk ⟨4, 0⟩ ⟨3, 0⟩ ⟨0, 0, 612, 792⟩ 6 5 [(str "F1", 0)]).Write eW
        (driverCollected content) 4 = _ :=
      ObjectPage_Write_eq eW (driverCollected content) 4
        ⟨⟨4, 0⟩, ⟨3, 0⟩, ⟨0, 0, 612, 792⟩, 6, 5, [(str "F1", 0)]⟩
        (.content ⟨⟨5, 0⟩, content⟩) (.procSet ⟨⟨6, 0⟩⟩) [(str "F1", ⟨7, 0⟩)] rfl rfl
        (by rw [hf]; rfl)
    show (ObjectPage.mk ⟨4, 0⟩ ⟨3, 0⟩ ⟨0, 0, 612, 792⟩ 6 5 [(str "F1", 0)]).Write eW
        (driverCollected content) 4 = _
    rw [this]
    simp only [Object.ID, Object.Generation, Object.base, objectBase.ID,
      objectBase.Generation]
    exact congrArg some (by decide)
  have w5 : Write eW (driverCollected content) 6 = some
      (str "5 0 obj\n<< /Length " ++ fmtD (content.length : Int) ++ str " >>\nstream\n"
          ++ content ++ str "endstream\nendobj\n") := by
    show some (ObjectContent.mk ⟨5, 0⟩ content).Write = _
    rw [ObjectContent_Write_eq]
    have e1 : objHeader (ObjectContent.mk ⟨5, 0⟩ content).base = str "5 0 obj\n" := by
      show objHeader ⟨5, 0⟩ = str "5 0 obj\n"
      decide
    have e2 : str "5 0 obj\n<< /Length " = str "5 0 obj\n" ++ str "<< /Length " := by decide
    have e3 : str " >>\nstream\n" = str " >>\n" ++ str "stream\n" := by decide
    have e4 : str "endstream\nendobj\n" = str "endstream\n" ++ str "endobj\n" := by decide
    rw [e1, e2, e3, e4]
    simp only [List.append_assoc]
  have w6 : Write eW (driverCollected content) 5 = some
      (str "6 0 obj\n[/PDF /Text]\nendobj\n") :=
    congrArg some (by decide)
  have w7 : Write eW (driverCollected content) 0 = some
      (str "7 0 obj\n<< /Type /Font\n/Subtype /Type1\n/BaseFont /Helvetica\n/Encoding /WinAnsiEncoding\n>>\nendobj\n") :=
    congrArg some (by decide)
  simp only [blocks, driverRegistry, w1, w2, w3, w4, w5, w6, w7, Option.map_some']

set_option maxRecDepth 100000 in
/-- C9: for the graph of the driver, every content, valid enumerations and fuel at least 4:
the registry is Catalog, Outlines, Pages, Page, Content, ProcSet, Font with identities 1..7;
the output is `"%PDF-1.3\n"`, then exactly the 7 blocks of these objects, then the index
section with the range line `0 8`, the free entry and exactly 7 in-use lines, one per block
at the position where that block starts, and a trailer whose root reference is `1 0 R`. -/
theorem C9_driver_output (eC eW : Enum) (heC : eC.Valid) (heW : eW.Valid) (fuel : Nat)
    (hfuel : 4 ≤ fuel) (content : Bytes) :
    Collect eC fuel (driverHeap content) driverCatalog ⟨0, 0⟩ []
      = some (driverCollected content, driverRegistry) ∧
    driverRegistry.map (fun a => (driverCollected content)[a]?) =
      [ some (.catalog ⟨⟨1, 0⟩, 2, 3⟩), some (.outlines ⟨⟨2, 0⟩⟩), some (.pages ⟨⟨3, 0⟩, [4]⟩),
        some (.page ⟨⟨4, 0⟩, ⟨3, 0⟩, ⟨0, 0, 612, 792⟩, 6, 5, [(str "F1", 0)]⟩),
        some (.content ⟨⟨5, 0⟩, content⟩), some (.procSet ⟨⟨6, 0⟩⟩),
        some (.fontType1 ⟨⟨7, 0⟩⟩) ] ∧
    ∃ (bs entries : List Bytes),
      bs =
        [ str "1 0 obj\n<< /Type /Catalog\n/Outlines 2 0 R\n/Pages 3 0 R\n>>\nendobj\n",
          str "2 0 obj\n<< /Type /Outlines\n/Count 0\n>>\nendobj\n",
          str "3 0 obj\n<< /Type /Pages\n/Kids [4 0 R ]\n/Count 1\n>>\nendobj\n",
          str "4 0 obj\n<< /Type /Page/Parent 3 0 R\n/MediaBox [0 0 612 792]\n/Contents 5 0 R\n/Resources <<\n/ProcSet 6 0 R\n/Font <<\n/F1 7 0 R\n>>\n>>\n>>\nendobj\n",
          str "5 0 obj\n<< /Length " ++ fmtD (content.length : Int) ++ str " >>\nstream\n"
            ++ content ++ str "endstream\nendobj\n",
          str "6 0 obj\n[/PDF /Text]\nendobj\n",
          str "7 0 obj\n<< /Type /Font\n/Subtype /Type1\n/BaseFont /Helvetica\n/Encoding /WinAnsiEncoding\n>>\nendobj\n" ] ∧
      blocks eW (driverCollected content) driverRegistry = some bs ∧
      entries =
        [ xrefEntry 9 0, xrefEntry 74 0, xrefEntry 120 0, xrefEntry 178 0, xrefEntry 318 0,
          xrefEntry (318 + (47 + (fmtD (content.length : Int)).length + content.length)) 0,
          xrefEntry (318 + (47 + (fmtD (content.length : Int)).length + content.length) + 28)
            0 ] ∧
      bs.length = 7 ∧ entries.length = 7 ∧
      main fuel eC eW content = some (
        (str "%PDF-1.3\n" ++ bs.flatten)
        ++ (str "xref\n" ++ str "0 8\n" ++ str "0000000000 65535 f\n" ++ entries.flatten)
        ++ (str "trailer\n" ++ str "<< /Size 8\n" ++ str "/Root 1 0 R\n"
          ++ (str ">>\nstartxref\n" ++ fmtD ((9 + bs.flatten.length : Nat) : Int)
            ++ str "\n%EOF\n"))) := by
  have hcol := driver_Collect eC heC fuel hfuel content
  refine ⟨hcol, rfl, ?_⟩
  have hbs := driver_blocks eW heW content
  have hcat : (driverCollected content)[driverCatalog]? = some (.catalog ⟨⟨1, 0⟩, 2, 3⟩) := rfl
  have hent : inUseEntries (driverCollected content) driverRegistry (offsetsFrom 9
      [ str "1 0 obj\n<< /Type /Catalog\n/Outlines 2 0 R\n/Pages 3 0 R\n>>\nendobj\n",
        str "2 0 obj\n<< /Type /Outlines\n/Count 0\n>>\nendobj\n",
        str "3 0 obj\n<< /Type /Pages\n/Kids [4 0 R ]\n/Count 1\n>>\nendobj\n",
        str "4 0 obj\n<< /Type /Page/Parent 3 0 R\n/MediaBox [0 0 612 792]\n/Contents 5 0 R\n/Resources <<\n/ProcSet 6 0 R\n/Font <<\n/F1 7 0 R\n>>\n>>\n>>\nendobj\n",
        str "5 0 obj\n<< /Length " ++ fmtD (content.length : Int) ++ str " >>\nstream\n"
          ++ content ++ str "endstream\nendobj\n",
        str "6 0 obj\n[/PDF /Text]\nendobj\n",
        str "7 0 obj\n<< /Type /Font\n/Subtype /Type1\n/BaseFont /Helvetica\n/Encoding /WinAnsiEncoding\n>>\nendobj\n" ])
      = [ xrefEntry 9 0, xrefEntry 74 0, xrefEntry 120 0, xrefEntry 178 0, xrefEntry 318 0,
          xrefEntry (318 + (47 + (fmtD (content.length : Int)).length + content.length)) 0,
          xrefEntry (318 + (47 + (fmtD (content.length : Int)).length + content.length) + 28)
            0 ] := by
    have l1 : (str "1 0 obj\n<< /Type /Catalog\n/Outlines 2 0 R\n/Pages 3 0 R\n>>\nendobj\n").length
        = 65 := by decide
    have l2 : (str "2 0 obj\n<< /Type /Outlines\n/Count 0\n>>\nendobj\n").length = 46 := by
      decide
    have l3 : (str "3 0 obj\n<< /Type /Pages\n/Kids [4 0 R ]\n/Count 1\n>>\nendobj\n").length
        = 58 := by decide
    have l4 : (str "4 0 obj\n<< /Type /Page/Parent 3 0 R\n/MediaBox [0 0 612 792]\n/Contents 5 0 R\n/Resources <<\n/ProcSet 6 0 R\n/Font <<\n/F1 7 0 R\n>>\n>>\n>>\nendobj\n").length
        = 140 := by decide
    have l5 : (str "5 0 obj\n<< /Length " ++ fmtD (content.length : Int)
        ++ str " >>\nstream\n" ++ content ++ str "endstream\nendobj\n").length
        = 47 + (fmtD (content.length : Int)).length + content.length := by
      have a1 : (str "5 0 obj\n<< /Length ").length = 19 := by decide
      have a2 : (str " >>\nstream\n").length = 11 := by decide
      have a3 : (str "endstream\nendobj\n").length = 17 := by decide
      simp only [List.length_append, a1, a2, a3]
      omega
    have l6 : (str "6 0 obj\n[/PDF /Text]\nendobj\n").length = 28 := by decide
    have g : ∀ a ∈ driverRegistry, genAt (driverCollected content) a = 0 := by
      intro a ha
      simp only [driverRegistry, List.mem_cons, List.mem_singleton, List.not_mem_nil,
        or_false] at ha
      rcases ha with rfl | rfl | rfl | rfl | rfl | rfl | rfl <;> rfl
    simp only [inUseEntries, offsetsFrom, driverRegistry, List.zipWith_cons_cons,
      List.zipWith_nil_right, l1, l2, l3, l4, l5, l6,
      g 1 (by decide), g 2 (by decide), g 3 (by decide), g 4 (by decide), g 6 (by decide),
      g 5 (by decide), g 0 (by decide)]
  refine ⟨_, _, rfl, hbs, rfl, rfl, rfl, ?_⟩
  have h1 : xrefHead driverRegistry.length
      = str "xref\n" ++ str "0 8\n" ++ str "0000000000 65535 f\n" := by decide
  have h2 : str "<< /Size " ++ fmtD ((driverRegistry.length + 1 : Nat) : Int) ++ str "\n"
      = str "<< /Size 8\n" := by decide
  have h3 : str "/Root " ++ fmtRef (Object.catalog ⟨⟨1, 0⟩, 2, 3⟩).ID
      (Object.catalog ⟨⟨1, 0⟩, 2, 3⟩).Generation ++ str " R\n" = str "/Root 1 0 R\n" := by
    decide
  simp only [main, pipeline, hcol, Option.bind_eq_bind, Option.some_bind]
  rw [serialize_eq eW _ _ _ _ _ hbs hcat, h1, h2, h3, hent]

theorem C9_driver_output_witness :
    (Enum.stored.Valid ∧ Enum.stored.Valid ∧ 4 ≤ 4) ∧
    (Collect Enum.stored 4 (driverHeap (str "q Q")) driverCatalog ⟨0, 0⟩ []
      = some (driverCollected (str "q Q"), driverRegistry) ∧
    driverRegistry.map (fun a => (driverCollected (str "q Q"))[a]?) =
      [ some (.catalog ⟨⟨1, 0⟩, 2, 3⟩), some (.outlines ⟨⟨2, 0⟩⟩), some (.pages ⟨⟨3, 0⟩, [4]⟩),
        some (.page ⟨⟨4, 0⟩, ⟨3, 0⟩, ⟨0, 0, 612, 792⟩, 6, 5, [(str "F1", 0)]⟩),
        some (.content ⟨⟨5, 0⟩, str "q Q"⟩), some (.procSet ⟨⟨6, 0⟩⟩),
        some (.fontType1 ⟨⟨7, 0⟩⟩) ] ∧
    ∃ (bs entries : List Bytes),
      bs =
        [ str "1 0 obj\n<< /Type /Catalog\n/Outlines 2 0 R\n/Pages 3 0 R\n>>\nendobj\n",
          str "2 0 obj\n<< /Type /Outlines\n/Count 0\n>>\nendobj\n",
          str "3 0 obj\n<< /Type /Pages\n/Kids [4 0 R ]\n/Count 1\n>>\nendobj\n",
          str "4 0 obj\n<< /Type /Page/Parent 3 0 R\n/MediaBox [0 0 612 792]\n/Contents 5 0 R\n/Resources <<\n/ProcSet 6 0 R\n/Font <<\n/F1 7 0 R\n>>\n>>\n>>\nendobj\n",
          str "5 0 obj\n<< /Length " ++ fmtD ((str "q Q").length : Int) ++ str " >>\nstream\n"
            ++ str "q Q" ++ str "endstream\nendobj\n",
          str "6 0 obj\n[/PDF /Text]\nendobj\n",
          str "7 0 obj\n<< /Type /Font\n/Subtype /Type1\n/BaseFont /Helvetica\n/Encoding /WinAnsiEncoding\n>>\nendobj\n" ] ∧
      blocks Enum.stored (driverCollected (str "q Q")) driverRegistry = some bs ∧
      entries =
        [ xrefEntry 9 0, xrefEntry 74 0, xrefEntry 120 0, xrefEntry 178 0, xrefEntry 318 0,
          xrefEntry (318 + (47 + (fmtD ((str "q Q").length : Int)).length
            + (str "q Q").length)) 0,
          xrefEntry (318 + (47 + (fmtD ((str "q Q").length : Int)).length
            + (str "q Q").length) + 28) 0 ] ∧
      bs.length = 7 ∧ entries.length = 7 ∧
      main 4 Enum.stored Enum.stored (str "q Q") = some (
        (str "%PDF-1.3\n" ++ bs.flatten)
        ++ (str "xref\n" ++ str "0 8\n" ++ str "0000000000 65535 f\n" ++ entries.flatten)
        ++ (str "trailer\n" ++ str "<< /Size 8\n" ++ str "/Root 1 0 R\n"
          ++ (str ">>\nstartxref\n" ++ fmtD ((9 + bs.flatten.length : Nat) : Int)
            ++ str "\n%EOF\n")))) :=
  ⟨⟨Enum.stored_valid, Enum.stored_valid, Nat.le_refl 4⟩,
    C9_driver_output Enum.stored Enum.stored Enum.stored_valid Enum.stored_valid 4
      (Nat.le_refl 4) (str "q Q")⟩

/-! ## C8: dependence on the enumeration order -/

theorem Enum.reversed_valid : Enum.reversed.Valid := fun _ l => List.reverse_perm l

set_option maxRecDepth 100000 in
/-- C8 fails on the code: for a page with the two fonts `F1` and `F2`, the run that
enumerates the map in stored order and the run that enumerates it in reverse order build
different registries and write different bytes. -/
theorem C8_enumeration_order_changes_output :
    (Collect Enum.stored 4 twoFontsHeap 0 ⟨0, 0⟩ []).map Prod.snd
      = some [0, 1, 2, 3, 4, 5, 6, 7] ∧
    (Collect Enum.reversed 4 twoFontsHeap 0 ⟨0, 0⟩ []).map Prod.snd
      = some [0, 1, 2, 3, 4, 5, 7, 6] ∧
    (pipeline 4 Enum.stored Enum.stored twoFontsHeap 0).isSome = true ∧
    (pipeline 4 Enum.reversed Enum.reversed twoFontsHeap 0).isSome = true ∧
    pipeline 4 Enum.stored Enum.stored twoFontsHeap 0
      ≠ pipeline 4 Enum.reversed Enum.reversed twoFontsHeap 0 ∧
    pipeline 4 Enum.stored Enum.stored twoFontsHeap 0
      ≠ pipeline 4 Enum.stored Enum.reversed twoFontsHeap 0 := by
  decide

/-! ## Objects outside a visit are untouched -/

theorem Evolves_frame {s t : Heap × List Addr} (hev : Evolves s t) (l : List Addr)
    (hl : t.2 = s.2 ++ l) (z : Addr) (hz : z ∉ l) : t.1[z]? = s.1[z]? := by
  obtain ⟨l', hl', hlen, hx⟩ := hev
  have hll : l' = l := List.append_cancel_left (hl'.symm.trans hl)
  subst hll
  cases hs : s.1[z]? with
  | none =>
    have hge : s.1.length ≤ z := by
      rcases Nat.lt_or_ge z s.1.length with hlt | hge
      · rw [List.getElem?_eq_getElem hlt] at hs; contradiction
      · exact hge
    exact List.getElem?_eq_none (by omega)
  | some o =>
    obtain ⟨o', ho', -, hf, -⟩ := hx z o hs
    rw [ho', hf hz]

theorem Evolves_shape_at {s t : Heap × List Addr} (hev : Evolves s t) (z : Addr) (o o' : Object)
    (hs : s.1[z]? = some o) (ht : t.1[z]? = some o') : o'.shape = o.shape := by
  obtain ⟨l', -, -, hx⟩ := hev
  obtain ⟨o'', ho'', hshape, -⟩ := hx z o hs
  rw [ht] at ho''
  cases ho''
  exact hshape

theorem collectEach_evolves (e : Enum) (fuel : Nat) (p : ObjectRef) (xs : List Addr) (h : Heap)
    (objs : List Addr) (r : Heap × List Addr)
    (hr : collectEach (Collect e fuel) p xs h objs = some r) : Evolves (h, objs) r :=
  collectEach_rel Evolves_refl Evolves_trans (Collect_evolves e fuel) p xs h objs r hr

theorem collectEach_registry (e : Enum) (fuel : Nat) (p : ObjectRef) (xs : List Addr) (h : Heap)
    (objs : List Addr) :
    (collectEach (Collect e fuel) p xs h objs).map Prod.snd =
      (preorderEach (preorder e fuel h) xs).map fun l => objs ++ l :=
  collectEach_preorderEach e fuel h p (Collect_registry e fuel) xs h objs rfl

theorem Object.visit_page (o : Object) (ρ : ObjectRef) (n : Nat) (pg : ObjectPage)
    (h : o.visit ρ n = .page pg) : pg.Parent = ρ := by
  cases o <;> simp only [Object.visit, Object.page.injEq] at h <;> try contradiction
  rw [← h]


/-! ## Parent references -/

theorem collectEach_parent (e : Enum) (fuel : Nat) (ρ : ObjectRef)
    (ih : ∀ (h : Heap) (a : Addr) (p : ObjectRef) (objs : List Addr) (h' : Heap)
      (objs' l : List Addr), Collect e fuel h a p objs = some (h', objs') →
      preorder e fuel h a = some l → l.Nodup →
      (∀ pg, h'[a]? = some (.page pg) → pg.Parent = p) ∧
      (∀ y ∈ l, ∀ oy, h'[y]? = some oy → ∀ x ∈ oy.kids e y, ∀ pg,
        h'[x]? = some (.page pg) → pg.Parent = oy.ref)) :
    ∀ (xs : List Addr) (h1 : Heap) (objs1 : List Addr) (h' : Heap) (objs' ls : List Addr),
      collectEach (Collect e fuel) ρ xs h1 objs1 = some (h', objs') →
      preorderEach (preorder e fuel h1) xs = some ls → ls.Nodup →
      (∀ x ∈ xs, ∀ pg, h'[x]? = some (.page pg) → pg.Parent = ρ) ∧
      (∀ y ∈ ls, ∀ oy, h'[y]? = some oy → ∀ x ∈ oy.kids e y, ∀ pg,
        h'[x]? = some (.page pg) → pg.Parent = oy.ref) := by
  intro xs
  induction xs with
  | nil =>
    intro h1 objs1 h' objs' ls _ hpe _
    simp only [preorderEach, Option.some.injEq] at hpe
    subst hpe
    simp
  | cons x xs ihx =>
    intro h1 objs1 h' objs' ls hce hpe hnd
    simp only [collectEach] at hce
    cases hcx : Collect e fuel h1 x ρ objs1 with
    | none => rw [hcx] at hce; simp at hce
    | some r2 =>
      obtain ⟨h2, objs2⟩ := r2
      rw [hcx] at hce
      simp only [] at hce
      simp only [preorderEach] at hpe
      cases hpx : preorder e fuel h1 x with
      | none => rw [hpx] at hpe; simp at hpe
      | some lx =>
        rw [hpx] at hpe
        cases hpr : preorderEach (preorder e fuel h1) xs with
        | none => rw [hpr] at hpe; simp at hpe
        | some lrest =>
          rw [hpr] at hpe
          simp only [Option.some.injEq] at hpe
          subst hpe
          have hndx : lx.Nodup := (List.nodup_append.mp hnd).1
          have hndr : lrest.Nodup := (List.nodup_append.mp hnd).2.1
          have hdisj : ∀ z, z ∈ lx → z ∉ lrest := fun z hz hz' =>
            (List.nodup_append.mp hnd).2.2 hz hz'
          -- what the call on `x` established
          obtain ⟨hx1, hx2⟩ := ih h1 x ρ objs1 h2 objs2 lx hcx hpx hndx
          have hev12 := Collect_evolves e fuel h1 x ρ objs1 (h2, objs2) hcx
          have hshape12 : h2.map Object.shape = h1.map Object.shape := Evolves_map_shape hev12
          -- the remaining calls
          have hpr2 : preorderEach (preorder e fuel h2) xs = some lrest := by
            rw [← hpr]
            exact preorderEach_congr xs (fun z _ => preorder_of_map_shape e fuel hshape12 z)
          obtain ⟨hr1, hr2⟩ := ihx h2 objs2 h' objs' lrest hce hpr2 hndr
          have hev2 := collectEach_evolves e fuel ρ xs h2 objs2 (h', objs') hce
          have hreg2 : objs' = objs2 ++ lrest := by
            have := collectEach_registry e fuel ρ xs h2 objs2
            rw [hce, hpr2] at this
            simpa using this
          have hframe : ∀ z, z ∉ lrest → h'[z]? = h2[z]? := fun z hz =>
            Evolves_frame hev2 lrest hreg2 z hz
          obtain ⟨rx, hrx⟩ := preorder_head e fuel h1 x lx hpx
          have hxlx : x ∈ lx := by rw [hrx]; exact List.mem_cons_self _ _
          constructor
          · intro z hz pg hpg
            rcases List.mem_cons.mp hz with hzx | hzxs
            · subst hzx
              rw [hframe z (hdisj z hxlx)] at hpg
              exact hx1 pg hpg
            · exact hr1 z hzxs pg hpg
          · intro y hy oy hoy k hk pg hpg
            rcases List.mem_append.mp hy with hylx | hyr
            · rw [hframe y (hdisj y hylx)] at hoy
              obtain ⟨o1, ho1, hkids1⟩ := preorder_closed e fuel h1 x lx hpx y hylx
              have hsh : oy.shape = o1.shape := Evolves_shape_at hev12 y o1 oy ho1 hoy
              have hklx : k ∈ lx := hkids1 k (by rw [← Object.kids_of_shape e y hsh]; exact hk)
              rw [hframe k (hdisj k hklx)] at hpg
              exact hx2 y hylx oy hoy k hk pg hpg
            · exact hr2 y hyr oy hoy k hk pg hpg

/-- Parent links after a visit that reaches no object twice: a visited page stores the
reference passed by its caller, and every page below stores the reference of the object
that lists it. -/
theorem Collect_parent (e : Enum) : ∀ (fuel : Nat) (h : Heap) (a : Addr) (p : ObjectRef)
    (objs : List Addr) (h' : Heap) (objs' l : List Addr),
    Collect e fuel h a p objs = some (h', objs') →
    preorder e fuel h a = some l → l.Nodup →
    (∀ pg, h'[a]? = some (.page pg) → pg.Parent = p) ∧
    (∀ y ∈ l, ∀ oy, h'[y]? = some oy → ∀ x ∈ oy.kids e y, ∀ pg,
      h'[x]? = some (.page pg) → pg.Parent = oy.ref) := by
  intro fuel
  induction fuel with
  | zero => intro h a p objs h' objs' l hc; simp [Collect] at hc
  | succ fuel ih =>
    intro h a p objs h' objs' l hc hl hnd
    obtain ⟨o, rest, hget, hrest, hl'⟩ := preorder_some e fuel h a l hl
    subst hl'
    rw [Collect_succ, hget] at hc
    simp only [] at hc
    have hev1 := Evolves_step h a o p objs hget
    have hshape1 := Evolves_map_shape hev1
    simp only [] at hshape1
    have hrest1 : preorderEach (preorder e fuel (h.set a (o.visit p (objs.length + 1))))
        (o.kids e a) = some rest := by
      rw [← hrest]
      exact preorderEach_congr _ (fun z _ => preorder_of_map_shape e fuel hshape1 z)
    have hnr : rest.Nodup := (List.nodup_cons.mp hnd).2
    have hna : a ∉ rest := (List.nodup_cons.mp hnd).1
    obtain ⟨hk1, hk2⟩ := collectEach_parent e fuel _ ih _ _ _ h' objs' rest hc hrest1 hnr
    have hev2 := collectEach_evolves e fuel _ _ _ _ (h', objs') hc
    have hreg2 : objs' = (objs ++ [a]) ++ rest := by
      have := collectEach_registry e fuel (o.visit p (objs.length + 1)).ref (o.kids e a)
        (h.set a (o.visit p (objs.length + 1))) (objs ++ [a])
      rw [hc, hrest1] at this
      simpa using this
    have hlt : a < h.length := by
      rcases Nat.lt_or_ge a h.length with hlt | hge
      · exact hlt
      · rw [List.getElem?_eq_none hge] at hget; contradiction
    have ha' : h'[a]? = some (o.visit p (objs.length + 1)) := by
      rw [Evolves_frame hev2 rest hreg2 a hna]
      simp [List.getElem?_set, hlt]
    constructor
    · intro pg hpg
      rw [ha'] at hpg
      exact Object.visit_page o p _ pg (Option.some.inj hpg)
    · intro y hy oy hoy k hk pg hpg
      rcases List.mem_cons.mp hy with hya | hyr
      · subst hya
        rw [ha'] at hoy
        cases hoy
        have hkk : k ∈ o.kids e y := by
          rw [← Object.kids_of_shape e y (Object.visit_shape o p (objs.length + 1))]
          exact hk
        exact hk1 k hkk pg hpg
      · exact hk2 y hyr oy hoy k hk pg hpg


/-! ## Shared steps of the claims on graphs without sharing -/

theorem Collect_of_preorder (e : Enum) (fuel : Nat) (h : Heap) (a : Addr) (p : ObjectRef)
    (objs l : List Addr) (hl : preorder e fuel h a = some l) :
    ∃ h', Collect e fuel h a p objs = some (h', objs ++ l) := by
  have hreg := Collect_registry e fuel h a p objs
  rw [hl] at hreg
  cases hc : Collect e fuel h a p objs with
  | none => rw [hc] at hreg; simp at hreg
  | some r =>
    obtain ⟨h', l'⟩ := r
    rw [hc] at hreg
    simp only [Option.map_some', Option.some.injEq] at hreg
    subst hreg
    exact ⟨h', rfl⟩

theorem Reach_cases {h : Heap} {root a : Addr} (hr : Reach h root a) :
    a = root ∨ ∃ y o, Reach h root y ∧ h[y]? = some o ∧ a ∈ o.children := by
  cases hr with
  | root => exact Or.inl rfl
  | step hy hget hmem => exact Or.inr ⟨_, _, hy, hget, hmem⟩

theorem Collect_Generation (e : Enum) (fuel : Nat) (h h' : Heap) (a : Addr) (p : ObjectRef)
    (objs objs' : List Addr) (hc : Collect e fuel h a p objs = some (h', objs'))
    (hgen : ∀ o ∈ h, o.Generation = 0) (x : Addr) (o' : Object) (hx : h'[x]? = some o') :
    o'.Generation = 0 := by
  have hev := Collect_evolves e fuel h a p objs (h', objs') hc
  have hms := Evolves_map_shape hev
  simp only [] at hms
  have h1 : (h'.map Object.shape)[x]? = some o'.shape := by simp [hx]
  rw [hms, List.getElem?_map] at h1
  cases hget : h[x]? with
  | none => rw [hget] at h1; simp at h1
  | some o =>
    rw [hget] at h1
    simp only [Option.map_some', Option.some.injEq] at h1
    rw [Object.Generation_of_shape h1.symm]
    exact hgen o (List.getElem?_mem hget)

/-! ## C4: index entries and identities -/

/-- C4 (amended): when all identities and generations are 0 and the traversal from the root
reaches no object twice, collecting on an empty registry and serializing returns, and for
every registry index `i` the in-use index line `i` (entry `i + 1` of the table) is the
10-digit position, generation `00000` and flag `n`; the output continues at that position
with the block of registry object `i`, whose identity is `i + 1` and whose block starts with
`"<i+1> 0 obj\n"`. -/
theorem C4_index_entry_matches_identity (eC eW : Enum) (heC : eC.Valid) (heW : eW.Valid)
    (fuel : Nat) (h : Heap) (root : Addr) (l : List Addr)
    (hzero : ∀ o ∈ h, o.ID = 0) (hgen : ∀ o ∈ h, o.Generation = 0)
    (hl : preorder eC fuel h root = some l) (hnodup : l.Nodup) :
    ∃ (h' : Heap) (bs entries : List Bytes) (s : Ser) (out : Bytes),
      Collect eC fuel h root ⟨0, 0⟩ [] = some (h', l) ∧
      blocks eW h' l = some bs ∧
      serializeLoop eW h' l (serializeInit l) = some s ∧
      serialize eW h' l root = some out ∧
      s.xrefbuf = (serializeInit l).xrefbuf ++ entries.flatten ∧
      entries.length = l.length ∧
      ∀ (i : Nat) (hi : i < l.length), ∃ (off : Nat) (hb : i < bs.length),
        entries[i]? = some (fmtDPad 10 (off : Int) ++ str " " ++ str "00000" ++ str " n\n") ∧
        bs[i] <+: out.drop off ∧
        (h'[l[i]]?).map Object.ID = some ((i + 1 : Nat) : Int) ∧
        (fmtD ((i + 1 : Nat) : Int) ++ str " 0 obj\n") <+: bs[i] := by
  obtain ⟨h', hc⟩ := Collect_of_preorder eC fuel h root ⟨0, 0⟩ [] l hl
  rw [List.nil_append] at hc
  have hclosed := Collect_closed heC fuel h h' root ⟨0, 0⟩ l hc
  obtain ⟨bs, hbs⟩ := blocks_isSome eW h' l (Write_isSome heW h' l hclosed)
  have hlen := blocks_length eW h' l bs hbs
  obtain ⟨rest, hrest⟩ := preorder_head eC fuel h root l hl
  have hroot : root ∈ l := by rw [hrest]; exact List.mem_cons_self _ _
  obtain ⟨c, hcat, -⟩ := hclosed root hroot
  have hpos : (serializeInit l).pos = 9 := by simp [serializeInit, header_length]
  have hofflen : (offsetsFrom 9 bs).length = l.length := by rw [offsetsFrom_length, hlen]
  refine ⟨h', bs, inUseEntries h' l (offsetsFrom 9 bs),
    { xrefbuf := (serializeInit l).xrefbuf ++ (inUseEntries h' l (offsetsFrom 9 bs)).flatten,
      pos := 9 + bs.flatten.length,
      w := (serializeInit l).w ++ bs.flatten }, _, hc, hbs, ?_,
    serialize_eq eW h' l root bs c hbs hcat, rfl, inUseEntries_length h' l _ hofflen, ?_⟩
  · rw [serializeLoop_eq, hbs, hpos]; rfl
  · intro i hi
    have hb : i < bs.length := by omega
    have ho : i < (offsetsFrom 9 bs).length := by omega
    obtain ⟨o, body, hget, hbody⟩ :=
      Write_header eW h' l[i] bs[i] (blocks_getElem eW h' l bs hbs i hi hb)
    have hid := Collect_ID_first_visit eC fuel h h' root ⟨0, 0⟩ l hzero hc l[i]
      (List.getElem_mem _)
    rw [List.indexOf_getElem hnodup] at hid
    have hoid : o.ID = ((i + 1 : Nat) : Int) := by
      rw [hget] at hid
      exact Option.some.inj hid
    have hogen : o.Generation = 0 := Collect_Generation eC fuel h h' root ⟨0, 0⟩ [] l hc hgen _ o hget
    have hpad : fmtDPad 5 0 = str "00000" := by decide
    have hzero' : fmtD 0 = str "0" := by decide
    refine ⟨(offsetsFrom 9 bs)[i], hb, ?_, ?_, hid, ?_⟩
    · rw [inUseEntries_getElem? h' l _ i o hi ho hget, hogen, xrefEntry, hpad]
    · rw [offsetsFrom_getElem, ← header_length, List.append_assoc]
      exact flatten_drop_getElem _ _ bs i hb
    · rw [hbody, objHeader, fmtRef]
      have hI : o.base.ID = ((i + 1 : Nat) : Int) := hoid
      have hG : o.base.Generation = 0 := hogen
      rw [hI, hG, hzero']
      have hsplit : str " 0 obj\n" = str " " ++ str "0" ++ str " obj\n" := by decide
      rw [hsplit]
      refine ⟨body, ?_⟩
      simp only [List.append_assoc]

theorem C4_index_entry_matches_identity_witness :
    (Enum.stored.Valid ∧ Enum.stored.Valid ∧ (∀ o ∈ driverHeap [], o.ID = 0) ∧
      (∀ o ∈ driverHeap [], o.Generation = 0) ∧
      preorder Enum.stored 4 (driverHeap []) driverCatalog = some driverRegistry ∧
      driverRegistry.Nodup) ∧
    ∃ (h' : Heap) (bs entries : List Bytes) (s : Ser) (out : Bytes),
      Collect Enum.stored 4 (driverHeap []) driverCatalog ⟨0, 0⟩ [] = some (h', driverRegistry) ∧
      blocks Enum.stored h' driverRegistry = some bs ∧
      serializeLoop Enum.stored h' driverRegistry (serializeInit driverRegistry) = some s ∧
      serialize Enum.stored h' driverRegistry driverCatalog = some out ∧
      s.xrefbuf = (serializeInit driverRegistry).xrefbuf ++ entries.flatten ∧
      entries.length = driverRegistry.length ∧
      ∀ (i : Nat) (hi : i < driverRegistry.length), ∃ (off : Nat) (hb : i < bs.length),
        entries[i]? = some (fmtDPad 10 (off : Int) ++ str " " ++ str "00000" ++ str " n\n") ∧
        bs[i] <+: out.drop off ∧
        (h'[driverRegistry[i]]?).map Object.ID = some ((i + 1 : Nat) : Int) ∧
        (fmtD ((i + 1 : Nat) : Int) ++ str " 0 obj\n") <+: bs[i] :=
  ⟨⟨Enum.stored_valid, Enum.stored_valid, by decide, by decide, by decide, by decide⟩,
    C4_index_entry_matches_identity Enum.stored Enum.stored Enum.stored_valid
      Enum.stored_valid 4 (driverHeap []) driverCatalog driverRegistry (by decide) (by decide)
      (by decide) (by decide)⟩

/-- C4 (as stated) fails: with a procedure set shared by two pages (identities and
generations all 0), the tenth in-use index line belongs to registry index 9, which is the
shared procedure set again; the block written there starts with `6 0 obj`, and no object is
numbered 10. -/
theorem C4_counterexample_shared_entry :
    (∀ o ∈ sharedProcSetHeap, o.ID = 0 ∧ o.Generation = 0) ∧
    (Collect Enum.stored 4 sharedProcSetHeap 0 ⟨0, 0⟩ []).bind (fun r =>
        (blocks Enum.stored r.1 r.2).map fun bs =>
          (r.2[9]?, (bs[9]?).map (List.take 8), decide (∀ o ∈ r.1, o.ID ≠ 10)))
      = some (some 7, some (str "6 0 obj\n"), true) := by
  decide

/-! ## C6: references resolve -/

theorem Write_of_catalog (e : Enum) (h : Heap) (a : Addr) (c : ObjectCatalog)
    (hget : h[a]? = some (.catalog c)) : Write e h a = c.Write h := by
  unfold Write; rw [hget]

theorem Write_of_pages (e : Enum) (h : Heap) (a : Addr) (p : ObjectPages)
    (hget : h[a]? = some (.pages p)) : Write e h a = p.Write h := by
  unfold Write; rw [hget]

theorem Write_of_page (e : Enum) (h : Heap) (a : Addr) (p : ObjectPage)
    (hget : h[a]? = some (.page p)) : Write e h a = p.Write e h a := by
  unfold Write; rw [hget]

/-- C6 (amended): when the root is a Catalog, all identities are 0 and the traversal reaches
no object twice, then after `Collect` on an empty registry, for every registry object:
`Write` returns (every object it looks up exists); every child is the registry object at
some index `i` and has identity `i + 1`; if it is a Page, its stored `Parent` is the identity
`j + 1` and generation of the registry object at index `j` that lists it among its children;
if it is not the root, some registry object lists it among its children; and the bytes
`Write` produces are, for a Catalog, `/Outlines` and `/Pages` followed by `i + 1` and the
generation of the registry object at index `i` that the slot holds; for a page tree, one
`/Kids` entry per kid with `n + 1` and the generation of the registry object at index `n`
that is this kid; for a Page, `/Parent` with `j + 1` and the generation of its lister,
`/Contents` and `/ProcSet` with the index-plus-one of their targets, and one `/Font` line per
entry with the index-plus-one of the font stored under that name; the other variants write a
block without any reference. -/
theorem C6_references_resolve (eC eW : Enum) (heC : eC.Valid) (heW : eW.Valid) (fuel : Nat)
    (h : Heap) (root : Addr) (c : ObjectCatalog) (l : List Addr)
    (hroot : h[root]? = some (.catalog c)) (hzero : ∀ o ∈ h, o.ID = 0)
    (hl : preorder eC fuel h root = some l) (hnodup : l.Nodup) :
    ∃ h' : Heap, Collect eC fuel h root ⟨0, 0⟩ [] = some (h', l) ∧
      ∀ a ∈ l, ∃ o : Object, h'[a]? = some o ∧
        (∃ b, Write eW h' a = some b) ∧
        (∀ k ∈ o.children, ∃ (i : Nat) (hi : i < l.length) (ok : Object),
          l[i] = k ∧ h'[k]? = some ok ∧ ok.ID = ((i + 1 : Nat) : Int)) ∧
        (∀ pg, o = .page pg → ∃ (j : Nat) (hj : j < l.length) (oy : Object),
          h'[l[j]]? = some oy ∧ a ∈ oy.children ∧
          pg.Parent = ⟨((j + 1 : Nat) : Int), oy.Generation⟩) ∧
        (a ≠ root → ∃ y ∈ l, ∃ oy, h'[y]? = some oy ∧ a ∈ oy.children) ∧
        (∀ ct, o = .catalog ct →
          ∃ (i1 i2 : Nat) (h1 : i1 < l.length) (h2 : i2 < l.length) (o1 o2 : Object),
            l[i1] = ct.Outline ∧ h'[ct.Outline]? = some o1 ∧
            l[i2] = ct.Pages ∧ h'[ct.Pages]? = some o2 ∧
            Write eW h' a = some (
              (fmtD ct.base.IDNum ++ str " " ++ fmtD ct.base.Gen ++ str " obj\n")
              ++ str "<< /Type /Catalog\n"
              ++ (str "/Outlines " ++ fmtD ((i1 + 1 : Nat) : Int) ++ str " "
                ++ fmtD o1.Generation ++ str " R\n")
              ++ (str "/Pages " ++ fmtD ((i2 + 1 : Nat) : Int) ++ str " "
                ++ fmtD o2.Generation ++ str " R\n")
              ++ str ">>\n" ++ str "endobj\n")) ∧
        (∀ ps, o = .pages ps →
          ∃ rs : List ObjectRef, rs.length = ps.Kids.length ∧
            (∀ (i : Nat) (hi : i < ps.Kids.length),
              ∃ (n : Nat) (hn : n < l.length) (ok : Object),
                l[n] = ps.Kids[i] ∧ h'[ps.Kids[i]]? = some ok ∧
                rs[i]? = some ⟨((n + 1 : Nat) : Int), ok.Generation⟩) ∧
            Write eW h' a = some (
              (fmtD ps.base.IDNum ++ str " " ++ fmtD ps.base.Gen ++ str " obj\n")
              ++ str "<< /Type /Pages\n"
              ++ str "/Kids ["
              ++ (rs.map fun r => fmtD r.ID ++ str " " ++ fmtD r.Gen ++ str " R ").flatten
              ++ str "]\n"
              ++ (str "/Count " ++ fmtD (ps.Kids.length : Int) ++ str "\n")
              ++ str ">>\n" ++ str "endobj\n")) ∧
        (∀ pg, o = .page pg →
          ∃ (j ic ip : Nat) (hj : j < l.length) (hic : ic < l.length) (hip : ip < l.length)
            (oy oc ops : Object) (rs : List (Bytes × ObjectRef)),
            h'[l[j]]? = some oy ∧ a ∈ oy.children ∧
            l[ic] = pg.Contents ∧ h'[pg.Contents]? = some oc ∧
            l[ip] = pg.ProcSet ∧ h'[pg.ProcSet]? = some ops ∧
            (eW a pg.Fonts).Perm pg.Fonts ∧ rs.length = pg.Fonts.length ∧
            (∀ (i : Nat) (hi : i < (eW a pg.Fonts).length),
              ∃ (n : Nat) (hn : n < l.length) (ok : Object),
                l[n] = ((eW a pg.Fonts)[i]).2 ∧ h'[((eW a pg.Fonts)[i]).2]? = some ok ∧
                rs[i]? = some (((eW a pg.Fonts)[i]).1,
                  ⟨((n + 1 : Nat) : Int), ok.Generation⟩)) ∧
            Write eW h' a = some (
              (fmtD pg.base.IDNum ++ str " " ++ fmtD pg.base.Gen ++ str " obj\n")
              ++ str "<< /Type /Page"
              ++ (str "/Parent " ++ fmtD ((j + 1 : Nat) : Int) ++ str " "
                ++ fmtD oy.Generation ++ str " R\n")
              ++ (str "/MediaBox [" ++ fmtD pg.MediaBox.X ++ str " " ++ fmtD pg.MediaBox.Y
                ++ str " " ++ fmtD pg.MediaBox.W ++ str " " ++ fmtD pg.MediaBox.H
                ++ str "]\n")
              ++ (str "/Contents " ++ fmtD ((ic + 1 : Nat) : Int) ++ str " "
                ++ fmtD oc.Generation ++ str " R\n")
              ++ (str "/Resources <<\n"
                ++ (str "/ProcSet " ++ fmtD ((ip + 1 : Nat) : Int) ++ str " "
                  ++ fmtD ops.Generation ++ str " R\n")
                ++ str "/Font <<\n"
                ++ (rs.map fun r =>
                    str "/" ++ r.1 ++ str " " ++ fmtD r.2.ID ++ str " " ++ fmtD r.2.Gen
                      ++ str " R\n").flatten
                ++ str ">>\n" ++ str ">>\n")
              ++ str ">>\n" ++ str "endobj\n")) ∧
        (∀ x, o = .outlines x → Write eW h' a = some (
            (fmtD x.base.IDNum ++ str " " ++ fmtD x.base.Gen ++ str " obj\n")
            ++ str "<< /Type /Outlines\n" ++ str "/Count 0\n" ++ str ">>\n"
            ++ str "endobj\n")) ∧
        (∀ x, o = .content x → Write eW h' a = some (
            (fmtD x.base.IDNum ++ str " " ++ fmtD x.base.Gen ++ str " obj\n")
            ++ (str "<< /Length " ++ fmtD (x.Content.length : Int) ++ str " >>\n")
            ++ str "stream\n" ++ x.Content ++ str "endstream\n" ++ str "endobj\n")) ∧
        (∀ x, o = .procSet x → Write eW h' a = some (
            (fmtD x.base.IDNum ++ str " " ++ fmtD x.base.Gen ++ str " obj\n")
            ++ str "[/PDF /Text]\n" ++ str "endobj\n")) ∧
        (∀ x, o = .fontType1 x → Write eW h' a = some (
            (fmtD x.base.IDNum ++ str " " ++ fmtD x.base.Gen ++ str " obj\n")
            ++ str "<< /Type /Font\n" ++ str "/Subtype /Type1\n"
            ++ str "/BaseFont /Helvetica\n" ++ str "/Encoding /WinAnsiEncoding\n"
            ++ str ">>\n" ++ str "endobj\n")) := by
  obtain ⟨h', hc⟩ := Collect_of_preorder eC fuel h root ⟨0, 0⟩ [] l hl
  rw [List.nil_append] at hc
  refine ⟨h', hc, ?_⟩
  have hclosed := Collect_closed heC fuel h h' root ⟨0, 0⟩ l hc
  have hev := Collect_evolves eC fuel h root ⟨0, 0⟩ [] (h', l) hc
  obtain ⟨-, hpar⟩ := Collect_parent eC fuel h root ⟨0, 0⟩ [] h' l l hc hl hnodup
  -- identity of a registry entry
  have hID : ∀ k ∈ l, ∃ (i : Nat) (hi : i < l.length) (ok : Object),
      l[i] = k ∧ h'[k]? = some ok ∧ ok.ID = ((i + 1 : Nat) : Int) := by
    intro k hk
    obtain ⟨ok, hok, -⟩ := hclosed k hk
    have hid := Collect_ID_first_visit eC fuel h h' root ⟨0, 0⟩ l hzero hc k hk
    rw [hok] at hid
    exact ⟨l.indexOf k, List.indexOf_lt_length.mpr hk, ok, List.getElem_indexOf _, hok,
      Option.some.inj hid⟩
  -- a lister for every entry but the root
  have hlister : ∀ a ∈ l, a ≠ root → ∃ y ∈ l, ∃ oy, h'[y]? = some oy ∧ a ∈ oy.children := by
    intro a ha hne
    rcases Reach_cases (preorder_reach heC fuel h root l hl a ha) with heq | ⟨y, o, hy, hget, hmem⟩
    · exact absurd heq hne
    · have hyl := reach_preorder heC fuel h root l hl y hy
      obtain ⟨oy, hoy, -⟩ := hclosed y hyl
      have hsh := Evolves_shape_at hev y o oy hget hoy
      exact ⟨y, hyl, oy, hoy, by rw [Object.children_of_shape hsh]; exact hmem⟩
  intro a ha
  obtain ⟨o, hget, hkids⟩ := hclosed a ha
  have hchild : ∀ k ∈ o.children, ∃ (i : Nat) (hi : i < l.length) (ok : Object),
      l[i] = k ∧ h'[k]? = some ok ∧ ok.ID = ((i + 1 : Nat) : Int) :=
    fun k hk => hID k (hkids k hk)
  -- the parent of a page
  have hparent : ∀ pg, o = .page pg → ∃ (j : Nat) (hj : j < l.length) (oy : Object),
      h'[l[j]]? = some oy ∧ a ∈ oy.children ∧
      pg.Parent = ⟨((j + 1 : Nat) : Int), oy.Generation⟩ := by
    intro pg hpg
    subst hpg
    have hne : a ≠ root := by
      intro heq
      subst heq
      have hsh := Evolves_shape_at hev a _ _ hroot hget
      simp [Object.shape] at hsh
    obtain ⟨y, hyl, oy, hoy, hmem⟩ := hlister a ha hne
    obtain ⟨j, hj, oy', hjy, hoy', hidy⟩ := hID y hyl
    rw [hoy] at hoy'
    cases hoy'
    refine ⟨j, hj, oy, by rw [hjy]; exact hoy, hmem, ?_⟩
    have := hpar y hyl oy hoy a ((Object.mem_kids_iff heC y oy a).mpr hmem) pg hget
    rw [this, Object.ref, hidy]
  refine ⟨o, hget, Write_isSome heW h' l hclosed a ha, hchild, hparent, hlister a ha,
    ?_, ?_, ?_, ?_, ?_, ?_, ?_⟩
  · intro ct hct
    subst hct
    obtain ⟨i1, h1, o1, hl1, ho1, hid1⟩ := hchild ct.Outline (by simp [Object.children])
    obtain ⟨i2, h2, o2, hl2, ho2, hid2⟩ := hchild ct.Pages (by simp [Object.children])
    refine ⟨i1, i2, h1, h2, o1, o2, hl1, ho1, hl2, ho2, ?_⟩
    rw [Write_of_catalog eW h' a ct hget, ObjectCatalog_Write_eq h' ct o1 o2 ho1 ho2, hid1,
      hid2]
    simp only [objHeader, fmtRef, objectBase.ID, objectBase.Generation, List.append_assoc]
  · intro ps hps
    subst hps
    obtain ⟨rs, hrs⟩ := refsOf_isSome h' ps.Kids (fun k hk => by
      obtain ⟨_, _, ok, -, hok, -⟩ := hchild k (by simpa [Object.children] using hk)
      exact ⟨ok, hok⟩)
    obtain ⟨hlen, hall⟩ := refsOf_spec h' ps.Kids rs hrs
    refine ⟨rs, hlen, ?_, ?_⟩
    · intro i hi
      obtain ⟨ok, hok, hri⟩ := hall i hi
      obtain ⟨n, hn, ok', hln, hok', hidn⟩ :=
        hchild ps.Kids[i] (by simp [Object.children])
      rw [hok] at hok'
      cases hok'
      exact ⟨n, hn, ok, hln, hok, by rw [hri, Object.ref, hidn]⟩
    · rw [Write_of_pages eW h' a ps hget, ObjectPages_Write_eq h' ps rs hrs]
      have hmap : (rs.map fun r => fmtD r.ID ++ str " " ++ fmtD r.Gen ++ str " R ")
          = rs.map kidEntry := by
        apply List.map_congr_left
        intro r _
        simp only [kidEntry, fmtRef, List.append_assoc]
      rw [hmap]
      simp only [objHeader, fmtRef, objectBase.ID, objectBase.Generation, List.append_assoc]
  · intro pg hpg
    obtain ⟨j, hj, oy, hoy, hmem, hpp⟩ := hparent pg hpg
    subst hpg
    obtain ⟨ic, hic, oc, hlc, hoc, hidc⟩ := hchild pg.Contents (by simp [Object.children])
    obtain ⟨ip, hip, ops, hlp, hops, hidp⟩ := hchild pg.ProcSet (by simp [Object.children])
    have hfmem : ∀ f ∈ eW a pg.Fonts, f.2 ∈ (Object.page pg).children := fun f hf => by
      simp only [Object.children, List.mem_cons, List.mem_map]
      exact Or.inr (Or.inr ⟨f, (heW a pg.Fonts).mem_iff.mp hf, rfl⟩)
    obtain ⟨rs, hrs⟩ := fontRefsOf_isSome h' (eW a pg.Fonts) (fun f hf => by
      obtain ⟨_, _, ok, -, hok, -⟩ := hchild f.2 (hfmem f hf)
      exact ⟨ok, hok⟩)
    obtain ⟨hlen, hall⟩ := fontRefsOf_spec h' (eW a pg.Fonts) rs hrs
    refine ⟨j, ic, ip, hj, hic, hip, oy, oc, ops, rs, hoy, hmem, hlc, hoc, hlp, hops,
      heW a pg.Fonts, by rw [hlen, (heW a pg.Fonts).length_eq], ?_, ?_⟩
    · intro i hi
      obtain ⟨ok, hok, hri⟩ := hall i hi
      obtain ⟨n, hn, ok', hln, hok', hidn⟩ :=
        hchild ((eW a pg.Fonts)[i]).2 (hfmem _ (List.getElem_mem _))
      rw [hok] at hok'
      cases hok'
      exact ⟨n, hn, ok, hln, hok, by rw [hri, Object.ref, hidn]⟩
    · rw [Write_of_page eW h' a pg hget,
        ObjectPage_Write_eq eW h' a pg oc ops rs hoc hops hrs, hidc, hidp, hpp]
      have hmap : (rs.map fun r => str "/" ++ r.1 ++ str " " ++ fmtD r.2.ID ++ str " "
          ++ fmtD r.2.Gen ++ str " R\n") = rs.map fontEntry := by
        apply List.map_congr_left
        intro r _
        simp only [fontEntry, fmtRef, List.append_assoc]
      rw [hmap]
      simp only [objHeader, fmtRef, objectBase.ID, objectBase.Generation, List.append_assoc]
  · intro x hx
    subst hx
    have : Write eW h' a = some x.Write := by unfold Write; rw [hget]
    rw [this, ObjectOutlines_Write_eq]
    simp only [objHeader, fmtRef, objectBase.ID, objectBase.Generation, List.append_assoc]
  · intro x hx
    subst hx
    have : Write eW h' a = some x.Write := by unfold Write; rw [hget]
    rw [this, ObjectContent_Write_eq]
    simp only [objHeader, fmtRef, objectBase.ID, objectBase.Generation, List.append_assoc]
  · intro x hx
    subst hx
    have : Write eW h' a = some x.Write := by unfold Write; rw [hget]
    rw [this, ObjectProcSet_Write_eq]
    simp only [objHeader, fmtRef, objectBase.ID, objectBase.Generation, List.append_assoc]
  · intro x hx
    subst hx
    have : Write eW h' a = some x.Write := by unfold Write; rw [hget]
    rw [this, ObjectFontType1_Write_eq]
    simp only [objHeader, fmtRef, objectBase.ID, objectBase.Generation, List.append_assoc]

theorem C6_references_resolve_witness :
    (Enum.stored.Valid ∧ Enum.stored.Valid ∧
      (driverHeap [])[driverCatalog]? = some (.catalog ⟨⟨0, 0⟩, 2, 3⟩) ∧
      (∀ o ∈ driverHeap [], o.ID = 0) ∧
      preorder Enum.stored 4 (driverHeap []) driverCatalog = some driverRegistry ∧
      driverRegistry.Nodup) ∧
    ∃ h' : Heap, Collect Enum.stored 4 (driverHeap []) driverCatalog ⟨0, 0⟩ [] = some (h', driverRegistry) ∧
      ∀ a ∈ driverRegistry, ∃ o : Object, h'[a]? = some o ∧
        (∃ b, Write Enum.stored h' a = some b) ∧
        (∀ k ∈ o.children, ∃ (i : Nat) (hi : i < driverRegistry.length) (ok : Object),
          driverRegistry[i] = k ∧ h'[k]? = some ok ∧ ok.ID = ((i + 1 : Nat) : Int)) ∧
        (∀ pg, o = .page pg → ∃ (j : Nat) (hj : j < driverRegistry.length) (oy : Object),
          h'[driverRegistry[j]]? = some oy ∧ a ∈ oy.children ∧
          pg.Parent = ⟨((j + 1 : Nat) : Int), oy.Generation⟩) ∧
        (a ≠ driverCatalog → ∃ y ∈ driverRegistry, ∃ oy, h'[y]? = some oy ∧ a ∈ oy.children) ∧
        (∀ ct, o = .catalog ct →
          ∃ (i1 i2 : Nat) (h1 : i1 < driverRegistry.length) (h2 : i2 < driverRegistry.length) (o1 o2 : Object),
            driverRegistry[i1] = ct.Outline ∧ h'[ct.Outline]? = some o1 ∧
            driverRegistry[i2] = ct.Pages ∧ h'[ct.Pages]? = some o2 ∧
            Write Enum.stored h' a = some (
              (fmtD ct.base.IDNum ++ str " " ++ fmtD ct.base.Gen ++ str " obj\n")
              ++ str "<< /Type /Catalog\n"
              ++ (str "/Outlines " ++ fmtD ((i1 + 1 : Nat) : Int) ++ str " "
                ++ fmtD o1.Generation ++ str " R\n")
              ++ (str "/Pages " ++ fmtD ((i2 + 1 : Nat) : Int) ++ str " "
                ++ fmtD o2.Generation ++ str " R\n")
              ++ str ">>\n" ++ str "endobj\n")) ∧
        (∀ ps, o = .pages ps →
          ∃ rs : List ObjectRef, rs.length = ps.Kids.length ∧
            (∀ (i : Nat) (hi : i < ps.Kids.length),
              ∃ (n : Nat) (hn : n < driverRegistry.length) (ok : Object),
                driverRegistry[n] = ps.Kids[i] ∧ h'[ps.Kids[i]]? = some ok ∧
                rs[i]? = some ⟨((n + 1 : Nat) : Int), ok.Generation⟩) ∧
            Write Enum.stored h' a = some (
              (fmtD ps.base.IDNum ++ str " " ++ fmtD ps.base.Gen ++ str " obj\n")
              ++ str "<< /Type /Pages\n"
              ++ str "/Kids ["
              ++ (rs.map fun r => fmtD r.ID ++ str " " ++ fmtD r.Gen ++ str " R ").flatten
              ++ str "]\n"
              ++ (str "/Count " ++ fmtD (ps.Kids.length : Int) ++ str "\n")
              ++ str ">>\n" ++ str "endobj\n")) ∧
        (∀ pg, o = .page pg →
          ∃ (j ic ip : Nat) (hj : j < driverRegistry.length) (hic : ic < driverRegistry.length) (hip : ip < driverRegistry.length)
            (oy oc ops : Object) (rs : List (Bytes × ObjectRef)),
            h'[driverRegistry[j]]? = some oy ∧ a ∈ oy.children ∧
            driverRegistry[ic] = pg.Contents ∧ h'[pg.Contents]? = some oc ∧
            driverRegistry[ip] = pg.ProcSet ∧ h'[pg.ProcSet]? = some ops ∧
            (Enum.stored a pg.Fonts).Perm pg.Fonts ∧ rs.length = pg.Fonts.length ∧
            (∀ (i : Nat) (hi : i < (Enum.stored a pg.Fonts).length),
              ∃ (n : Nat) (hn : n < driverRegistry.length) (ok : Object),
                driverRegistry[n] = ((Enum.stored a pg.Fonts)[i]).2 ∧ h'[((Enum.stored a pg.Fonts)[i]).2]? = some ok ∧
                rs[i]? = some (((Enum.stored a pg.Fonts)[i]).1,
                  ⟨((n + 1 : Nat) : Int), ok.Generation⟩)) ∧
            Write Enum.stored h' a = some (
              (fmtD pg.base.IDNum ++ str " " ++ fmtD pg.base.Gen ++ str " obj\n")
              ++ str "<< /Type /Page"
              ++ (str "/Parent " ++ fmtD ((j + 1 : Nat) : Int) ++ str " "
                ++ fmtD oy.Generation ++ str " R\n")
              ++ (str "/MediaBox [" ++ fmtD pg.MediaBox.X ++ str " " ++ fmtD pg.MediaBox.Y
                ++ str " " ++ fmtD pg.MediaBox.W ++ str " " ++ fmtD pg.MediaBox.H
                ++ str "]\n")
              ++ (str "/Contents " ++ fmtD ((ic + 1 : Nat) : Int) ++ str " "
                ++ fmtD oc.Generation ++ str " R\n")
              ++ (str "/Resources <<\n"
                ++ (str "/ProcSet " ++ fmtD ((ip + 1 : Nat) : Int) ++ str " "
                  ++ fmtD ops.Generation ++ str " R\n")
                ++ str "/Font <<\n"
                ++ (rs.map fun r =>
                    str "/" ++ r.1 ++ str " " ++ fmtD r.2.ID ++ str " " ++ fmtD r.2.Gen
                      ++ str " R\n").flatten
                ++ str ">>\n" ++ str ">>\n")
              ++ str ">>\n" ++ str "endobj\n")) ∧
        (∀ x, o = .outlines x → Write Enum.stored h' a = some (
            (fmtD x.base.IDNum ++ str " " ++ fmtD x.base.Gen ++ str " obj\n")
            ++ str "<< /Type /Outlines\n" ++ str "/Count 0\n" ++ str ">>\n"
            ++ str "endobj\n")) ∧
        (∀ x, o = .content x → Write Enum.stored h' a = some (
            (fmtD x.base.IDNum ++ str " " ++ fmtD x.base.Gen ++ str " obj\n")
            ++ (str "<< /Length " ++ fmtD (x.Content.length : Int) ++ str " >>\n")
            ++ str "stream\n" ++ x.Content ++ str "endstream\n" ++ str "endobj\n")) ∧
        (∀ x, o = .procSet x → Write Enum.stored h' a = some (
            (fmtD x.base.IDNum ++ str " " ++ fmtD x.base.Gen ++ str " obj\n")
            ++ str "[/PDF /Text]\n" ++ str "endobj\n")) ∧
        (∀ x, o = .fontType1 x → Write Enum.stored h' a = some (
            (fmtD x.base.IDNum ++ str " " ++ fmtD x.base.Gen ++ str " obj\n")
            ++ str "<< /Type /Font\n" ++ str "/Subtype /Type1\n"
            ++ str "/BaseFont /Helvetica\n" ++ str "/Encoding /WinAnsiEncoding\n"
            ++ str ">>\n" ++ str "endobj\n")) :=
  ⟨⟨Enum.stored_valid, Enum.stored_valid, by decide, by decide, by decide, by decide⟩,
    C6_references_resolve Enum.stored Enum.stored Enum.stored_valid Enum.stored_valid 4
      (driverHeap []) driverCatalog ⟨⟨0, 0⟩, 2, 3⟩ driverRegistry (by decide) (by decide)
      (by decide) (by decide)⟩

/-- C6 (as stated) fails: when a Page is listed in the `Kids` of two page trees (all
identities 0), the page tree numbered 4 lists the page numbered 5 in its `Kids`, yet the
page's stored `Parent`, which `Write` prints after `/Parent`, is `3 0`. -/
theorem C6_counterexample_two_parents :
    (∀ o ∈ twoParentsHeap, o.ID = 0) ∧
    (Collect Enum.stored 5 twoParentsHeap 0 ⟨0, 0⟩ []).map
        (fun r => (r.2, r.1[3]?, r.1[4]?))
      = some ([0, 1, 2, 3, 4, 5, 6, 4, 5, 6],
          some (.pages ⟨⟨4, 0⟩, [4]⟩),
          some (.page ⟨⟨5, 0⟩, ⟨3, 0⟩, ⟨0, 0, 612, 792⟩, 5, 6, []⟩)) := by
  decide

/-! ## C11: the end-of-file line -/

theorem serialize_some (e : Enum) (h : Heap) (objs : List Addr) (catalog : Addr) (out : Bytes)
    (hs : serialize e h objs catalog = some out) :
    ∃ bs c, blocks e h objs = some bs ∧ h[catalog]? = some c := by
  simp only [serialize, serializeLoop_eq, trailer, Option.bind_eq_bind, pure] at hs
  cases hbs : blocks e h objs with
  | none => rw [hbs] at hs; simp at hs
  | some bs =>
    cases hc : h[catalog]? with
    | none => rw [hbs, hc] at hs; simp at hs
    | some c => exact ⟨bs, c, rfl, rfl⟩

/-- Whatever the serializer writes ends with the line `%EOF`, one percent sign, right after
the line that holds the `startxref` number. -/
theorem serialize_suffix (e : Enum) (h : Heap) (objs : List Addr) (catalog : Addr) (out : Bytes)
    (hs : serialize e h objs catalog = some out) :
    ∃ (pre : Bytes) (n : Nat), out = pre ++ (fmtD (n : Int) ++ str "\n%EOF\n") := by
  obtain ⟨bs, c, hbs, hc⟩ := serialize_some e h objs catalog out hs
  rw [serialize_eq e h objs catalog bs c hbs hc, Option.some.injEq] at hs
  refine ⟨(str "%PDF-1.3\n" ++ bs.flatten)
      ++ (xrefHead objs.length ++ (inUseEntries h objs (offsetsFrom 9 bs)).flatten)
      ++ (str "trailer\n"
        ++ (str "<< /Size " ++ fmtD ((objs.length + 1 : Nat) : Int) ++ str "\n")
        ++ (str "/Root " ++ fmtRef c.ID c.Generation ++ str " R\n")
        ++ str ">>\nstartxref\n"), 9 + bs.flatten.length, ?_⟩
  rw [← hs]
  simp only [List.append_assoc]

set_option maxRecDepth 100000 in
/-- C11 fails on the code: the output of the driver ends with the line `%EOF`, written with
one percent sign, and not with the line `%%EOF`. -/
theorem C11_output_ends_with_single_percent_EOF :
    (main 4 Enum.stored Enum.stored (str "q Q")).map
        (fun out => ((str "\n%EOF\n").isSuffixOf out, (str "%%EOF\n").isSuffixOf out))
      = some (true, false) := by
  decide

/-! ## Independence of the listing from the enumeration -/

theorem Object.kids_perm {e1 e2 : Enum} (he1 : e1.Valid) (he2 : e2.Valid) (a : Addr)
    (o : Object) : (o.kids e1 a).Perm (o.kids e2 a) := by
  cases o with
  | page p =>
    simp only [Object.kids]
    exact ((((he1 a p.Fonts).trans (he2 a p.Fonts).symm).map Prod.snd).cons _).cons _
  | _ => exact List.Perm.refl _

theorem preorderEach_pointwise {f g : Addr → Option (List Addr)} (xs : List Addr)
    (hfg : ∀ x ∈ xs, ∀ l, f x = some l → ∃ l', g x = some l' ∧ l.Perm l') :
    ∀ ls, preorderEach f xs = some ls → ∃ ls', preorderEach g xs = some ls' ∧ ls.Perm ls' := by
  induction xs with
  | nil =>
    intro ls hls
    simp only [preorderEach, Option.some.injEq] at hls
    subst hls
    exact ⟨[], rfl, List.Perm.refl _⟩
  | cons x xs ih =>
    intro ls hls
    simp only [preorderEach] at hls
    cases hfx : f x with
    | none => rw [hfx] at hls; simp at hls
    | some l =>
      rw [hfx] at hls
      cases hrest : preorderEach f xs with
      | none => rw [hrest] at hls; simp at hls
      | some lr =>
        rw [hrest] at hls
        simp only [Option.some.injEq] at hls
        subst hls
        obtain ⟨l', hl', hp⟩ := hfg x (List.mem_cons_self _ _) l hfx
        obtain ⟨lr', hlr', hpr⟩ := ih (fun y hy => hfg y (List.mem_cons_of_mem _ hy)) lr hrest
        exact ⟨l' ++ lr', by simp [preorderEach, hl', hlr'], hp.append hpr⟩

theorem preorderEach_cons_some {g : Addr → Option (List Addr)} {x : Addr} {xs ls : List Addr} :
    preorderEach g (x :: xs) = some ls ↔
      ∃ l lr, g x = some l ∧ preorderEach g xs = some lr ∧ ls = l ++ lr := by
  simp only [preorderEach]
  cases g x with
  | none => simp
  | some l =>
    cases preorderEach g xs with
    | none => simp
    | some lr =>
      simp only [Option.some.injEq]
      constructor
      · intro hh; exact ⟨l, lr, rfl, rfl, hh.symm⟩
      · rintro ⟨l', lr', h1, h2, h3⟩
        rw [h3, h1, h2]

theorem preorderEach_perm {g : Addr → Option (List Addr)} {xs ys : List Addr}
    (hxy : xs.Perm ys) :
    ∀ ls, preorderEach g xs = some ls → ∃ ls', preorderEach g ys = some ls' ∧ ls.Perm ls' := by
  induction hxy with
  | nil => intro ls hls; exact ⟨ls, hls, List.Perm.refl _⟩
  | cons x _ ih =>
    intro ls hls
    obtain ⟨l, lr, hx, hr, hls'⟩ := preorderEach_cons_some.mp hls
    subst hls'
    obtain ⟨lr', hlr', hpr⟩ := ih lr hr
    exact ⟨l ++ lr', preorderEach_cons_some.mpr ⟨l, lr', hx, hlr', rfl⟩,
      (List.Perm.refl l).append hpr⟩
  | swap x y zs =>
    intro ls hls
    obtain ⟨ly, lr1, hy, hr1, hls'⟩ := preorderEach_cons_some.mp hls
    obtain ⟨lx, lr, hx, hr, hlr1⟩ := preorderEach_cons_some.mp hr1
    subst hls' hlr1
    refine ⟨lx ++ (ly ++ lr), preorderEach_cons_some.mpr ⟨lx, ly ++ lr, hx,
      preorderEach_cons_some.mpr ⟨ly, lr, hy, hr, rfl⟩, rfl⟩, ?_⟩
    rw [← List.append_assoc, ← List.append_assoc]
    exact List.Perm.append_right _ List.perm_append_comm
  | trans _ _ ih1 ih2 =>
    intro ls hls
    obtain ⟨ls1, h1, p1⟩ := ih1 ls hls
    obtain ⟨ls2, h2, p2⟩ := ih2 ls1 h1
    exact ⟨ls2, h2, p1.trans p2⟩

/-- Two enumerations list the same objects, the same number of times each. -/
theorem preorder_perm {e1 e2 : Enum} (he1 : e1.Valid) (he2 : e2.Valid) (h : Heap) :
    ∀ (fuel : Nat) (a : Addr) (l1 : List Addr), preorder e1 fuel h a = some l1 →
      ∃ l2, preorder e2 fuel h a = some l2 ∧ l1.Perm l2 := by
  intro fuel
  induction fuel with
  | zero => intro a l1 hl; simp [preorder] at hl
  | succ fuel ih =>
    intro a l1 hl
    obtain ⟨o, rest, hget, hrest, hl'⟩ := preorder_some e1 fuel h a l1 hl
    subst hl'
    obtain ⟨r1, hr1, hp1⟩ := preorderEach_pointwise (g := preorder e2 fuel h) (o.kids e1 a)
      (fun x _ l hx => ih x l hx) rest hrest
    obtain ⟨r2, hr2, hp2⟩ := preorderEach_perm (Object.kids_perm he1 he2 a o) r1 hr1
    exact ⟨a :: r2, by simp [preorder, hget, hr2], (hp1.trans hp2).cons a⟩

theorem Collect_visited_nonzero (e : Enum) (fuel : Nat) (h h' : Heap) (a : Addr) (p : ObjectRef)
    (objs l : List Addr) (hc : Collect e fuel h a p objs = some (h', objs ++ l)) (x : Addr)
    (hx : x ∈ l) (o' : Object) (ho' : h'[x]? = some o') : o'.ID ≠ 0 := by
  obtain ⟨l1, hl1, hlen, hev⟩ := Collect_evolves e fuel h a p objs _ hc
  have hl1' : l1 = l := (List.append_cancel_left hl1).symm
  subst hl1'
  dsimp only at hlen hev
  have hlt : x < h.length := by
    rcases Nat.lt_or_ge x h.length with hlt | hge
    · exact hlt
    · rw [List.getElem?_eq_none (by omega)] at ho'; contradiction
  obtain ⟨o'', ho'', -, -, hk, hz⟩ := hev x h[x] (List.getElem?_eq_getElem hlt)
  rw [ho'] at ho''
  cases ho''
  by_cases h0 : h[x].ID = 0
  · rw [hz h0, if_pos hx]; omega
  · rw [hk h0]; exact h0

/-! ## C12: identities are stable -/

/-- C12: `Collect` never changes an identity that is not 0 and never changes a generation;
and a second `Collect` from the same root on the collected graph, with any registry, parent
reference and enumeration, returns and leaves every identity and generation as the first
run left it. -/
theorem C12_identity_stable (e e2 : Enum) (he : e.Valid) (he2 : e2.Valid) (fuel : Nat)
    (h : Heap) (a : Addr) (p p2 : ObjectRef) (objs objs2 l : List Addr)
    (hl : preorder e fuel h a = some l) :
    ∃ h' : Heap, Collect e fuel h a p objs = some (h', objs ++ l) ∧
      (∀ (x : Addr) (o : Object), h[x]? = some o → ∃ o' : Object, h'[x]? = some o' ∧
        o'.Generation = o.Generation ∧ (o.ID ≠ 0 → o'.ID = o.ID)) ∧
      ∃ (h'' : Heap) (l2 : List Addr),
        Collect e2 fuel h' a p2 objs2 = some (h'', objs2 ++ l2) ∧
        ∀ (x : Addr) (o' : Object), h'[x]? = some o' → ∃ o'' : Object, h''[x]? = some o'' ∧
          o''.ID = o'.ID ∧ o''.Generation = o'.Generation := by
  obtain ⟨h', hc⟩ := Collect_of_preorder e fuel h a p objs l hl
  have hev := Collect_evolves e fuel h a p objs _ hc
  have hl' : preorder e fuel h' a = some l := by
    rw [preorder_of_map_shape e fuel (Evolves_map_shape hev)]; exact hl
  obtain ⟨l2, hl2, -⟩ := preorder_perm he he2 h' fuel a l hl'
  obtain ⟨h'', hc2⟩ := Collect_of_preorder e2 fuel h' a p2 objs2 l2 hl2
  have hev2 := Collect_evolves e2 fuel h' a p2 objs2 _ hc2
  refine ⟨h', hc, ?_, h'', l2, hc2, ?_⟩
  · intro x o hx
    obtain ⟨_, -, -, hall⟩ := hev
    dsimp only at hall
    obtain ⟨o', ho', hs, -, hk, -⟩ := hall x o hx
    exact ⟨o', ho', Object.Generation_of_shape hs, hk⟩
  · intro x o' hx
    obtain ⟨l3, hl3, -, hall⟩ := hev2
    have hl3' : l3 = l2 := (List.append_cancel_left hl3).symm
    subst hl3'
    dsimp only at hall
    obtain ⟨o'', ho'', hs, -, hk, hz⟩ := hall x o' hx
    refine ⟨o'', ho'', ?_, Object.Generation_of_shape hs⟩
    by_cases h0 : o'.ID = 0
    · have hnot : x ∉ l3 := by
        intro hmem
        have hxl : x ∈ l := reach_preorder he fuel h' a l hl' x
          (preorder_reach he2 fuel h' a l3 hl2 x hmem)
        exact Collect_visited_nonzero e fuel h h' a p objs l hc x hxl o' hx h0
      rw [hz h0, if_neg hnot, h0]
    · exact hk h0

theorem C12_identity_stable_witness :
    (Enum.stored.Valid ∧ Enum.reversed.Valid ∧
      preorder Enum.stored 4 twoFontsHeap 0 = some [0, 1, 2, 3, 4, 5, 6, 7]) ∧
    ∃ h' : Heap, Collect Enum.stored 4 twoFontsHeap 0 ⟨0, 0⟩ []
        = some (h', [] ++ [0, 1, 2, 3, 4, 5, 6, 7]) ∧
      (∀ (x : Addr) (o : Object), twoFontsHeap[x]? = some o → ∃ o' : Object, h'[x]? = some o' ∧
        o'.Generation = o.Generation ∧ (o.ID ≠ 0 → o'.ID = o.ID)) ∧
      ∃ (h'' : Heap) (l2 : List Addr),
        Collect Enum.reversed 4 h' 0 ⟨0, 0⟩ [0, 1, 2, 3, 4, 5, 6, 7]
          = some (h'', [0, 1, 2, 3, 4, 5, 6, 7] ++ l2) ∧
        ∀ (x : Addr) (o' : Object), h'[x]? = some o' → ∃ o'' : Object, h''[x]? = some o'' ∧
          o''.ID = o'.ID ∧ o''.Generation = o'.Generation :=
  ⟨⟨Enum.stored_valid, Enum.reversed_valid, by decide⟩,
    C12_identity_stable Enum.stored Enum.reversed Enum.stored_valid Enum.reversed_valid 4
      twoFontsHeap 0 ⟨0, 0⟩ ⟨0, 0⟩ [] [0, 1, 2, 3, 4, 5, 6, 7] [0, 1, 2, 3, 4, 5, 6, 7]
      (by decide)⟩

/-! ## C13: the registry is the pre-order listing -/

theorem preorder_succ_some (e : Enum) (fuel : Nat) (h : Heap) (a : Addr) (o : Object)
    (hget : h[a]? = some o) :
    preorder e (fuel + 1) h a
      = (preorderEach (preorder e fuel h) (o.kids e a)).map fun l => a :: l := by
  rw [preorder, hget]

theorem preorder_leaf (e : Enum) (fuel : Nat) (h : Heap) (a : Addr) (o : Object)
    (hget : h[a]? = some o) (hk : o.kids e a = []) : preorder e (fuel + 1) h a = some [a] := by
  simp [preorder, hget, hk, preorderEach]

theorem preorderEach_map {f : Addr → Option (List Addr)} (g : Addr → List Addr)
    (xs : List Addr) (hf : ∀ x ∈ xs, f x = some (g x)) :
    preorderEach f xs = some (xs.map g).flatten := by
  induction xs with
  | nil => rfl
  | cons x xs ih =>
    simp [preorderEach, hf x (List.mem_cons_self _ _),
      ih (fun y hy => hf y (List.mem_cons_of_mem _ hy))]

theorem preorderEach_singletons {f : Addr → Option (List Addr)} (xs : List Addr)
    (hf : ∀ x ∈ xs, f x = some [x]) : preorderEach f xs = some xs := by
  have := preorderEach_map (fun x => [x]) xs hf
  rw [this]
  congr 1
  induction xs with
  | nil => rfl
  | cons x xs ih =>
    simp only [List.map_cons, List.flatten_cons, List.singleton_append]
    rw [ih (fun y hy => hf y (List.mem_cons_of_mem _ hy))
      (preorderEach_map _ xs (fun y hy => hf y (List.mem_cons_of_mem _ hy)))]

/-- The pre-order listing of a graph of the document shape is the listing in the words of
the traversal policy. -/
theorem preorder_document {e : Enum} (he : e.Valid) (fuel : Nat) (h : Heap) (root : Addr)
    (hdoc : IsDocument h root) :
    preorder e (fuel + 4) h root = some (documentListing e h root) := by
  obtain ⟨c, ps, hroot, ⟨oo, hout⟩, hpages, hkids⟩ := hdoc
  have hpage : ∀ k ∈ ps.Kids, preorder e (fuel + 2) h k = some (pageListing e h k) := by
    intro k hk
    obtain ⟨pg, hpg, ⟨ct, hct⟩, ⟨s, hs⟩, hfonts⟩ := hkids k hk
    have hleaves : preorderEach (preorder e (fuel + 1) h)
        (pg.Contents :: pg.ProcSet :: (e k pg.Fonts).map Prod.snd)
        = some (pg.Contents :: pg.ProcSet :: (e k pg.Fonts).map Prod.snd) := by
      apply preorderEach_singletons
      intro x hx
      rcases List.mem_cons.mp hx with hx1 | hx2
      · subst hx1; exact preorder_leaf e fuel h _ _ hct rfl
      · rcases List.mem_cons.mp hx2 with hx3 | hx4
        · subst hx3; exact preorder_leaf e fuel h _ _ hs rfl
        · obtain ⟨f, hf, hfx⟩ := List.mem_map.mp hx4
          obtain ⟨ft, hft⟩ := hfonts f ((he k pg.Fonts).mem_iff.mp hf)
          subst hfx
          exact preorder_leaf e fuel h _ _ hft rfl
    rw [preorder_succ_some e (fuel + 1) h k _ hpg]
    simp only [Object.kids, hleaves, pageListing, hpg, Option.map_some']
  have hpagesL : preorder e (fuel + 3) h c.Pages
      = some (c.Pages :: (ps.Kids.map (pageListing e h)).flatten) := by
    rw [preorder_succ_some e (fuel + 2) h _ _ hpages]
    simp only [Object.kids]
    rw [preorderEach_map (pageListing e h) ps.Kids hpage]
    rfl
  have houtL : preorder e (fuel + 3) h c.Outline = some [c.Outline] :=
    preorder_leaf e (fuel + 2) h _ _ hout rfl
  rw [preorder_succ_some e (fuel + 3) h root _ hroot]
  simp only [Object.kids, preorderEach, houtL, hpagesL, documentListing, hroot,
    hpages, Option.map_some', List.append_nil, List.singleton_append]


theorem driverHeap_isDocument (content : Bytes) : IsDocument (driverHeap content) driverCatalog := by
  refine ⟨⟨⟨0, 0⟩, 2, 3⟩, ⟨⟨0, 0⟩, [4]⟩, rfl, ⟨_, rfl⟩, rfl, ?_⟩
  intro k hk
  simp only [List.mem_singleton] at hk
  subst hk
  refine ⟨_, rfl, ⟨_, rfl⟩, ⟨_, rfl⟩, ?_⟩
  intro f hf
  simp only [List.mem_singleton] at hf
  subst hf
  exact ⟨_, rfl⟩

/-- C13 (amended): for every graph on which the pre-order depth-first listing `l` (children in
the order Outline, PageTree for a Catalog; the `Kids` in their order for a page tree;
ContentStream, ProcSet, then the Fonts as enumerated for a Page) exists within the fuel and
holds no Page twice, with any valid enumeration: `Collect` from the root on an empty
registry returns the registry `l`; an object is in the registry exactly when it is reachable;
every reachable object is in it exactly once precisely when `l` repeats no object, and
every reachable Page is in it exactly once; and when the graph has the document shape, `l` is Catalog, Outline, PageTree, then for each Page in
the order of `Kids` the Page, its ContentStream, its ProcSet and its Fonts, and `Collect`
returns it with any fuel of at least 4. -/
theorem C13_registry_is_preorder_listing (e : Enum) (he : e.Valid) (fuel : Nat) (h : Heap)
    (root : Addr) (l : List Addr) (hl : preorder e fuel h root = some l)
    (hpage : ∀ (a : Addr) (pg : ObjectPage), h[a]? = some (.page pg) → l.count a ≤ 1) :
    ∃ h' : Heap, Collect e fuel h root ⟨0, 0⟩ [] = some (h', l) ∧
      (∀ a, Reach h root a ↔ 1 ≤ l.count a) ∧
      (l.Nodup ↔ ∀ a, Reach h root a → l.count a = 1) ∧
      (∀ (a : Addr) (pg : ObjectPage), h[a]? = some (.page pg) → Reach h root a →
        l.count a = 1) ∧
      (IsDocument h root →
        l = documentListing e h root ∧
        ∀ k : Nat, ∃ h'' : Heap, Collect e (k + 4) h root ⟨0, 0⟩ [] = some (h'', l)) := by
  obtain ⟨h', hc⟩ := Collect_of_preorder e fuel h root ⟨0, 0⟩ [] l hl
  rw [List.nil_append] at hc
  have hmem : ∀ a, Reach h root a ↔ a ∈ l := fun a =>
    ⟨reach_preorder he fuel h root l hl a, preorder_reach he fuel h root l hl a⟩
  have hdocL : IsDocument h root → l = documentListing e h root := by
    intro hdoc
    obtain ⟨h'', hc''⟩ := Collect_of_preorder e (fuel + 4) h root ⟨0, 0⟩ [] _
      (preorder_document he fuel h root hdoc)
    rw [List.nil_append,
      Collect_mono_le e fuel (fuel + 4) (Nat.le_add_right _ _) h root ⟨0, 0⟩ [] _ hc] at hc''
    exact (Prod.mk.inj (Option.some.inj hc'')).2
  refine ⟨h', hc, ?_, ⟨?_, ?_⟩, ?_, ?_⟩
  · intro a
    rw [hmem a, List.one_le_count_iff]
  · intro hnd a ha
    exact List.count_eq_one_of_mem hnd ((hmem a).mp ha)
  · intro hall
    rw [List.nodup_iff_count_le_one]
    intro a
    by_cases ha : a ∈ l
    · exact le_of_eq (hall a ((hmem a).mpr ha))
    · rw [List.count_eq_zero_of_not_mem ha]; exact Nat.zero_le _
  · intro a pg hget ha
    exact Nat.le_antisymm (hpage a pg hget) (List.one_le_count_iff.mpr ((hmem a).mp ha))
  · intro hdoc
    refine ⟨hdocL hdoc, fun k => ?_⟩
    obtain ⟨h'', hc''⟩ := Collect_of_preorder e (k + 4) h root ⟨0, 0⟩ [] _
      (preorder_document he k h root hdoc)
    rw [List.nil_append, ← hdocL hdoc] at hc''
    exact ⟨h'', hc''⟩

theorem C13_registry_is_preorder_listing_witness :
    (Enum.stored.Valid ∧
      preorder Enum.stored 4 (driverHeap []) driverCatalog = some driverRegistry ∧
      (∀ (a : Addr) (pg : ObjectPage), (driverHeap [])[a]? = some (.page pg) →
        driverRegistry.count a ≤ 1)) ∧
    ∃ h' : Heap, Collect Enum.stored 4 (driverHeap []) driverCatalog ⟨0, 0⟩ []
        = some (h', driverRegistry) ∧
      (∀ a, Reach (driverHeap []) driverCatalog a ↔ 1 ≤ driverRegistry.count a) ∧
      (driverRegistry.Nodup ↔
        ∀ a, Reach (driverHeap []) driverCatalog a → driverRegistry.count a = 1) ∧
      (∀ (a : Addr) (pg : ObjectPage), (driverHeap [])[a]? = some (.page pg) →
        Reach (driverHeap []) driverCatalog a → driverRegistry.count a = 1) ∧
      (IsDocument (driverHeap []) driverCatalog →
        driverRegistry = documentListing Enum.stored (driverHeap []) driverCatalog ∧
        ∀ k : Nat, ∃ h'' : Heap,
          Collect Enum.stored (k + 4) (driverHeap []) driverCatalog ⟨0, 0⟩ []
            = some (h'', driverRegistry)) :=
  ⟨⟨Enum.stored_valid, by decide,
      fun a _ _ => List.nodup_iff_count_le_one.mp (by decide) a⟩,
    C13_registry_is_preorder_listing Enum.stored Enum.stored_valid 4 (driverHeap [])
      driverCatalog driverRegistry (by decide)
      (fun a _ _ => List.nodup_iff_count_le_one.mp (by decide) a)⟩

/-- C13 (as stated) fails: when two pages use one font object (all identities 0, no Page
listed twice), the registry is the pre-order listing but holds that font, address 9,
twice. -/
theorem C13_counterexample_font_listed_twice :
    (∀ o ∈ sharedFontHeap, o.ID = 0) ∧
    (Collect Enum.stored 4 sharedFontHeap 0 ⟨0, 0⟩ []).map (fun r => (r.2, r.2.count 9))
      = some ([0, 1, 2, 3, 5, 6, 9, 4, 7, 8, 9], 2) := by
  decide

/-! ## C14: the frame of a block -/

theorem Frame_ret_eq (f : Frame) : f.ret = f.out ++ f.deferred.flatten := by
  obtain ⟨out, d⟩ := f
  simp only [Frame.ret]
  induction d generalizing out with
  | nil => simp
  | cons b bs ih => simp [List.foldl_cons, ih]

/-- C14: every block `Write` produces starts with `"<ID> <Gen> obj\n"` and ends with
`"endobj\n"`; for the variants that register a deferred dictionary closer (Catalog,
Outlines, Pages, Page, FontType1) the line `">>\n"` stands right before that final
`"endobj\n"`; and in the writer two deferred lines are written at return in the reverse
order of their registration. -/
theorem C14_block_framing (e : Enum) (h : Heap) (a : Addr) (b : Bytes)
    (hb : Write e h a = some b) :
    (∃ (o : Object) (mid : Bytes), h[a]? = some o ∧
      b = (fmtD o.ID ++ str " " ++ fmtD o.Generation ++ str " obj\n") ++ mid
        ++ (match o with
            | .content _ => []
            | .procSet _ => []
            | _ => str ">>\n")
        ++ str "endobj\n") ∧
    (∀ (f : Frame) (x y : Bytes),
      ((f.defer x).defer y).ret = f.out ++ y ++ x ++ f.deferred.flatten) := by
  refine ⟨?_, fun f x y => by simp [Frame_ret_eq, Frame.defer]⟩
  unfold Write at hb
  cases hget : h[a]? with
  | none => rw [hget] at hb; simp at hb
  | some o =>
    rw [hget] at hb
    refine ⟨o, ?_⟩
    cases o with
    | catalog c =>
      simp only [] at hb
      rcases hO : h[c.Outline]? with _ | o1
      · simp [ObjectCatalog.Write, hO] at hb
      · rcases hP : h[c.Pages]? with _ | o2
        · simp [ObjectCatalog.Write, hO, hP] at hb
        · rw [ObjectCatalog_Write_eq h c o1 o2 hO hP, Option.some.injEq] at hb
          refine ⟨str "<< /Type /Catalog\n"
            ++ (str "/Outlines " ++ fmtRef o1.ID o1.Generation ++ str " R\n")
            ++ (str "/Pages " ++ fmtRef o2.ID o2.Generation ++ str " R\n"), rfl, ?_⟩
          rw [← hb]
          simp only [objHeader, fmtRef, Object.ID, Object.Generation, Object.base,
            List.append_assoc]
    | outlines o =>
      simp only [Option.some.injEq] at hb
      refine ⟨str "<< /Type /Outlines\n" ++ str "/Count 0\n", rfl, ?_⟩
      rw [← hb, ObjectOutlines_Write_eq]
      simp only [objHeader, fmtRef, Object.ID, Object.Generation, Object.base,
        List.append_assoc]
    | pages p =>
      simp only [] at hb
      rcases hrs : refsOf h p.Kids with _ | rs
      · simp [ObjectPages.Write, writeKids_eq, hrs] at hb
      · rw [ObjectPages_Write_eq h p rs hrs, Option.some.injEq] at hb
        refine ⟨str "<< /Type /Pages\n" ++ str "/Kids [" ++ (rs.map kidEntry).flatten
          ++ str "]\n" ++ (str "/Count " ++ fmtD (p.Kids.length : Int) ++ str "\n"), rfl, ?_⟩
        rw [← hb]
        simp only [objHeader, fmtRef, Object.ID, Object.Generation, Object.base,
          List.append_assoc]
    | page p =>
      simp only [] at hb
      rcases hc : h[p.Contents]? with _ | oc
      · simp [ObjectPage.Write, hc] at hb
      · rcases ho : h[p.ProcSet]? with _ | ops
        · simp [ObjectPage.Write, ObjectPage.writeResource, hc, ho] at hb
        · rcases hrs : fontRefsOf h (e a p.Fonts) with _ | rs
          · simp [ObjectPage.Write, ObjectPage.writeResource, writeFonts_eq, hc, ho, hrs] at hb
          · rw [ObjectPage_Write_eq e h a p oc ops rs hc ho hrs, Option.some.injEq] at hb
            refine ⟨str "<< /Type /Page"
              ++ (str "/Parent " ++ fmtRef p.Parent.ID p.Parent.Gen ++ str " R\n")
              ++ (str "/MediaBox [" ++ fmtD p.MediaBox.X ++ str " " ++ fmtD p.MediaBox.Y
                ++ str " " ++ fmtD p.MediaBox.W ++ str " " ++ fmtD p.MediaBox.H ++ str "]\n")
              ++ (str "/Contents " ++ fmtRef oc.ID oc.Generation ++ str " R\n")
              ++ (str "/Resources <<\n"
                ++ (str "/ProcSet " ++ fmtRef ops.ID ops.Generation ++ str " R\n")
                ++ str "/Font <<\n" ++ (rs.map fontEntry).flatten ++ str ">>\n" ++ str ">>\n"),
              rfl, ?_⟩
            rw [← hb]
            simp only [objHeader, fmtRef, Object.ID, Object.Generation, Object.base,
              List.append_assoc]
    | content c =>
      simp only [Option.some.injEq] at hb
      refine ⟨(str "<< /Length " ++ fmtD (c.Content.length : Int) ++ str " >>\n")
        ++ str "stream\n" ++ c.Content ++ str "endstream\n", rfl, ?_⟩
      rw [← hb, ObjectContent_Write_eq]
      simp only [objHeader, fmtRef, Object.ID, Object.Generation, Object.base,
        List.append_assoc, List.nil_append]
    | procSet c =>
      simp only [Option.some.injEq] at hb
      refine ⟨str "[/PDF /Text]\n", rfl, ?_⟩
      rw [← hb, ObjectProcSet_Write_eq]
      simp only [objHeader, fmtRef, Object.ID, Object.Generation, Object.base,
        List.append_assoc, List.nil_append]
    | fontType1 f =>
      simp only [Option.some.injEq] at hb
      refine ⟨str "<< /Type /Font\n" ++ str "/Subtype /Type1\n"
        ++ str "/BaseFont /Helvetica\n" ++ str "/Encoding /WinAnsiEncoding\n", rfl, ?_⟩
      rw [← hb, ObjectFontType1_Write_eq]
      simp only [objHeader, fmtRef, Object.ID, Object.Generation, Object.base,
        List.append_assoc]

theorem C14_block_framing_witness :
    Write Enum.stored (driverCollected []) 4
      = some ((Write Enum.stored (driverCollected []) 4).getD []) ∧
    ((∃ (o : Object) (mid : Bytes), (driverCollected [])[4]? = some o ∧
      (Write Enum.stored (driverCollected []) 4).getD []
        = (fmtD o.ID ++ str " " ++ fmtD o.Generation ++ str " obj\n") ++ mid
        ++ (match o with
            | .content _ => []
            | .procSet _ => []
            | _ => str ">>\n")
        ++ str "endobj\n") ∧
    (∀ (f : Frame) (x y : Bytes),
      ((f.defer x).defer y).ret = f.out ++ y ++ x ++ f.deferred.flatten)) :=
  ⟨by decide,
    C14_block_framing Enum.stored (driverCollected []) 4
      ((Write Enum.stored (driverCollected []) 4).getD []) (by decide)⟩

/-! ## C15: the page tree -/

/-- C15: for every Pages object whose kids all exist, `Write` emits `/Type /Pages`, then
`/Kids [` followed by one `<id> <gen> R ` per kid in the order of `Kids`, each carrying the
identity and generation of that kid, then `]`, then `/Count` with the number of kids, which
is the number of references in the array, also for the empty list. -/
theorem C15_pages_kids_and_count (h : Heap) (p : ObjectPages)
    (hk : ∀ k ∈ p.Kids, (h[k]?).isSome = true) :
    ∃ rs : List ObjectRef, rs.length = p.Kids.length ∧
      (∀ (i : Nat) (hi : i < p.Kids.length), ∃ o : Object,
        h[p.Kids[i]]? = some o ∧ rs[i]? = some ⟨o.ID, o.Generation⟩) ∧
      p.Write h = some ((fmtD p.base.IDNum ++ str " " ++ fmtD p.base.Gen ++ str " obj\n")
        ++ str "<< /Type /Pages\n"
        ++ str "/Kids ["
        ++ (rs.map fun r => fmtD r.ID ++ str " " ++ fmtD r.Gen ++ str " R ").flatten
        ++ str "]\n"
        ++ (str "/Count " ++ fmtD (rs.length : Int) ++ str "\n")
        ++ str ">>\n" ++ str "endobj\n") := by
  obtain ⟨rs, hrs⟩ := refsOf_isSome h p.Kids
    (fun k hkm => Option.isSome_iff_exists.mp (hk k hkm))
  obtain ⟨hlen, hall⟩ := refsOf_spec h p.Kids rs hrs
  refine ⟨rs, hlen, hall, ?_⟩
  rw [ObjectPages_Write_eq h p rs hrs, hlen]
  rfl

theorem C15_pages_kids_and_count_witness :
    (∀ k ∈ (ObjectPages.mk ⟨3, 0⟩ [4, 4, 0]).Kids,
      ((driverCollected [])[k]?).isSome = true) ∧
    ∃ rs : List ObjectRef, rs.length = (ObjectPages.mk ⟨3, 0⟩ [4, 4, 0]).Kids.length ∧
      (∀ (i : Nat) (hi : i < (ObjectPages.mk ⟨3, 0⟩ [4, 4, 0]).Kids.length), ∃ o : Object,
        (driverCollected [])[(ObjectPages.mk ⟨3, 0⟩ [4, 4, 0]).Kids[i]]? = some o
          ∧ rs[i]? = some ⟨o.ID, o.Generation⟩) ∧
      (ObjectPages.mk ⟨3, 0⟩ [4, 4, 0]).Write (driverCollected [])
        = some ((fmtD (ObjectPages.mk ⟨3, 0⟩ [4, 4, 0]).base.IDNum ++ str " "
            ++ fmtD (ObjectPages.mk ⟨3, 0⟩ [4, 4, 0]).base.Gen ++ str " obj\n")
        ++ str "<< /Type /Pages\n"
        ++ str "/Kids ["
        ++ (rs.map fun r => fmtD r.ID ++ str " " ++ fmtD r.Gen ++ str " R ").flatten
        ++ str "]\n"
        ++ (str "/Count " ++ fmtD (rs.length : Int) ++ str "\n")
        ++ str ">>\n" ++ str "endobj\n") :=
  ⟨by decide, C15_pages_kids_and_count (driverCollected []) (ObjectPages.mk ⟨3, 0⟩ [4, 4, 0])
    (by decide)⟩

/-! ## Decimal digits -/

theorem digitChar_isDigit (m : Nat) (hm : m < 10) :
    IsDigit (UInt8.ofNat (Nat.digitChar m).toNat) := by
  unfold IsDigit
  interval_cases m <;> decide

theorem toDigitsCore_digits (f : Nat) : ∀ (n : Nat) (ds : List Char),
    ∀ c ∈ Nat.toDigitsCore 10 f n ds, c ∈ ds ∨ ∃ m, m < 10 ∧ c = Nat.digitChar m := by
  induction f with
  | zero => intro n ds c hc; exact Or.inl (by simpa [Nat.toDigitsCore] using hc)
  | succ f ih =>
    intro n ds c hc
    simp only [Nat.toDigitsCore] at hc
    split at hc
    · rcases List.mem_cons.mp hc with h1 | h2
      · exact Or.inr ⟨n % 10, Nat.mod_lt _ (by decide), h1⟩
      · exact Or.inl h2
    · rcases ih _ _ c hc with h1 | h2
      · rcases List.mem_cons.mp h1 with h3 | h4
        · exact Or.inr ⟨n % 10, Nat.mod_lt _ (by decide), h3⟩
        · exact Or.inl h4
      · exact Or.inr h2

/-- Every byte `strconv` produces for a natural number is a decimal digit. -/
theorem fmtNat_isDigit (n : Nat) : ∀ b ∈ fmtNat n, IsDigit b := by
  intro b hb
  simp only [fmtNat, List.mem_map] at hb
  obtain ⟨c, hc, rfl⟩ := hb
  rcases toDigitsCore_digits _ _ _ c hc with h1 | ⟨m, hm, rfl⟩
  · simp at h1
  · exact digitChar_isDigit m hm

theorem fmtNat_length_le (n e : Nat) (he : 0 < e) (hn : n < 10 ^ e) :
    (fmtNat n).length ≤ e := by
  simp only [fmtNat, List.length_map, Nat.toDigits]
  exact Nat.toDigitsCore_length 10 (by decide) (n + 1) n e hn he

theorem fmtDPad_nonneg (w : Nat) (i : Int) (hi : 0 ≤ i) :
    fmtDPad w i = List.replicate (w - (fmtNat i.natAbs).length) (UInt8.ofNat 48)
      ++ fmtNat i.natAbs := by
  simp only [fmtDPad]
  rw [if_neg (by omega)]

theorem fmtDPad_width (w : Nat) (i : Int) (hw : 0 < w) (hi : 0 ≤ i) (hlt : i < 10 ^ w) :
    (fmtDPad w i).length = w ∧ ∀ b ∈ fmtDPad w i, IsDigit b := by
  have hn : i.natAbs < 10 ^ w := by
    have : (i.natAbs : Int) < ((10 ^ w : Nat) : Int) := by
      rw [Int.natAbs_of_nonneg hi]; exact_mod_cast hlt
    exact_mod_cast this
  have hlen := fmtNat_length_le i.natAbs w hw hn
  rw [fmtDPad_nonneg w i hi]
  constructor
  · simp only [List.length_append, List.length_replicate]
    omega
  · intro b hb
    rcases List.mem_append.mp hb with h1 | h2
    · rw [List.eq_of_mem_replicate h1]
      unfold IsDigit
      decide
    · exact fmtNat_isDigit _ b h2

/-! ## C17: the width of an index line -/

/-- C17 (amended): for a position below `10^10` and a generation from 0 to 99999, the in-use
index line the serializer writes is a field of exactly 10 decimal digits, one space, a field
of exactly 5 decimal digits, one space, the flag `n` and a newline, and it is as long as the
free entry `"0000000000 65535 f\n"`. -/
theorem C17_index_entry_fixed_width (pos : Nat) (gen : Int) (hpos : pos < 10 ^ 10)
    (hgen0 : 0 ≤ gen) (hgen : gen < 10 ^ 5) :
    ∃ off g : Bytes, xrefEntry pos gen = off ++ str " " ++ g ++ str " n\n" ∧
      off.length = 10 ∧ g.length = 5 ∧ (∀ b ∈ off, IsDigit b) ∧ (∀ b ∈ g, IsDigit b) ∧
      (xrefEntry pos gen).length
        = (fmtDPad 10 0 ++ str " " ++ fmtDPad 5 65535 ++ str " f\n").length ∧
      fmtDPad 10 0 ++ str " " ++ fmtDPad 5 65535 ++ str " f\n" = str "0000000000 65535 f\n" := by
  obtain ⟨h10, d10⟩ := fmtDPad_width 10 (pos : Int) (by decide) (by omega)
    (by exact_mod_cast hpos)
  obtain ⟨h5, d5⟩ := fmtDPad_width 5 gen (by decide) hgen0 hgen
  have hfree : fmtDPad 10 0 ++ str " " ++ fmtDPad 5 65535 ++ str " f\n"
      = str "0000000000 65535 f\n" := by decide
  refine ⟨fmtDPad 10 (pos : Int), fmtDPad 5 gen, rfl, h10, h5, d10, d5, ?_, hfree⟩
  rw [hfree]
  simp only [xrefEntry, List.length_append, h10, h5]
  decide

theorem C17_index_entry_fixed_width_witness :
    ((9 : Nat) < 10 ^ 10 ∧ (0 : Int) ≤ 0 ∧ (0 : Int) < 10 ^ 5) ∧
    ∃ off g : Bytes, xrefEntry 9 0 = off ++ str " " ++ g ++ str " n\n" ∧
      off.length = 10 ∧ g.length = 5 ∧ (∀ b ∈ off, IsDigit b) ∧ (∀ b ∈ g, IsDigit b) ∧
      (xrefEntry 9 0).length
        = (fmtDPad 10 0 ++ str " " ++ fmtDPad 5 65535 ++ str " f\n").length ∧
      fmtDPad 10 0 ++ str " " ++ fmtDPad 5 65535 ++ str " f\n" = str "0000000000 65535 f\n" :=
  ⟨⟨by decide, by decide, by decide⟩,
    C17_index_entry_fixed_width 9 0 (by decide) (by decide) (by decide)⟩

/-- C17 (as stated) fails: for an object of generation 100000 the verb `%05d` prints six
digits, so the in-use line is `"0000000009 100000 n\n"`, 20 bytes, one more than the 19
bytes of the free entry; and for a block that starts at byte `10^10` the verb `%010d` prints
eleven digits. -/
theorem C17_counterexample_wide_generation :
    xrefEntry 9 100000 = str "0000000009 100000 n\n" ∧
    (xrefEntry 9 100000).length = 20 ∧
    xrefEntry 10000000000 0 = str "10000000000 00000 n\n" ∧
    (fmtDPad 10 0 ++ str " " ++ fmtDPad 5 65535 ++ str " f\n").length = 19 ∧
    (serializeLoop Enum.stored [.fontType1 ⟨⟨1, 100000⟩⟩] [0] (serializeInit [0])).map
        (fun s => s.xrefbuf)
      = some (str "xref\n0 2\n0000000000 65535 f\n0000000009 100000 n\n") := by
  decide

/-! ## C16: the page block -/

theorem fmtD_mem (i : Int) (b : UInt8) (hb : b ∈ fmtD i) : IsDigit b ∨ b = 45 := by
  simp only [fmtD] at hb
  split at hb
  · rcases List.mem_append.mp hb with h1 | h2
    · right
      have : str "-" = [45] := by decide
      rw [this] at h1
      simpa using h1
    · exact Or.inl (fmtNat_isDigit _ b h2)
  · exact Or.inl (fmtNat_isDigit _ b hb)

theorem count_fmtD (c : UInt8) (hd : ¬ IsDigit c) (hm : c ≠ 45) (i : Int) :
    (fmtD i).count c = 0 := by
  rw [List.count_eq_zero]
  intro hmem
  rcases fmtD_mem i c hmem with h1 | h2
  · exact hd h1
  · exact hm h2

theorem count_fontEntries (c : UInt8) (hd : ¬ IsDigit c) (hm : c ≠ 45)
    (hlit : c ∉ str "/" ++ str " " ++ str " R\n") (rs : List (Bytes × ObjectRef))
    (hnames : ∀ r ∈ rs, c ∉ r.1) : ((rs.map fontEntry).flatten).count c = 0 := by
  rw [List.count_eq_zero]
  intro hmem
  obtain ⟨l, hl, hcl⟩ := List.mem_flatten.mp hmem
  obtain ⟨r, hr, rfl⟩ := List.mem_map.mp hl
  simp only [fontEntry, fmtRef, List.mem_append] at hcl
  simp only [List.mem_append, not_or] at hlit
  rcases hcl with (((h1 | h2) | h3) | ((h4 | h5) | h6)) | h7
  · exact hlit.1.1 h1
  · exact hnames r hr h2
  · exact hlit.1.2 h3
  · rcases fmtD_mem _ c h4 with h | h
    · exact hd h
    · exact hm h
  · exact hlit.1.2 h5
  · rcases fmtD_mem _ c h6 with h | h
    · exact hd h
    · exact hm h
  · exact hlit.2 h7


theorem count_page_block (c : UInt8) (hd : ¬ IsDigit c) (hm : c ≠ 45)
    (hlit : c ∉ str "/" ++ str " " ++ str " R\n") (p : ObjectPage) (oc ops : Object)
    (rs : List (Bytes × ObjectRef)) (hnames : ∀ r ∈ rs, c ∉ r.1) :
    (objHeader p.base ++ str "<< /Type /Page"
      ++ (str "/Parent " ++ fmtRef p.Parent.ID p.Parent.Gen ++ str " R\n")
      ++ (str "/MediaBox [" ++ fmtD p.MediaBox.X ++ str " " ++ fmtD p.MediaBox.Y
        ++ str " " ++ fmtD p.MediaBox.W ++ str " " ++ fmtD p.MediaBox.H ++ str "]\n")
      ++ (str "/Contents " ++ fmtRef oc.ID oc.Generation ++ str " R\n")
      ++ (str "/Resources <<\n"
        ++ (str "/ProcSet " ++ fmtRef ops.ID ops.Generation ++ str " R\n")
        ++ str "/Font <<\n" ++ (rs.map fontEntry).flatten ++ str ">>\n" ++ str ">>\n")
      ++ str ">>\n" ++ str "endobj\n").count c
    = (str " " ++ str " obj\n" ++ str "<< /Type /Page"
        ++ (str "/Parent " ++ str " " ++ str " R\n")
        ++ (str "/MediaBox [" ++ str " " ++ str " " ++ str " " ++ str "]\n")
        ++ (str "/Contents " ++ str " " ++ str " R\n")
        ++ (str "/Resources <<\n" ++ (str "/ProcSet " ++ str " " ++ str " R\n")
          ++ str "/Font <<\n" ++ str ">>\n" ++ str ">>\n")
        ++ str ">>\n" ++ str "endobj\n").count c := by
  simp only [objHeader, fmtRef, List.count_append, count_fmtD c hd hm,
    count_fontEntries c hd hm hlit rs hnames]
  omega


/-- C16: for every Page whose `Contents`, `ProcSet` and fonts exist and whose font names
contain neither `<` nor `>`, `Write` produces the leading line, `<< /Type /Page`, `/Parent`
with the stored parent reference, `/MediaBox [X Y W H]`, `/Contents` with the reference to the
content stream, `/Resources <<` holding `/ProcSet` with its reference and `/Font <<` with one
line `/<name> <id> <gen> R` per entry of `Fonts` (in the order of the enumeration), then the
three closers `>>` of Font, Resources and Page and `endobj`; the block holds exactly six `<`
and six `>` bytes, the three `<<` and the three `>>`. -/
theorem C16_page_block (e : Enum) (he : e.Valid) (h : Heap) (a : Addr) (p : ObjectPage)
    (hc : (h[p.Contents]?).isSome = true) (ho : (h[p.ProcSet]?).isSome = true)
    (hf : ∀ f ∈ p.Fonts, (h[f.2]?).isSome = true)
    (hnames : ∀ f ∈ p.Fonts, (60 : UInt8) ∉ f.1 ∧ (62 : UInt8) ∉ f.1) :
    ∃ (oc ops : Object) (rs : List (Bytes × ObjectRef)) (block : Bytes),
      h[p.Contents]? = some oc ∧ h[p.ProcSet]? = some ops ∧
      (e a p.Fonts).Perm p.Fonts ∧ rs.length = p.Fonts.length ∧
      (∀ (i : Nat) (hi : i < (e a p.Fonts).length), ∃ o : Object,
        h[((e a p.Fonts)[i]).2]? = some o ∧
        rs[i]? = some (((e a p.Fonts)[i]).1, ⟨o.ID, o.Generation⟩)) ∧
      p.Write e h a = some block ∧
      block = (fmtD p.base.IDNum ++ str " " ++ fmtD p.base.Gen ++ str " obj\n")
        ++ str "<< /Type /Page"
        ++ (str "/Parent " ++ fmtD p.Parent.ID ++ str " " ++ fmtD p.Parent.Gen ++ str " R\n")
        ++ (str "/MediaBox [" ++ fmtD p.MediaBox.X ++ str " " ++ fmtD p.MediaBox.Y
          ++ str " " ++ fmtD p.MediaBox.W ++ str " " ++ fmtD p.MediaBox.H ++ str "]\n")
        ++ (str "/Contents " ++ fmtD oc.ID ++ str " " ++ fmtD oc.Generation ++ str " R\n")
        ++ (str "/Resources <<\n"
          ++ (str "/ProcSet " ++ fmtD ops.ID ++ str " " ++ fmtD ops.Generation ++ str " R\n")
          ++ str "/Font <<\n"
          ++ (rs.map fun r =>
              str "/" ++ r.1 ++ str " " ++ fmtD r.2.ID ++ str " " ++ fmtD r.2.Gen
                ++ str " R\n").flatten
          ++ str ">>\n" ++ str ">>\n")
        ++ str ">>\n" ++ str "endobj\n" ∧
      block.count 60 = 6 ∧ block.count 62 = 6 := by
  obtain ⟨oc, hoc⟩ := Option.isSome_iff_exists.mp hc
  obtain ⟨ops, hops⟩ := Option.isSome_iff_exists.mp ho
  obtain ⟨rs, hrs⟩ := fontRefsOf_isSome h (e a p.Fonts) (fun f hfm =>
    Option.isSome_iff_exists.mp (hf f ((he a p.Fonts).mem_iff.mp hfm)))
  obtain ⟨hlen, hall⟩ := fontRefsOf_spec h (e a p.Fonts) rs hrs
  have hrsnames : ∀ c : UInt8, (∀ f ∈ p.Fonts, c ∉ f.1) → ∀ r ∈ rs, c ∉ r.1 := by
    intro c hcn r hr
    obtain ⟨i, hi, hri⟩ := List.getElem_of_mem hr
    obtain ⟨o, -, hget⟩ := hall i (by omega)
    rw [List.getElem?_eq_getElem hi, hri, Option.some.injEq] at hget
    rw [hget]
    exact hcn _ ((he a p.Fonts).mem_iff.mp (List.getElem_mem _))
  refine ⟨oc, ops, rs, _, hoc, hops, he a p.Fonts, by rw [hlen, (he a p.Fonts).length_eq],
    hall, ObjectPage_Write_eq e h a p oc ops rs hoc hops hrs, ?_, ?_, ?_⟩
  · have hmap : (rs.map fun r => str "/" ++ r.1 ++ str " " ++ fmtD r.2.ID ++ str " "
        ++ fmtD r.2.Gen ++ str " R\n") = rs.map fontEntry := by
      apply List.map_congr_left
      intro r _
      simp only [fontEntry, fmtRef, List.append_assoc]
    rw [hmap]
    simp only [objHeader, fmtRef, objectBase.ID, objectBase.Generation, List.append_assoc]
  · rw [count_page_block 60 (by unfold IsDigit; decide) (by decide) (by decide) p oc ops rs
      (hrsnames 60 (fun f hfm => (hnames f hfm).1))]
    decide
  · rw [count_page_block 62 (by unfold IsDigit; decide) (by decide) (by decide) p oc ops rs
      (hrsnames 62 (fun f hfm => (hnames f hfm).2))]
    decide



theorem C16_page_block_witness :
    (Enum.stored.Valid ∧ ((driverCollected [])[driverPage.Contents]?).isSome = true ∧
      ((driverCollected [])[driverPage.ProcSet]?).isSome = true ∧
      (∀ f ∈ driverPage.Fonts, ((driverCollected [])[f.2]?).isSome = true) ∧
      (∀ f ∈ driverPage.Fonts, (60 : UInt8) ∉ f.1 ∧ (62 : UInt8) ∉ f.1)) ∧
    ∃ (oc ops : Object) (rs : List (Bytes × ObjectRef)) (block : Bytes),
      (driverCollected [])[driverPage.Contents]? = some oc ∧
      (driverCollected [])[driverPage.ProcSet]? = some ops ∧
      (Enum.stored 4 driverPage.Fonts).Perm driverPage.Fonts ∧
      rs.length = driverPage.Fonts.length ∧
      (∀ (i : Nat) (hi : i < (Enum.stored 4 driverPage.Fonts).length), ∃ o : Object,
        (driverCollected [])[((Enum.stored 4 driverPage.Fonts)[i]).2]? = some o ∧
        rs[i]? = some (((Enum.stored 4 driverPage.Fonts)[i]).1, ⟨o.ID, o.Generation⟩)) ∧
      driverPage.Write Enum.stored (driverCollected []) 4 = some block ∧
      block = (fmtD driverPage.base.IDNum ++ str " " ++ fmtD driverPage.base.Gen
          ++ str " obj\n")
        ++ str "<< /Type /Page"
        ++ (str "/Parent " ++ fmtD driverPage.Parent.ID ++ str " "
          ++ fmtD driverPage.Parent.Gen ++ str " R\n")
        ++ (str "/MediaBox [" ++ fmtD driverPage.MediaBox.X ++ str " "
          ++ fmtD driverPage.MediaBox.Y ++ str " " ++ fmtD driverPage.MediaBox.W ++ str " "
          ++ fmtD driverPage.MediaBox.H ++ str "]\n")
        ++ (str "/Contents " ++ fmtD oc.ID ++ str " " ++ fmtD oc.Generation ++ str " R\n")
        ++ (str "/Resources <<\n"
          ++ (str "/ProcSet " ++ fmtD ops.ID ++ str " " ++ fmtD ops.Generation ++ str " R\n")
          ++ str "/Font <<\n"
          ++ (rs.map fun r =>
              str "/" ++ r.1 ++ str " " ++ fmtD r.2.ID ++ str " " ++ fmtD r.2.Gen
                ++ str " R\n").flatten
          ++ str ">>\n" ++ str ">>\n")
        ++ str ">>\n" ++ str "endobj\n" ∧
      block.count 60 = 6 ∧ block.count 62 = 6 :=
  ⟨⟨Enum.stored_valid, by decide, by decide, by decide, by decide⟩,
    C16_page_block Enum.stored Enum.stored_valid (driverCollected []) 4 driverPage
      (by decide) (by decide) (by decide) (by decide)⟩

/-! ## C19: recorded positions increase -/

theorem blocks_mem (e : Enum) (h : Heap) (objs : List Addr) (bs : List Bytes)
    (hbs : blocks e h objs = some bs) : ∀ b ∈ bs, ∃ a ∈ objs, Write e h a = some b := by
  intro b hb
  obtain ⟨i, hi, rfl⟩ := List.getElem_of_mem hb
  have hlen := blocks_length e h objs bs hbs
  exact ⟨objs[i], List.getElem_mem _, blocks_getElem e h objs bs hbs i (by omega) hi⟩

theorem Write_length_pos (e : Enum) (h : Heap) (a : Addr) (b : Bytes)
    (hb : Write e h a = some b) : 0 < b.length := by
  obtain ⟨o, body, -, rfl⟩ := Write_header e h a b hb
  have h5 : (str " obj\n").length = 5 := by decide
  simp only [objHeader, List.length_append, h5]
  omega

theorem offsetsFrom_bounds (bs : List Bytes) (hpos : ∀ b ∈ bs, 0 < b.length) :
    ∀ start : Nat, (offsetsFrom start bs).Pairwise (fun x y => x < y) ∧
      ∀ off ∈ offsetsFrom start bs, start ≤ off ∧ off < start + bs.flatten.length := by
  induction bs with
  | nil => intro start; simp [offsetsFrom]
  | cons b bs ih =>
    intro start
    have hb := hpos b (List.mem_cons_self _ _)
    obtain ⟨ih1, ih2⟩ := ih (fun x hx => hpos x (List.mem_cons_of_mem _ hx)) (start + b.length)
    simp only [offsetsFrom, List.pairwise_cons, List.mem_cons, List.flatten_cons,
      List.length_append]
    refine ⟨⟨fun off hoff => ?_, ih1⟩, fun off hoff => ?_⟩
    · have := (ih2 off hoff).1
      omega
    · rcases hoff with rfl | hoff
      · omega
      · have := ih2 off hoff
        omega

/-- C19: when the registry is not empty and every entry can be written, the positions the
serializer records start with 9, the length of the header line; they increase strictly in
registry order, every block being non-empty; and each is below the `startxref` value, which
is `pos` after the loop. -/
theorem C19_offsets_increase (e : Enum) (h : Heap) (objs : List Addr) (bs : List Bytes)
    (hne : objs ≠ []) (hbs : blocks e h objs = some bs) :
    ∃ s : Ser, serializeLoop e h objs (serializeInit objs) = some s ∧
      s.xrefbuf = (serializeInit objs).xrefbuf
        ++ (inUseEntries h objs (offsetsFrom 9 bs)).flatten ∧
      (offsetsFrom 9 bs).length = objs.length ∧
      (offsetsFrom 9 bs).head? = some (str "%PDF-1.3\n").length ∧
      (str "%PDF-1.3\n").length = 9 ∧
      (∀ b ∈ bs, 0 < b.length) ∧
      (offsetsFrom 9 bs).Pairwise (fun x y => x < y) ∧
      ∀ off ∈ offsetsFrom 9 bs, off < s.pos := by
  have hpos : (serializeInit objs).pos = 9 := by simp [serializeInit, header_length]
  have hlen := blocks_length e h objs bs hbs
  have hbpos : ∀ b ∈ bs, 0 < b.length := fun b hb => by
    obtain ⟨a, -, ha⟩ := blocks_mem e h objs bs hbs b hb
    exact Write_length_pos e h a b ha
  obtain ⟨hpw, hbd⟩ := offsetsFrom_bounds bs hbpos 9
  refine ⟨{ xrefbuf := (serializeInit objs).xrefbuf
              ++ (inUseEntries h objs (offsetsFrom 9 bs)).flatten,
            pos := 9 + bs.flatten.length,
            w := (serializeInit objs).w ++ bs.flatten }, ?_, rfl, ?_, ?_, header_length,
    hbpos, hpw, fun off hoff => (hbd off hoff).2⟩
  · rw [serializeLoop_eq, hbs, hpos]; rfl
  · rw [offsetsFrom_length, hlen]
  · cases bs with
    | nil =>
      cases objs with
      | nil => exact absurd rfl hne
      | cons a rest => simp at hlen
    | cons b bs => simp [offsetsFrom, header_length]

theorem C19_offsets_increase_witness :
    (driverRegistry ≠ [] ∧
      blocks Enum.stored (driverCollected []) driverRegistry
        = some ((List.range 7).filterMap fun i =>
            (driverRegistry[i]?).bind (Write Enum.stored (driverCollected [])))) ∧
    ∃ s : Ser, serializeLoop Enum.stored (driverCollected []) driverRegistry
        (serializeInit driverRegistry) = some s ∧
      s.xrefbuf = (serializeInit driverRegistry).xrefbuf
        ++ (inUseEntries (driverCollected []) driverRegistry
            (offsetsFrom 9 ((List.range 7).filterMap fun i =>
              (driverRegistry[i]?).bind (Write Enum.stored (driverCollected []))))).flatten ∧
      (offsetsFrom 9 ((List.range 7).filterMap fun i =>
        (driverRegistry[i]?).bind (Write Enum.stored (driverCollected [])))).length
          = driverRegistry.length ∧
      (offsetsFrom 9 ((List.range 7).filterMap fun i =>
        (driverRegistry[i]?).bind (Write Enum.stored (driverCollected [])))).head?
          = some (str "%PDF-1.3\n").length ∧
      (str "%PDF-1.3\n").length = 9 ∧
      (∀ b ∈ ((List.range 7).filterMap fun i =>
        (driverRegistry[i]?).bind (Write Enum.stored (driverCollected []))), 0 < b.length) ∧
      (offsetsFrom 9 ((List.range 7).filterMap fun i =>
        (driverRegistry[i]?).bind (Write Enum.stored (driverCollected [])))).Pairwise
          (fun x y => x < y) ∧
      ∀ off ∈ offsetsFrom 9 ((List.range 7).filterMap fun i =>
        (driverRegistry[i]?).bind (Write Enum.stored (driverCollected []))), off < s.pos :=
  ⟨⟨by decide, by decide⟩,
    C19_offsets_increase Enum.stored (driverCollected []) driverRegistry _ (by decide)
      (by decide)⟩

/-! ## C20: what Collect leaves unchanged -/

theorem Object.shape_eq_catalog {o' : Object} {c : ObjectCatalog}
    (hs : o'.shape = (Object.catalog c).shape) :
    ∃ c', o' = .catalog c' ∧ c'.Outline = c.Outline ∧ c'.Pages = c.Pages ∧
      c'.base.Gen = c.base.Gen := by
  cases o' <;> simp only [Object.shape, Object.catalog.injEq, reduceCtorEq] at hs
  rename_i c'
  refine ⟨c', rfl, ?_⟩
  cases c; cases c'
  simp only [ObjectCatalog.mk.injEq, objectBase.mk.injEq] at hs ⊢
  exact ⟨hs.2.1, hs.2.2, hs.1.2⟩

theorem Object.shape_eq_pages {o' : Object} {p : ObjectPages}
    (hs : o'.shape = (Object.pages p).shape) :
    ∃ p', o' = .pages p' ∧ p'.Kids = p.Kids ∧ p'.base.Gen = p.base.Gen := by
  cases o' <;> simp only [Object.shape, Object.pages.injEq, reduceCtorEq] at hs
  rename_i p'
  refine ⟨p', rfl, ?_⟩
  cases p; cases p'
  simp only [ObjectPages.mk.injEq, objectBase.mk.injEq] at hs ⊢
  exact ⟨hs.2, hs.1.2⟩

theorem Object.shape_eq_page {o' : Object} {p : ObjectPage}
    (hs : o'.shape = (Object.page p).shape) :
    ∃ p', o' = .page p' ∧ p'.MediaBox = p.MediaBox ∧ p'.Contents = p.Contents ∧
      p'.ProcSet = p.ProcSet ∧ p'.Fonts = p.Fonts ∧ p'.base.Gen = p.base.Gen := by
  cases o' <;> simp only [Object.shape, Object.page.injEq, reduceCtorEq] at hs
  rename_i p'
  refine ⟨p', rfl, ?_⟩
  cases p; cases p'
  simp only [ObjectPage.mk.injEq, objectBase.mk.injEq] at hs ⊢
  exact ⟨hs.2.2.1, hs.2.2.2.1, hs.2.2.2.2.1, hs.2.2.2.2.2, hs.1.2⟩

theorem Object.shape_eq_content {o' : Object} {c : ObjectContent}
    (hs : o'.shape = (Object.content c).shape) :
    ∃ c', o' = .content c' ∧ c'.Content = c.Content ∧ c'.base.Gen = c.base.Gen := by
  cases o' <;> simp only [Object.shape, Object.content.injEq, reduceCtorEq] at hs
  rename_i c'
  refine ⟨c', rfl, ?_⟩
  cases c; cases c'
  simp only [ObjectContent.mk.injEq, objectBase.mk.injEq] at hs ⊢
  exact ⟨hs.2, hs.1.2⟩

/-- C20: whenever the traversal from the receiver is finite, `Collect` returns; the registry
it leaves starts with the entries it found (it only appends); the heap holds as many objects
as before, each of the same variant with the same generation; and every Catalog keeps its
`Outline` and `Pages`, every page tree the order and members of `Kids`, every Page its
`MediaBox`, `Contents`, `ProcSet` and the keys and targets of `Fonts`, every content stream
its bytes: what may differ is the identity number and, for a Page, `Parent`. -/
theorem C20_collect_frame (e : Enum) (fuel : Nat) (h : Heap) (a : Addr) (p : ObjectRef)
    (objs l : List Addr) (hl : preorder e fuel h a = some l) :
    ∃ h' : Heap, Collect e fuel h a p objs = some (h', objs ++ l) ∧
      objs <+: objs ++ l ∧ h'.length = h.length ∧
      ∀ (x : Addr) (o : Object), h[x]? = some o →
        ∃ o' : Object, h'[x]? = some o' ∧ o'.shape = o.shape ∧
          o'.Generation = o.Generation ∧
          (∀ c, o = .catalog c → ∃ c', o' = .catalog c' ∧ c'.Outline = c.Outline ∧
            c'.Pages = c.Pages) ∧
          (∀ ps, o = .pages ps → ∃ ps', o' = .pages ps' ∧ ps'.Kids = ps.Kids) ∧
          (∀ pg, o = .page pg → ∃ pg', o' = .page pg' ∧ pg'.MediaBox = pg.MediaBox ∧
            pg'.Contents = pg.Contents ∧ pg'.ProcSet = pg.ProcSet ∧ pg'.Fonts = pg.Fonts) ∧
          (∀ c, o = .content c → ∃ c', o' = .content c' ∧ c'.Content = c.Content) := by
  obtain ⟨h', hc⟩ := Collect_of_preorder e fuel h a p objs l hl
  obtain ⟨l1, -, hlen, hall⟩ := Collect_evolves e fuel h a p objs _ hc
  dsimp only at hlen hall
  refine ⟨h', hc, List.prefix_append _ _, hlen, ?_⟩
  intro x o hx
  obtain ⟨o', ho', hs, -⟩ := hall x o hx
  refine ⟨o', ho', hs, Object.Generation_of_shape hs, ?_, ?_, ?_, ?_⟩
  · intro c hoc
    subst hoc
    obtain ⟨c', h1, h2, h3, -⟩ := Object.shape_eq_catalog hs
    exact ⟨c', h1, h2, h3⟩
  · intro ps hoc
    subst hoc
    obtain ⟨c', h1, h2, -⟩ := Object.shape_eq_pages hs
    exact ⟨c', h1, h2⟩
  · intro pg hoc
    subst hoc
    obtain ⟨c', h1, h2, h3, h4, h5, -⟩ := Object.shape_eq_page hs
    exact ⟨c', h1, h2, h3, h4, h5⟩
  · intro c hoc
    subst hoc
    obtain ⟨c', h1, h2, -⟩ := Object.shape_eq_content hs
    exact ⟨c', h1, h2⟩

theorem C20_collect_frame_witness :
    preorder Enum.reversed 4 twoFontsHeap 0 = some [0, 1, 2, 3, 4, 5, 7, 6] ∧
    ∃ h' : Heap, Collect Enum.reversed 4 twoFontsHeap 0 ⟨0, 0⟩ [5]
        = some (h', [5] ++ [0, 1, 2, 3, 4, 5, 7, 6]) ∧
      [5] <+: [5] ++ [0, 1, 2, 3, 4, 5, 7, 6] ∧ h'.length = twoFontsHeap.length ∧
      ∀ (x : Addr) (o : Object), twoFontsHeap[x]? = some o →
        ∃ o' : Object, h'[x]? = some o' ∧ o'.shape = o.shape ∧
          o'.Generation = o.Generation ∧
          (∀ c, o = .catalog c → ∃ c', o' = .catalog c' ∧ c'.Outline = c.Outline ∧
            c'.Pages = c.Pages) ∧
          (∀ ps, o = .pages ps → ∃ ps', o' = .pages ps' ∧ ps'.Kids = ps.Kids) ∧
          (∀ pg, o = .page pg → ∃ pg', o' = .page pg' ∧ pg'.MediaBox = pg.MediaBox ∧
            pg'.Contents = pg.Contents ∧ pg'.ProcSet = pg.ProcSet ∧ pg'.Fonts = pg.Fonts) ∧
          (∀ c, o = .content c → ∃ c', o' = .content c' ∧ c'.Content = c.Content) :=
  ⟨by decide,
    C20_collect_frame Enum.reversed 4 twoFontsHeap 0 ⟨0, 0⟩ [5] [0, 1, 2, 3, 4, 5, 7, 6]
      (by decide)⟩

/-! ## C18: font references and the enumeration order -/

/-- Without repetition in the registry the identities given out are exactly `1..N`. -/
theorem Collect_ID_set (e : Enum) (fuel : Nat) (h h' : Heap) (root : Addr) (p : ObjectRef)
    (l : List Addr) (hzero : ∀ o ∈ h, o.ID = 0)
    (hc : Collect e fuel h root p [] = some (h', l)) (hnd : l.Nodup) (n : Int) :
    (∃ x ∈ l, (h'[x]?).map Object.ID = some n) ↔ (1 ≤ n ∧ n ≤ (l.length : Int)) := by
  constructor
  · rintro ⟨x, hx, hid⟩
    rw [Collect_ID_first_visit e fuel h h' root p l hzero hc x hx, Option.some.injEq] at hid
    have := List.indexOf_lt_length.mpr hx
    omega
  · rintro ⟨h1, h2⟩
    have hlt : (n - 1).toNat < l.length := by omega
    refine ⟨l[(n - 1).toNat], List.getElem_mem _, ?_⟩
    rw [Collect_ID_first_visit e fuel h h' root p l hzero hc _ (List.getElem_mem _),
      List.indexOf_getElem hnd, Option.some.injEq]
    omega

/-- C18 (amended): with all identities 0 and a traversal that reaches no object twice, for
any two enumerations used by `Collect` and any enumeration used by `writeResource`: both runs
return, their registries hold the same objects, both give out exactly the identities `1..N`,
and for every Page of the registry `writeResource` writes one line `/<name> <id> <gen> R` per
entry of `Fonts`, carrying the identity and generation that the font stored under that name
has after `Collect`. -/
theorem C18_font_references_follow_collect (e1 e2 eW : Enum) (he1 : e1.Valid)
    (he2 : e2.Valid) (heW : eW.Valid) (fuel : Nat) (h : Heap) (root : Addr) (l1 : List Addr)
    (hzero : ∀ o ∈ h, o.ID = 0) (hl1 : preorder e1 fuel h root = some l1)
    (hnd : l1.Nodup) :
    ∃ (h1 h2 : Heap) (l2 : List Addr),
      Collect e1 fuel h root ⟨0, 0⟩ [] = some (h1, l1) ∧
      Collect e2 fuel h root ⟨0, 0⟩ [] = some (h2, l2) ∧
      l1.Perm l2 ∧
      (∀ n : Int, (∃ x ∈ l1, (h1[x]?).map Object.ID = some n) ↔ (1 ≤ n ∧ n ≤ (l1.length : Int))) ∧
      (∀ n : Int, (∃ x ∈ l2, (h2[x]?).map Object.ID = some n) ↔ (1 ≤ n ∧ n ≤ (l1.length : Int))) ∧
      ∀ (a : Addr) (pg : ObjectPage), a ∈ l1 → h1[a]? = some (.page pg) →
        ∃ (ops : Object) (rs : List (Bytes × ObjectRef)),
          h1[pg.ProcSet]? = some ops ∧
          (eW a pg.Fonts).Perm pg.Fonts ∧ rs.length = pg.Fonts.length ∧
          (∀ (i : Nat) (hi : i < (eW a pg.Fonts).length), ∃ o : Object,
            h1[((eW a pg.Fonts)[i]).2]? = some o ∧
            rs[i]? = some (((eW a pg.Fonts)[i]).1, ⟨o.ID, o.Generation⟩)) ∧
          pg.writeResource eW h1 a = some (str "/Resources <<\n"
            ++ (str "/ProcSet " ++ fmtD ops.ID ++ str " " ++ fmtD ops.Generation ++ str " R\n")
            ++ str "/Font <<\n"
            ++ (rs.map fun r =>
                str "/" ++ r.1 ++ str " " ++ fmtD r.2.ID ++ str " " ++ fmtD r.2.Gen
                  ++ str " R\n").flatten
            ++ str ">>\n" ++ str ">>\n") := by
  obtain ⟨h1, hc1⟩ := Collect_of_preorder e1 fuel h root ⟨0, 0⟩ [] l1 hl1
  obtain ⟨l2, hl2, hperm⟩ := preorder_perm he1 he2 h fuel root l1 hl1
  obtain ⟨h2, hc2⟩ := Collect_of_preorder e2 fuel h root ⟨0, 0⟩ [] l2 hl2
  rw [List.nil_append] at hc1 hc2
  have hnd2 : l2.Nodup := hperm.nodup_iff.mp hnd
  refine ⟨h1, h2, l2, hc1, hc2, hperm, Collect_ID_set e1 fuel h h1 root _ l1 hzero hc1 hnd,
    ?_, ?_⟩
  · intro n
    rw [hperm.length_eq]
    exact Collect_ID_set e2 fuel h h2 root _ l2 hzero hc2 hnd2 n
  · intro a pg ha hpg
    have hclosed := Collect_closed he1 fuel h h1 root ⟨0, 0⟩ l1 hc1
    obtain ⟨o, hget, hkids⟩ := hclosed a ha
    rw [hpg] at hget
    cases hget
    have hvalid : ∀ k ∈ (Object.page pg).children, ∃ ok, h1[k]? = some ok := fun k hk => by
      obtain ⟨ok, hok, -⟩ := hclosed k (hkids k hk)
      exact ⟨ok, hok⟩
    obtain ⟨ops, hops⟩ := hvalid pg.ProcSet (by simp [Object.children])
    obtain ⟨rs, hrs⟩ := fontRefsOf_isSome h1 (eW a pg.Fonts) (fun f hf => by
      have hf' : f ∈ pg.Fonts := (heW a pg.Fonts).mem_iff.mp hf
      exact hvalid f.2 (by
        simp only [Object.children, List.mem_cons, List.mem_map]
        exact Or.inr (Or.inr ⟨f, hf', rfl⟩)))
    obtain ⟨hlen, hall⟩ := fontRefsOf_spec h1 (eW a pg.Fonts) rs hrs
    refine ⟨ops, rs, hops, heW a pg.Fonts, by rw [hlen, (heW a pg.Fonts).length_eq], hall, ?_⟩
    rw [ObjectPage_writeResource_eq eW h1 a pg ops rs hops hrs]
    have hmap : (rs.map fun r => str "/" ++ r.1 ++ str " " ++ fmtD r.2.ID ++ str " "
        ++ fmtD r.2.Gen ++ str " R\n") = rs.map fontEntry := by
      apply List.map_congr_left
      intro r _
      simp only [fontEntry, fmtRef, List.append_assoc]
    rw [hmap]
    simp only [fmtRef, List.append_assoc]


theorem C18_font_references_follow_collect_witness :
    (Enum.stored.Valid ∧ Enum.reversed.Valid ∧ Enum.reversed.Valid ∧
      (∀ o ∈ twoFontsHeap, o.ID = 0) ∧
      preorder Enum.stored 4 twoFontsHeap 0 = some [0, 1, 2, 3, 4, 5, 6, 7] ∧
      [0, 1, 2, 3, 4, 5, 6, 7].Nodup) ∧
    ∃ (h1 h2 : Heap) (l2 : List Addr),
      Collect Enum.stored 4 twoFontsHeap 0 ⟨0, 0⟩ [] = some (h1, [0, 1, 2, 3, 4, 5, 6, 7]) ∧
      Collect Enum.reversed 4 twoFontsHeap 0 ⟨0, 0⟩ [] = some (h2, l2) ∧
      [0, 1, 2, 3, 4, 5, 6, 7].Perm l2 ∧
      (∀ n : Int, (∃ x ∈ [0, 1, 2, 3, 4, 5, 6, 7], (h1[x]?).map Object.ID = some n)
        ↔ (1 ≤ n ∧ n ≤ ([0, 1, 2, 3, 4, 5, 6, 7].length : Int))) ∧
      (∀ n : Int, (∃ x ∈ l2, (h2[x]?).map Object.ID = some n)
        ↔ (1 ≤ n ∧ n ≤ ([0, 1, 2, 3, 4, 5, 6, 7].length : Int))) ∧
      ∀ (a : Addr) (pg : ObjectPage), a ∈ [0, 1, 2, 3, 4, 5, 6, 7] →
        h1[a]? = some (.page pg) →
        ∃ (ops : Object) (rs : List (Bytes × ObjectRef)),
          h1[pg.ProcSet]? = some ops ∧
          (Enum.reversed a pg.Fonts).Perm pg.Fonts ∧ rs.length = pg.Fonts.length ∧
          (∀ (i : Nat) (hi : i < (Enum.reversed a pg.Fonts).length), ∃ o : Object,
            h1[((Enum.reversed a pg.Fonts)[i]).2]? = some o ∧
            rs[i]? = some (((Enum.reversed a pg.Fonts)[i]).1, ⟨o.ID, o.Generation⟩)) ∧
          pg.writeResource Enum.reversed h1 a = some (str "/Resources <<\n"
            ++ (str "/ProcSet " ++ fmtD ops.ID ++ str " " ++ fmtD ops.Generation ++ str " R\n")
            ++ str "/Font <<\n"
            ++ (rs.map fun r =>
                str "/" ++ r.1 ++ str " " ++ fmtD r.2.ID ++ str " " ++ fmtD r.2.Gen
                  ++ str " R\n").flatten
            ++ str ">>\n" ++ str ">>\n") :=
  ⟨⟨Enum.stored_valid, Enum.reversed_valid, Enum.reversed_valid, by decide, by decide,
      by decide⟩,
    C18_font_references_follow_collect Enum.stored Enum.reversed Enum.reversed
      Enum.stored_valid Enum.reversed_valid Enum.reversed_valid 4 twoFontsHeap 0
      [0, 1, 2, 3, 4, 5, 6, 7] (by decide) (by decide) (by decide)⟩

/-- C18 (as stated) fails: for a Page whose map stores one font under `F1` and `F2` and
another under `F3` (all identities 0), enumerating in stored order gives out the identities
1, 2, 3, 4, 6 and enumerating in reverse order gives out 1, 2, 3, 4, 5 (listed by heap
address below), so the set of identities depends on the enumeration order. -/
theorem C18_counterexample_identity_set_differs :
    (∀ o ∈ aliasedFontsHeap, o.ID = 0) ∧
    (Collect Enum.stored 2 aliasedFontsHeap 0 ⟨0, 0⟩ []).map
        (fun r => (r.2, r.1.map Object.ID))
      = some ([0, 1, 2, 3, 3, 4], [1, 2, 3, 4, 6]) ∧
    (Collect Enum.reversed 2 aliasedFontsHeap 0 ⟨0, 0⟩ []).map
        (fun r => (r.2, r.1.map Object.ID))
      = some ([0, 1, 2, 4, 3, 3], [1, 2, 3, 5, 4]) := by
  decide

end PPDF
